import Mathlib

/-!
Smart-Afforestation-Go: a shallow embedding of `smart_afforestation.go`.

The genetic-algorithm search of the tree planter is embedded as pure Lean
functions over an explicit state.

Modelling conventions
* Go `int` is `Int`.  The running totals that `getFitness` and `getResults`
  accumulate wrap around at 64 bits (`wrapInt`); slot counts, indices and
  counters are bounded by what the program holds in memory and are not
  wrapped.  Integer division is `Int.tdiv` (truncation towards zero) and a
  zero divisor is a run-time failure.
* Go `float64` is `F64`: rationals extended by `+Inf`, `-Inf` and `NaN`, with
  the IEEE rules for the special values.  Addition, subtraction,
  multiplication and division of finite values round the exact result to the
  nearest binary64 value, ties to even (`F64.rnd`): 53 significant bits,
  exponents down to the subnormal range, overflow to an infinity; every
  operation rounds on its own (no fused multiply-add).  Zero is
  unsigned (it behaves as `+0`).  The conversion `float64(n)` is exact, as it
  is for every `int` up to `2^53` in absolute value.
* A run-time failure of the Go program (index out of range, slice bounds out
  of range, division by zero, `rand.Intn` on a non-positive argument) is the
  result `none`.
* A `[]bool` chromosome is a slice header; `crossover` writes through such
  headers.  The state therefore carries a heap of backing arrays and a
  chromosome is `none` (the nil slice) or the address of its backing array.
  Every chromosome the program creates is made by `make([]bool, M)` and so
  has `len = cap = M` and offset `0`; the header is determined by the address.
* The outcomes of `math/rand` and of `sort.Sort` are explicit arguments.
-/

namespace SmartAfforestation

/-! ## float64 -/

/-- Values of Go `float64`: rationals together with the three special values.  The
values the arithmetic produces are binary64 values. -/
inductive F64 where
  | nan : F64
  | ninf : F64
  | fin (q : ℚ) : F64
  | pinf : F64
deriving DecidableEq

namespace F64

/-- The power `2^e` for an integer exponent. -/
def pow2 (e : Int) : ℚ :=
  if 0 ≤ e then ((2 ^ e.toNat : Nat) : ℚ) else ((2 ^ (-e).toNat : Nat) : ℚ)⁻¹

/-- The integer nearest to `x`, the even one of the two when `x` lies half way. -/
def nearestEven (x : ℚ) : Int :=
  if x - ⌊x⌋ < 1 / 2 then ⌊x⌋
  else if 1 / 2 < x - ⌊x⌋ then ⌊x⌋ + 1
  else if ⌊x⌋ % 2 = 0 then ⌊x⌋ else ⌊x⌋ + 1

/-- The number of halvings that bring `n` below `2`, at most `fuel` of them. -/
def log2Fuel : Nat → Nat → Nat
  | 0, _ => 0
  | fuel + 1, n => if 2 ≤ n then log2Fuel fuel (n / 2) + 1 else 0

/-- The position of the leading bit of `n`. -/
def natLog2 (n : Nat) : Nat := log2Fuel n n

/-- The integer `k` with `2^k <= a < 2^(k+1)`, for `a > 0`. -/
def ilog2 (a : ℚ) : Int :=
  if pow2 ((natLog2 a.num.natAbs : Int) - (natLog2 a.den : Int)) ≤ a
  then (natLog2 a.num.natAbs : Int) - (natLog2 a.den : Int)
  else (natLog2 a.num.natAbs : Int) - (natLog2 a.den : Int) - 1

/-- The exponent of the unit in the last place of the binary64 values around `a > 0`:
53 significant bits, and `-1074` throughout the subnormal range. -/
def expOf (a : ℚ) : Int := max (ilog2 a - 52) (-1074)

/-- The multiple of `2^(expOf a)` nearest to `a > 0`, ties to the even multiple. -/
def roundAbs (a : ℚ) : ℚ := (nearestEven (a / pow2 (expOf a)) : ℚ) * pow2 (expOf a)

/-- Rounding of an exact result to binary64: to the nearest value, ties to even; a
result that rounds to `2^1024` or beyond becomes an infinity. -/
def rnd (q : ℚ) : F64 :=
  if q = 0 then fin 0
  else if pow2 1024 ≤ roundAbs |q| then (if 0 < q then pinf else ninf)
  else fin (if 0 < q then roundAbs |q| else -roundAbs |q|)

/-- Floating point addition `x + y`. -/
def add : F64 → F64 → F64
  | nan, _ => nan
  | _, nan => nan
  | ninf, pinf => nan
  | pinf, ninf => nan
  | ninf, _ => ninf
  | _, ninf => ninf
  | pinf, _ => pinf
  | _, pinf => pinf
  | fin a, fin b => rnd (a + b)

/-- Floating point negation `-x`. -/
def neg : F64 → F64
  | nan => nan
  | ninf => pinf
  | fin a => fin (-a)
  | pinf => ninf

/-- Floating point subtraction `x - y`. -/
def sub (x y : F64) : F64 := add x (neg y)

/-- The function `math.Abs`. -/
def abs : F64 → F64
  | nan => nan
  | ninf => pinf
  | fin a => fin |a|
  | pinf => pinf

/-- An infinity of the sign of `q` times the sign given by `pos`; `NaN` when `q = 0`. -/
def infTimes (pos : Bool) (q : ℚ) : F64 :=
  if q = 0 then nan
  else if (0 < q) = pos then pinf else ninf

/-- Floating point multiplication `x * y`. -/
def mul : F64 → F64 → F64
  | nan, _ => nan
  | _, nan => nan
  | ninf, ninf => pinf
  | ninf, pinf => ninf
  | pinf, ninf => ninf
  | pinf, pinf => pinf
  | ninf, fin b => infTimes false b
  | pinf, fin b => infTimes true b
  | fin a, ninf => infTimes false a
  | fin a, pinf => infTimes true a
  | fin a, fin b => rnd (a * b)

/-- Floating point division `x / y` (a zero divisor counts as `+0`). -/
def div : F64 → F64 → F64
  | nan, _ => nan
  | _, nan => nan
  | ninf, ninf => nan
  | ninf, pinf => nan
  | pinf, ninf => nan
  | pinf, pinf => nan
  | ninf, fin b => if b < 0 then pinf else ninf
  | pinf, fin b => if b < 0 then ninf else pinf
  | fin _, ninf => fin 0
  | fin _, pinf => fin 0
  | fin a, fin b => if b = 0 then infTimes true a else rnd (a / b)

/-- The comparison `x < y`; false as soon as one side is `NaN`. -/
def lt : F64 → F64 → Bool
  | nan, _ => false
  | _, nan => false
  | _, ninf => false
  | ninf, _ => true
  | pinf, _ => false
  | fin _, pinf => true
  | fin a, fin b => decide (a < b)

/-- The comparison `x > y`. -/
def gt (x y : F64) : Bool := lt y x

/-- The comparison `x <= y`; false as soon as one side is `NaN`. -/
def le : F64 → F64 → Bool
  | nan, _ => false
  | _, nan => false
  | ninf, _ => true
  | _, ninf => false
  | _, pinf => true
  | pinf, fin _ => false
  | fin a, fin b => decide (a ≤ b)

/-- The function `math.IsNaN`. -/
def isNaN : F64 → Bool
  | nan => true
  | _ => false

/-- The function `math.Min`: `-Inf` wins, then `NaN`. -/
def min (x y : F64) : F64 :=
  if x = ninf ∨ y = ninf then ninf
  else if x = nan ∨ y = nan then nan
  else if lt x y then x else y

/-- The function `math.Max`: `+Inf` wins, then `NaN`. -/
def max (x y : F64) : F64 :=
  if x = pinf ∨ y = pinf then pinf
  else if x = nan ∨ y = nan then nan
  else if gt x y then x else y

/-- The conversion `float64(n)` of an `int`, exact for `|n| <= 2^53`. -/
def ofInt (n : Int) : F64 := fin (n : ℚ)

/-- The conversion `int(x)`: truncation towards zero.  The result for `NaN` and the
infinities is implementation-specific in Go and is left undefined. -/
def toInt : F64 → Option Int
  | fin q => some (Int.tdiv q.num (q.den : Int))
  | _ => none

end F64

/-! ## Data model -/

/-- One record of the item catalog (`struct info`). -/
structure info where
  PlantSpecies : String
  CommonName : String
  LifeForm : String
  ZoneI : F64
  ZoneII : F64
  ZoneIII : F64
  ZoneIV : F64
  CanopyDiameter : Int
  Utility : F64
  Cost : Int
  Area : Int

/-- The heap of `[]bool` backing arrays; an address is an index into it. -/
abbrev Heap := List (List Bool)

/-- A `[]bool` slice header: `none` is the nil slice, `some a` the whole backing array at `a`. -/
abbrev Slice := Option Nat

/-- The state `struct TreePlanter`, together with the heap its slices point into. -/
structure TreePlanter where
  numOfChromosomes : Nat
  areaLimit : Int
  costLimit : Int
  population : Int
  level : String
  zone : String
  score : List F64
  area : List Int
  cost : List Int
  sampleSet : List Nat
  bestFit : F64
  chromosomes : List Slice
  bestChromosome : Slice
  totalFit : List F64
  lastFit : F64
  repCount : Int
  minc : F64
  maxc : F64
  heap : Heap
deriving DecidableEq

/-- The contents a slice header gives access to (`none`: dangling address). -/
def deref (heap : Heap) : Slice → Option (List Bool)
  | none => some []
  | some a => heap[a]?

/-! ## Quality index and scores -/

/-- The function `getAqiRange`: severity label and priority zone of a quality index. -/
def getAqiRange (AQI : Int) : String × String :=
  if AQI ≤ 50 then ("Good", "Zone IV")
  else if 50 < AQI ∧ AQI ≤ 100 then ("Moderate", "Zone IV")
  else if 100 < AQI ∧ AQI ≤ 150 then ("Unhealthy for sensitive groups", "Zone III")
  else if 150 < AQI ∧ AQI ≤ 200 then ("Unhealthy", "Zone III")
  else if 200 < AQI ∧ AQI ≤ 300 then ("Very Unhealthy", "Zone II")
  else ("Hazardous", "Zone I")

/-- The zone score `initScoreAreaCost` picks for one item (default `ZoneII`). -/
def zoneScore (zone : String) (t : info) : F64 :=
  if zone = "Zone I" then t.ZoneI
  else if zone = "Zone II" then t.ZoneII
  else if zone = "Zone III" then t.ZoneIII
  else if zone = "Zone IV" then t.ZoneIV
  else t.ZoneII

/-- The method `initScoreAreaCost`; `treeTypesCount` is `len(TreeInfo)`. -/
def initScoreAreaCost (TreeInfo : List info) (p : TreePlanter) (w1 w2 : F64) : TreePlanter :=
  { p with
    area := TreeInfo.map (fun t => t.Area)
    cost := TreeInfo.map (fun t => t.Cost)
    score := TreeInfo.map (fun t =>
      F64.mul (F64.add (F64.mul w1 (zoneScore p.zone t)) (F64.mul w2 t.Utility))
        (F64.ofInt t.Area)) }

/-! ## Sampling set -/

/-- Go integer division `a / b`: fails on a zero divisor, truncates otherwise. -/
def goDiv (a b : Int) : Option Int :=
  if b = 0 then none else some (Int.tdiv a b)

/-- One iteration (index `i`) of the loop of `getSamplingSet`. -/
def getSamplingSetBody (p : TreePlanter) (i : Nat) : Option TreePlanter := do
  let c ← p.cost[i]?
  let qc ← goDiv p.costLimit c
  let a ← p.area[i]?
  let qa ← goDiv p.areaLimit a
  let count := F64.min (F64.ofInt qc) (F64.ofInt qa)
  let n ← count.toInt
  if n < 0 then none
  else
    some { p with
      minc := F64.min count p.minc
      maxc := F64.max count p.maxc
      sampleSet := p.sampleSet ++ List.replicate n.toNat i }

/-- The state of `getSamplingSet` after the first `k` iterations of its loop. -/
def getSamplingSetLoop (p : TreePlanter) : Nat → Option TreePlanter
  | 0 => some { p with minc := F64.pinf, maxc := F64.ninf }
  | k + 1 => do
    let q ← getSamplingSetLoop p k
    getSamplingSetBody q k

/-- The method `getSamplingSet`, for a catalog of `treeTypesCount` items. -/
def getSamplingSet (treeTypesCount : Nat) (p : TreePlanter) : Option TreePlanter :=
  getSamplingSetLoop p treeTypesCount

/-! ## Fitness -/

/-- The value an `int` computation yields for the exact result `x`: the 64-bit
two's complement value congruent to `x` modulo `2^64`. -/
def wrapInt (x : Int) : Int := (x + 2 ^ 63) % 2 ^ 64 - 2 ^ 63

/-- The pair `(totalCost, totalArea)` of `getFitness` after the first `k` iterations
of its first loop. -/
def costAreaLoop (p : TreePlanter) (chromosome : List Bool) : Nat → Option (Int × Int)
  | 0 => some (0, 0)
  | k + 1 => do
    let acc ← costAreaLoop p chromosome k
    let b ← chromosome[k]?
    if b then
      let s ← p.sampleSet[k]?
      let c ← p.cost[s]?
      let a ← p.area[s]?
      some (wrapInt (acc.1 + c), wrapInt (acc.2 + a))
    else some acc

/-- The value `totalScore` of `getFitness` after the first `k` iterations of its
second loop. -/
def scoreLoop (p : TreePlanter) (chromosome : List Bool) : Nat → Option F64
  | 0 => some (F64.fin 0)
  | k + 1 => do
    let acc ← scoreLoop p chromosome k
    let b ← chromosome[k]?
    if b then
      let s ← p.sampleSet[k]?
      let v ← p.score[s]?
      some (F64.add acc v)
    else some acc

/-- The body of `getFitness` on the contents of the chromosome. -/
def fitnessOf (p : TreePlanter) (chromosome : List Bool) : Option F64 := do
  let N := chromosome.length
  let tot ← costAreaLoop p chromosome N
  if tot.1 > p.costLimit ∨ tot.2 > p.areaLimit then some F64.ninf
  else
    let totalScore ← scoreLoop p chromosome N
    let totalScore := F64.div totalScore (F64.ofInt p.population)
    some (F64.mul totalScore (F64.fin 100))

/-- The method `getFitness(idx)`. -/
def getFitness (p : TreePlanter) (idx : Nat) : Option F64 := do
  let sl ← p.chromosomes[idx]?
  let chromosome ← deref p.heap sl
  fitnessOf p chromosome

/-! ## Random population -/

/-- The call `rand.Intn(n)`: fails for `n <= 0`; any value of `[0, n)` is obtained from
a suitable `draw`. -/
def randIntn (n : Int) (draw : Nat) : Option Int :=
  if n ≤ 0 then none else some ((draw : Int) % n)

/-- The function `randInt`. -/
def randInt (min max : Int) (draw : Nat) : Option Int := do
  let r ← randIntn (max - min + 1) draw
  some (r + min)

/-- The loop `for _, j := range idx { c[j] = true }` on the contents `c`. -/
def setBits (c : List Bool) : List Nat → Option (List Bool)
  | [] => some c
  | j :: js => if j < c.length then setBits (c.set j true) js else none

/-- The first two statements of `initChromosomes`: a fresh population of
`numOfChromosomes` all-false chromosomes of length `len(sampleSet)`. -/
def allocChromosomes (p : TreePlanter) : TreePlanter :=
  { p with
    heap := p.heap ++ List.replicate p.numOfChromosomes
      (List.replicate p.sampleSet.length false)
    chromosomes := (List.range p.numOfChromosomes).map (fun i => some (p.heap.length + i)) }

/-- One iteration (index `i`) of the second loop of `initChromosomes`; `draw` is the
outcome behind `rand.Intn` and `perm` the outcome of `rand.Perm`. -/
def initChromosomesBody (p : TreePlanter) (draw : Nat) (perm : List Nat) (i : Nat) :
    Option TreePlanter := do
  let lo ← p.minc.toInt
  let hi ← p.maxc.toInt
  let choose ← randInt lo hi draw
  let sl ← p.chromosomes[i]?
  let c ← deref p.heap sl
  if choose < 0 ∨ choose > (c.length : Int) then none
  else
    let idx := perm.take choose.toNat
    let c1 ← setBits c idx
    match sl with
    | none => some p
    | some a => some { p with heap := p.heap.set a c1 }

/-- The state of `initChromosomes` after the first `k` iterations of its second loop. -/
def initChromosomesLoop (p : TreePlanter) (draw : Nat → Nat) (perm : Nat → List Nat) :
    Nat → Option TreePlanter
  | 0 => some (allocChromosomes p)
  | k + 1 => do
    let q ← initChromosomesLoop p draw perm k
    initChromosomesBody q (draw k) (perm k) k

/-- The method `initChromosomes`. -/
def initChromosomes (p : TreePlanter) (draw : Nat → Nat) (perm : Nat → List Nat) :
    Option TreePlanter :=
  initChromosomesLoop p draw perm p.numOfChromosomes

/-- The zero value `TreePlanter{}` on an empty heap. -/
def zeroPlanter : TreePlanter :=
  { numOfChromosomes := 0, areaLimit := 0, costLimit := 0, population := 0,
    level := "", zone := "", score := [], area := [], cost := [], sampleSet := [],
    bestFit := F64.fin 0, chromosomes := [], bestChromosome := none, totalFit := [],
    lastFit := F64.fin 0, repCount := 0, minc := F64.fin 0, maxc := F64.fin 0, heap := [] }

/-- The method `init` on a receiver `p`; `numOfChromosomes` is the variadic argument. -/
def init (TreeInfo : List info) (p : TreePlanter) (AQI areaLimit costLimit population : Int)
    (numOfChromosomes : List Nat) (draw : Nat → Nat) (perm : Nat → List Nat) :
    Option TreePlanter := do
  let p := { p with numOfChromosomes := numOfChromosomes.headD 20 }
  let p := { p with areaLimit := areaLimit, costLimit := costLimit, population := population }
  let p := { p with level := (getAqiRange AQI).1, zone := (getAqiRange AQI).2 }
  let p := initScoreAreaCost TreeInfo p (F64.fin 20) (F64.fin 5)
  let p ← getSamplingSet TreeInfo.length p
  let p ← initChromosomes p draw perm
  some { p with
    bestFit := F64.ninf
    totalFit := List.replicate p.numOfChromosomes F64.ninf
    lastFit := F64.ninf }

/-! ## One generation -/

/-- The state after the first `k` iterations of the loop
`totalFit[i] = getFitness(i)` of `runSearch`. -/
def evalLoop (p : TreePlanter) : Nat → Option TreePlanter
  | 0 => some p
  | k + 1 => do
    let q ← evalLoop p k
    let v ← getFitness q k
    if k < q.totalFit.length then some { q with totalFit := q.totalFit.set k v } else none

/-- The pair `(currBestFit, currBestCh)` of `runSearch` after the first `k` iterations
of the loop over `totalFit`. -/
def bestLoop (totalFit : List F64) (chromosomes : List Slice) : Nat → Option (F64 × Slice)
  | 0 => some (F64.ninf, none)
  | k + 1 => do
    let acc ← bestLoop totalFit chromosomes k
    let v ← totalFit[k]?
    if F64.gt v acc.1 then
      let ch ← chromosomes[k]?
      some (v, ch)
    else some acc

/-- The generation-best selection of `runSearch`. -/
def selectBest (totalFit : List F64) (chromosomes : List Slice) : Option (F64 × Slice) :=
  bestLoop totalFit chromosomes totalFit.length

/-- The value `relErr` of `runSearch`. -/
def relErr (currBestFit lastFit : F64) : F64 :=
  F64.div (F64.abs (F64.sub currBestFit lastFit)) currBestFit

/-- The condition `relErr <= 0.5 || math.IsNaN(relErr)`. -/
def stagnant (currBestFit lastFit : F64) : Bool :=
  F64.le (relErr currBestFit lastFit) (F64.fin (1 / 2)) || F64.isNaN (relErr currBestFit lastFit)

/-- The part of one generation of `runSearch` before the restart test: fitness
evaluation, best tracking, stagnation check, `lastFit` update.  The second component
is the generation's best fitness `currBestFit`. -/
def evalPhase (p : TreePlanter) : Option (TreePlanter × F64) := do
  let p ← evalLoop p p.numOfChromosomes
  let best ← selectBest p.totalFit p.chromosomes
  let p := if F64.gt best.1 p.bestFit
    then { p with bestFit := best.1, bestChromosome := best.2 } else p
  let p := if stagnant best.1 p.lastFit then { p with repCount := p.repCount + 1 } else p
  some ({ p with lastFit := best.1 }, best.1)

/-! ## Crossover -/

/-- The outcome of `sort.Sort(twoArr{chromosomes, totalFit})` when the entry that ends
at rank `r` is the one that stood at index `σ[r]`. -/
def applySort (p : TreePlanter) (σ : List Nat) : Option TreePlanter := do
  let cs ← σ.mapM (fun k => p.chromosomes[k]?)
  let fs ← σ.mapM (fun k => p.totalFit[k]?)
  some { p with chromosomes := cs, totalFit := fs ++ p.totalFit.drop σ.length }

/-- What `sort.Sort` guarantees of `σ` on the fitness vector `fit` of a population of
`X` chromosomes: a permutation of the indices that leaves no inversion. -/
def IsSortOutcome (fit : List F64) (X : Nat) (σ : List Nat) : Prop :=
  σ.Perm (List.range X) ∧
  ∀ s, s < σ.length → ∀ r, r < s →
    F64.lt (fit.getD (σ.getD s 0) F64.nan) (fit.getD (σ.getD r 0) F64.nan) = false

/-- The expression `append(s[:piv], t[piv:]...)` for two chromosomes of one length and
a pivot `piv >= 1`: the capacity of `s` suffices, so the tail of `t` is written into
the backing array of `s` and the result is a header on that same array.  Slicing a nil
slice at `piv >= 1` or beyond the length fails. -/
def appendSlices (heap : Heap) (s t : Slice) (piv : Nat) : Option (Heap × Slice) :=
  match s, t with
  | some a, some b => do
    let la ← heap[a]?
    let lb ← heap[b]?
    if piv ≤ la.length ∧ piv ≤ lb.length ∧ lb.length = la.length then
      some (heap.set a (la.take piv ++ lb.drop piv), some a)
    else none
  | _, _ => none

/-- The assignment `newChrom[k] = v`. -/
def assignAt (newChrom : List Slice) (k : Nat) (v : Slice) : Option (List Slice) :=
  if k < newChrom.length then some (newChrom.set k v) else none

/-- One iteration (index `i`) of the loop of `crossover` on the sorted population
`chromosomes`; the state is the heap and `newChrom`. -/
def crossoverBody (chromosomes : List Slice) (M X : Nat) (draw : Nat)
    (st : Heap × List Slice) (i : Nat) : Option (Heap × List Slice) := do
  let piv ← randInt 1 ((M : Int) - 2) draw
  let ci ← chromosomes[i]?
  let cj ← chromosomes[X / 2 - i - 1]?
  let r1 ← appendSlices st.1 ci cj piv.toNat
  let n1 ← assignAt st.2 i r1.2
  let r2 ← appendSlices r1.1 cj ci piv.toNat
  let n2 ← assignAt n1 (X - i - 1) r2.2
  let n3 ← assignAt n2 (X / 2 - i - 1) ci
  let n4 ← assignAt n3 (X / 2 + i) cj
  some (r2.1, n4)

/-- The heap and `newChrom` after the first `k` iterations of the loop of `crossover`. -/
def crossoverLoop (chromosomes : List Slice) (M X : Nat) (draw : Nat → Nat) (heap : Heap) :
    Nat → Option (Heap × List Slice)
  | 0 => some (heap, List.replicate X none)
  | k + 1 => do
    let st ← crossoverLoop chromosomes M X draw heap k
    crossoverBody chromosomes M X (draw k) st k

/-- The method `crossover`: `σ` is the outcome of the sort, `draw i` the outcome behind
the pivot of iteration `i`. -/
def crossover (p : TreePlanter) (σ : List Nat) (draw : Nat → Nat) : Option TreePlanter := do
  let M := p.sampleSet.length
  let X := p.numOfChromosomes
  let p ← applySort p σ
  let st ← crossoverLoop p.chromosomes M X draw p.heap (X / 2)
  some { p with heap := st.1, chromosomes := st.2 }

/-! ## The search loop -/

/-- The random and sorting outcomes one generation consumes. -/
structure Draws where
  sortPerm : List Nat
  pivot : Nat → Nat
  choose : Nat → Nat
  perm : Nat → List Nat

/-- The branch a generation of `runSearch` ends in. -/
inductive Branch where
  | restart : Branch
  | crossover : Branch
deriving DecidableEq

/-- One iteration of the loop of `runSearch`, with the branch it took. -/
def generation (maxRep : Int) (p : TreePlanter) (d : Draws) : Option (TreePlanter × Branch) := do
  let r ← evalPhase p
  let p := r.1
  if p.repCount ≥ maxRep then
    let p ← initChromosomes { p with repCount := 0 } d.choose d.perm
    some (p, Branch.restart)
  else
    let p ← crossover p d.sortPerm d.pivot
    some (p, Branch.crossover)

/-- The loop of `runSearch` for as many generations as the wall clock allows, one
entry of `ds` per generation: the states at the end of the successive generations, each
with the branch that generation took. -/
def runGenerations (maxRep : Int) (p : TreePlanter) :
    List Draws → Option (List (TreePlanter × Branch))
  | [] => some []
  | d :: ds => do
    let r ← generation maxRep p d
    let rest ← runGenerations maxRep r.1 ds
    some (r :: rest)

/-- The method `runSearch`: the state when the loop is left after `ds.length`
generations. -/
def runSearch (maxRep : Int) (p : TreePlanter) (ds : List Draws) : Option TreePlanter :=
  (runGenerations maxRep p ds).map (fun tr => (tr.getLast?.map Prod.fst).getD p)

/-! ## Result extraction -/

/-- The map `trees` of `getResults` (`map[string]int`): keys are distinct and kept in the
order of their first insertion. -/
abbrev CountMap := List (String × Int)

/-- The read `trees[k]`: a missing key reads as `0`. -/
def countOf : CountMap → String → Int
  | [], _ => 0
  | (k1, v) :: m, k => if k1 = k then v else countOf m k

/-- The statement `trees[k]++`. -/
def incr : CountMap → String → CountMap
  | [], k => [(k, 1)]
  | (k1, v) :: m, k => if k1 = k then (k1, v + 1) :: m else (k1, v) :: incr m k

/-- The read `TreeIdx[k]` of the name index (`map[string]uint8`): a missing key reads as
`0`. -/
def lookupIdx : List (String × Nat) → String → Nat
  | [], _ => 0
  | (k1, v) :: m, k => if k1 = k then v else lookupIdx m k

/-- The map `trees` of `getResults` after the first `k` iterations of its first loop;
`best` is the contents of `bestChromosome`. -/
def decodeLoop (TreeInfo : List info) (p : TreePlanter) (best : List Bool) :
    Nat → Option CountMap
  | 0 => some []
  | k + 1 => do
    let trees ← decodeLoop TreeInfo p best k
    let s ← p.sampleSet[k]?
    let b ← best[k]?
    if b then
      let t ← TreeInfo[s]?
      some (incr trees t.CommonName)
    else some trees

/-- The triple `(totalScore, usedArea, usedCost)` of `getResults` after the first `k`
entries of `visit`, the entries of `trees` in the order the `range` loop yields them. -/
def totalsLoop (TreeIdx : List (String × Nat)) (p : TreePlanter) (visit : CountMap) :
    Nat → Option (F64 × Int × Int)
  | 0 => some (F64.fin 0, 0, 0)
  | k + 1 => do
    let acc ← totalsLoop TreeIdx p visit k
    let e ← visit[k]?
    let sc ← p.score[lookupIdx TreeIdx e.1]?
    let a ← p.area[lookupIdx TreeIdx e.1]?
    let c ← p.cost[lookupIdx TreeIdx e.1]?
    some (F64.add acc.1 (F64.mul sc (F64.ofInt e.2)),
      wrapInt (acc.2.1 + wrapInt (a * e.2)), wrapInt (acc.2.2 + wrapInt (c * e.2)))

/-- The method `getResults`, returning what it prints: the map `trees`, the score, the
area and the cost.  `order` is the order in which Go iterates over the map (it is
unspecified: any rearrangement of the entries). -/
def getResults (TreeInfo : List info) (TreeIdx : List (String × Nat))
    (order : CountMap → CountMap) (p : TreePlanter) :
    Option (CountMap × F64 × Int × Int) := do
  let best ← deref p.heap p.bestChromosome
  let trees ← decodeLoop TreeInfo p best p.sampleSet.length
  let tot ← totalsLoop TreeIdx p (order trees) (order trees).length
  some (trees, F64.div tot.1 (F64.ofInt p.population), tot.2.1, tot.2.2)

/-! ## Decoded totals of a chromosome -/

/-- The true slots among the first `k` slots of a chromosome, in increasing order. -/
def trueSlots (ch : List Bool) (k : Nat) : List Nat :=
  (List.range k).filter (fun j => ch.getD j false)

/-- The sum of `vals[sampleSet[j]]` over the true slots `j` of a chromosome. -/
def decodedTotal (vals : List Int) (sampleSet : List Nat) (ch : List Bool) : Int :=
  ((trueSlots ch ch.length).map (fun j => vals.getD (sampleSet.getD j 0) 0)).sum

/-- The floating point sum of `score[sampleSet[j]]` over the true slots `j`, added in
increasing slot order from `0`. -/
def decodedScore (score : List F64) (sampleSet : List Nat) (ch : List Bool) : F64 :=
  (trueSlots ch ch.length).foldl
    (fun acc j => F64.add acc (score.getD (sampleSet.getD j 0) (F64.fin 0))) (F64.fin 0)

/-- Every slot of the sampling set names an item that has a cost, an area and a score. -/
def SlotsValid (p : TreePlanter) : Prop :=
  ∀ s ∈ p.sampleSet, s < p.cost.length ∧ s < p.area.length ∧ s < p.score.length

/-- The chromosome stored at index `idx` of the population, as `getFitness` reads it. -/
def chromosomeAt (p : TreePlanter) (idx : Nat) : Option (List Bool) :=
  (p.chromosomes[idx]?).bind (deref p.heap)

/-! ## The sampling set as the spec describes it -/

/-- The number of slots of item `i`: `min(costLimit / cost[i], areaLimit / area[i])`
with integer (floor) division. -/
def itemCount (p : TreePlanter) (i : Nat) : Nat :=
  (min (p.costLimit / p.cost.getD i 1) (p.areaLimit / p.area.getD i 1)).toNat

/-- The slots of the first `k` items: `itemCount i` copies of `i`, for `i` increasing. -/
def slotsUpTo (p : TreePlanter) (k : Nat) : List Nat :=
  (List.range k).flatMap (fun i => List.replicate (itemCount p i) i)

/-- The running minimum `minc` over the counts of the first `k` items. -/
def mincUpTo (p : TreePlanter) (k : Nat) : F64 :=
  (List.range k).foldl (fun acc i => F64.min (F64.ofInt (itemCount p i)) acc) F64.pinf

/-- The running maximum `maxc` over the counts of the first `k` items. -/
def maxcUpTo (p : TreePlanter) (k : Nat) : F64 :=
  (List.range k).foldl (fun acc i => F64.max (F64.ofInt (itemCount p i)) acc) F64.ninf

/-- A catalog record with one score for every zone. -/
def mkInfo (name : String) (z u : ℚ) (c a : Int) : info :=
  { PlantSpecies := name, CommonName := name, LifeForm := "tree",
    ZoneI := F64.fin z, ZoneII := F64.fin z, ZoneIII := F64.fin z, ZoneIV := F64.fin z,
    CanopyDiameter := 0, Utility := F64.fin u, Cost := c, Area := a }

/-- The catalog of the end-to-end scenario: item A (cost 10, area 5, zone score 8,
utility 2) and item B (cost 5, area 10, zone score 3, utility 9). -/
def scenarioCatalog : List info := [mkInfo "A" 8 2 10 5, mkInfo "B" 3 9 5 10]

/-- The scenario state (limits 20, target population 1) on a given heap, one
chromosome per backing array. -/
def scenarioPlanter (heap : Heap) : TreePlanter :=
  { zeroPlanter with
    numOfChromosomes := heap.length, areaLimit := 20, costLimit := 20, population := 1
    level := "Good", zone := "Zone IV"
    score := [F64.fin 850, F64.fin 1050], area := [5, 10], cost := [10, 5]
    sampleSet := [0, 0, 1, 1]
    bestFit := F64.ninf, lastFit := F64.ninf
    totalFit := List.replicate heap.length F64.ninf
    chromosomes := (List.range heap.length).map some
    minc := F64.fin 2, maxc := F64.fin 2
    heap := heap }

/-- A second catalog: item A (cost 2, area 1, score 40), item B (cost 1, area 1,
score 20). -/
def smallCatalog : List info := [mkInfo "A" 2 0 2 1, mkInfo "B" 1 0 1 1]

/-- The state for `smallCatalog` with both limits 3 and target population 1: the
sampling set is `[0, 1, 1, 1]`, one chromosome per backing array of `heap`. -/
def smallPlanter (heap : Heap) : TreePlanter :=
  { zeroPlanter with
    numOfChromosomes := heap.length, areaLimit := 3, costLimit := 3, population := 1
    level := "Good", zone := "Zone IV"
    score := [F64.fin 40, F64.fin 20], area := [1, 1], cost := [2, 1]
    sampleSet := [0, 1, 1, 1]
    bestFit := F64.ninf, lastFit := F64.ninf
    totalFit := List.replicate heap.length F64.ninf
    chromosomes := (List.range heap.length).map some
    minc := F64.fin 1, maxc := F64.fin 3
    heap := heap }

/-! ## Crossover as the spec describes it -/

/-- The contents of the population, one entry per rank. -/
def populationContents (p : TreePlanter) : List (Option (List Bool)) :=
  p.chromosomes.map (deref p.heap)

/-- Child A of iteration `i`: bits `[0, piv)` of the parent at rank `i` followed by bits
`[piv, M)` of the parent at rank `h - 1 - i`, parents taken from the sorted
population `P`. -/
def childA (P : List (List Bool)) (h i piv : Nat) : List Bool :=
  (P.getD i []).take piv ++ (P.getD (h - 1 - i) []).drop piv

/-- Child B of iteration `i`: bits `[0, piv)` of the parent at rank `h - 1 - i` followed
by bits `[piv, M)` of the parent at rank `i`. -/
def childB (P : List (List Bool)) (h i piv : Nat) : List Bool :=
  (P.getD (h - 1 - i) []).take piv ++ (P.getD i []).drop piv

/-- The next generation of a sorted population `P` of size `2 * h` when every child is
cut from the parents as they stood in `P`: for `r < h`, rank `r` holds child A of `r`
and rank `2 * h - 1 - r` child B of `r` when `r > h - 1 - r`, and otherwise the
unmodified parents of ranks `h - 1 - r` and `r`. -/
def copyingCrossover (P : List (List Bool)) (h : Nat) (piv : Nat → Nat) : List (List Bool) :=
  (List.range (2 * h)).map (fun rank =>
    if rank < h then
      if rank > h - 1 - rank then childA P h rank (piv rank) else P.getD (h - 1 - rank) []
    else
      if 2 * h - 1 - rank > h - 1 - (2 * h - 1 - rank)
      then childB P h (2 * h - 1 - rank) (piv (2 * h - 1 - rank))
      else P.getD (2 * h - 1 - rank) [])

/-- Sorting and random outcomes of a generation that leaves the population in place,
cuts at pivot `1` and, on a restart, sets the first three slots. -/
def plainDraws : Draws :=
  { sortPerm := [0, 1, 2, 3], pivot := fun _ => 0, choose := fun _ => 2,
    perm := fun _ => [0, 1, 2, 3] }

/-- Four copies of the chromosome `[A, B, B, -]`, of total cost `4 > 3`: a population in
which every chromosome is infeasible, and stays so under `plainDraws`. -/
def infeasibleStart : TreePlanter :=
  smallPlanter [[true, true, true, false], [true, true, true, false],
    [true, true, true, false], [true, true, true, false]]

/-- A slice header that addresses a backing array of length `M`. -/
def ValidSlice (heap : Heap) (M : Nat) (sl : Slice) : Prop :=
  ∃ a ch, sl = some a ∧ heap[a]? = some ch ∧ ch.length = M

/-- The ranks of `newChrom` that the first `k` iterations of the loop of `crossover`
have certainly assigned. -/
def Assigned (X k j : Nat) : Prop :=
  j < k ∨ (X / 2 ≤ j ∧ j < X / 2 + k) ∨ X - k ≤ j

/-- The invariant of the loop of `crossover` on the sorted population `chs`: every
parent still addresses an array of length `M`, `newChrom` has `X` entries, and every
assigned rank holds one of the parents' slices. -/
def CrossInv (chs : List Slice) (M X k : Nat) (st : Heap × List Slice) : Prop :=
  (∀ sl ∈ chs, ValidSlice st.1 M sl) ∧ st.2.length = X ∧
  ∀ j, j < X → Assigned X k j → ∃ sl ∈ chs, st.2[j]? = some sl

/-- The state for `smallCatalog` before `getSamplingSet`: limits 3, two chromosomes to
create, empty sampling set, empty heap. -/
def smallBefore : TreePlanter :=
  { smallPlanter [] with sampleSet := [], numOfChromosomes := 2 }

/-! ## Runs -/

/-- The state in which generation `n + 1` of a run starts: the initial state `p` for
`n = 0`, else the state at the end of generation `n` of the trace `tr`. -/
def stateBefore (p : TreePlanter) (tr : List (TreePlanter × Branch)) : Nat → TreePlanter
  | 0 => p
  | n + 1 => ((tr[n]?).map Prod.fst).getD p

/-- The band of the six-band quality table an index falls in, numbered from the lowest. -/
def aqiBand (AQI : Int) : Nat :=
  if AQI ≤ 50 then 0 else if AQI ≤ 100 then 1 else if AQI ≤ 150 then 2
  else if AQI ≤ 200 then 3 else if AQI ≤ 300 then 4 else 5

/-! ## Catalog, sampling bounds and scores -/

/-- The number of slots the loop of `getSamplingSet` appends for item `j`, with Go's
truncating division. -/
def rawCount (p : TreePlanter) (j : Nat) : Nat :=
  (min (Int.tdiv p.costLimit (p.cost.getD j 1)) (Int.tdiv p.areaLimit (p.area.getD j 1))).toNat

/-- The state `init` hands to `getSamplingSet`. -/
def beforeSampling (TreeInfo : List info) (p : TreePlanter)
    (AQI areaLimit costLimit population : Int) (numOfChromosomes : List Nat) : TreePlanter :=
  initScoreAreaCost TreeInfo
    { p with
      numOfChromosomes := numOfChromosomes.headD 20
      areaLimit := areaLimit
      costLimit := costLimit
      population := population
      level := (getAqiRange AQI).1
      zone := (getAqiRange AQI).2 } (F64.fin 20) (F64.fin 5)

/-- The chromosome whose true bits are exactly the slots of item `i`. -/
def itemChromosome (sampleSet : List Nat) (i : Nat) : List Bool :=
  sampleSet.map (fun s => decide (s = i))

/-- A catalog of one item of cost 1, area 1 and score `-20`. -/
def negativeCatalog : List info := [mkInfo "N" (-1) 0 1 1]

/-- The state `getSamplingSet` leaves from `smallBefore`. -/
def smallSampled : TreePlanter :=
  { smallBefore with minc := F64.fin 1, maxc := F64.fin 3, sampleSet := [0, 1, 1, 1] }

/-- A catalog whose second item has cost 0. -/
def zeroCostCatalog : List info := [mkInfo "A" 2 0 2 1, mkInfo "Z" 1 0 0 1]

/-- The zone score the priority zone of `AQI` selects: `ZoneIV` up to 100, `ZoneIII` up to
200, `ZoneII` up to 300 and `ZoneI` above. -/
def zoneField (AQI : Int) (t : info) : F64 :=
  if AQI ≤ 100 then t.ZoneIV else if AQI ≤ 200 then t.ZoneIII
  else if AQI ≤ 300 then t.ZoneII else t.ZoneI

/-! ## Monotonicity of the fitness -/

/-! ## Best fitness along a run -/

/-- The fitness values a generation started in state `p` computes: `getFitness(i)` for
`i < numOfChromosomes`, in this order. -/
def fitsOf (p : TreePlanter) : List F64 :=
  (List.range p.numOfChromosomes).filterMap (fun i => getFitness p i)

/-- The fitness values computed in the successive generations of a run from `p`. -/
def allFits (maxRep : Int) : TreePlanter → List Draws → List F64
  | _, [] => []
  | p, d :: ds =>
    fitsOf p ++ (match generation maxRep p d with
      | some r => allFits maxRep r.1 ds
      | none => [])

/-- The invariant of `bestFit` against the fitness values `seen` so far: no value seen
exceeds it, it is `-Inf` or one of them, and `totalFit` has one entry per chromosome. -/
def BestInv (p : TreePlanter) (seen : List F64) : Prop :=
  p.totalFit.length = p.numOfChromosomes ∧ p.bestFit ≠ F64.nan ∧
  (∀ x ∈ seen, F64.gt x p.bestFit = false) ∧ (p.bestFit = F64.ninf ∨ p.bestFit ∈ seen)

/-- A population of four chromosomes over the sampling set `[A, B, B, B]`, of fitness
`2000, 4000, 6000, 6000`. -/
def rankedStart : TreePlanter :=
  smallPlanter [[false, false, false, true], [true, false, false, false],
    [true, true, false, false], [true, true, false, false]]

/-! ## Result extraction: tallies and example states -/

/-- The map `trees` after `trees[k]++` for the names `names`, in this order. -/
def tally (names : List String) : CountMap := names.foldl incr []

/-- The display name of item `s` (`TreeInfo[s].CommonName`). -/
def nameOf (TreeInfo : List info) (s : Nat) : String :=
  ((TreeInfo[s]?).map (fun t => t.CommonName)).getD ""

/-- The name index of `smallCatalog`. -/
def smallIdx : List (String × Nat) := [("A", 0), ("B", 1)]

/-- The state `smallPlanter` whose best chromosome is `[A, -, B, -]`, of total cost `3`,
total area `2` and fitness `6000`. -/
def smallBest : TreePlanter :=
  { smallPlanter [[true, false, true, false]] with bestChromosome := some 0 }

/-- A population of six chromosomes for `smallCatalog`, each in its own backing array,
in ascending order of fitness: `-Inf, 2000, 4000, 6000, 6000, 6000`. -/
def sixStart : TreePlanter :=
  smallPlanter [[true, true, true, false], [false, false, true, false],
    [false, true, false, true], [false, true, true, true], [false, true, true, true],
    [false, true, true, true]]

/-- The first generation on `sixStart`: the sort moves nothing, the pivots are `2, 1, 1`. -/
def sixDraws : Draws :=
  { sortPerm := [0, 1, 2, 3, 4, 5], pivot := fun i => [1, 0, 0].getD i 0,
    choose := fun _ => 0, perm := fun _ => [0, 1, 2, 3] }

/-- The second generation: the sort brings the indices `3, 5, 1, 4, 0, 2` to the ranks
`0 .. 5`, all pivots are `1`. -/
def rankedDraws : Draws :=
  { sortPerm := [3, 5, 1, 4, 0, 2], pivot := fun _ => 0,
    choose := fun _ => 0, perm := fun _ => [0, 1, 2, 3] }

/-- The population that `sixStart` becomes after one generation, copied out: the same
six chromosomes rank by rank, each in a backing array of its own. -/
def sixCopied : TreePlanter :=
  smallPlanter [[false, true, false, true], [false, false, true, false],
    [false, true, false, true], [true, true, false, true], [false, false, true, false],
    [true, true, false, true]]

/-! ## Machine ranges and further example states -/

/-- The exact total is a value of a 64-bit `int`. -/
def InInt64 (x : Int) : Prop := -2 ^ 63 ≤ x ∧ x < 2 ^ 63

/-- The sum of `|vals[sampleSet[j]]|` over all slots `j` of the sampling set. -/
def absTotal (vals : List Int) (sampleSet : List Nat) : Int :=
  (sampleSet.map (fun s => |vals.getD s 0|)).sum

/-- The score array with the whole numbers `n` as scores. -/
def intScores (n : List Int) : List F64 := n.map (fun (k : Int) => F64.fin (k : ℚ))

/-- A catalog with a large negative zone score: item A (cost 2, area 1) has the score
`20 * (-2^1019) = -5 * 2^1021`, a finite `float64` value; item B is as in
`smallCatalog`. -/
def deepCatalog : List info := [mkInfo "A" (-(2 ^ 1019)) 0 2 1, mkInfo "B" 1 0 1 1]

/-- The state `init` builds from `deepCatalog` with limits 3 and target population 1. -/
def deepPlanter (heap : Heap) : TreePlanter :=
  { smallPlanter heap with score := [F64.fin (-(5 * 2 ^ 1021)), F64.fin 20] }

/-- A catalog with two items of cost `2^62` (scores 40 and 20) and an item of cost 1
(score 20), all of area 1. -/
def wideCatalog : List info :=
  [mkInfo "A" 2 0 (2 ^ 62) 1, mkInfo "B" 1 0 (2 ^ 62) 1, mkInfo "C" 1 0 1 1]

/-- The state `init` builds from `wideCatalog` with cost limit `2^63 - 1`, area limit 2
and target population 1: one slot each for A and B, two for C. -/
def widePlanter (heap : Heap) : TreePlanter :=
  { zeroPlanter with
    numOfChromosomes := heap.length, areaLimit := 2, costLimit := 2 ^ 63 - 1, population := 1
    level := "Good", zone := "Zone IV"
    score := [F64.fin 40, F64.fin 20, F64.fin 20], area := [1, 1, 1]
    cost := [2 ^ 62, 2 ^ 62, 1]
    sampleSet := [0, 1, 2, 2]
    bestFit := F64.ninf, lastFit := F64.ninf
    totalFit := List.replicate heap.length F64.ninf
    chromosomes := (List.range heap.length).map some
    minc := F64.fin 1, maxc := F64.fin 2
    heap := heap }

/-- The state `smallPlanter` with target population 3. -/
def thirdsPlanter (heap : Heap) : TreePlanter :=
  { smallPlanter heap with population := 3 }

/-- A catalog of one item of cost 1 and area 1 whose zone score is the `float64` value
of `0.01`; its score `20 * 0.01` is the `float64` value of `0.2`. -/
def centCatalog : List info := [mkInfo "A" (5764607523034235 / 2 ^ 59) 0 1 1]

/-! # Theorems -/

/-! ## Fitness -/

theorem trueSlots_succ (ch : List Bool) (k : Nat) :
    trueSlots ch (k + 1) = trueSlots ch k ++ (if ch.getD k false then [k] else []) := by
  unfold trueSlots
  rw [List.range_succ, List.filter_append]
  congr 1
  by_cases h : ch.getD k false = true <;> simp only [List.filter_cons, List.filter_nil, h]

theorem wrapInt_of_range (x : Int) (h1 : -2 ^ 63 ≤ x) (h2 : x < 2 ^ 63) : wrapInt x = x := by
  unfold wrapInt
  omega

theorem wrapInt_add (a b : Int) : wrapInt (wrapInt a + b) = wrapInt (a + b) := by
  unfold wrapInt
  omega

theorem wrapInt_add_right (a b : Int) : wrapInt (a + wrapInt b) = wrapInt (a + b) := by
  unfold wrapInt
  omega

theorem wrapInt_range (x : Int) : -2 ^ 63 ≤ wrapInt x ∧ wrapInt x < 2 ^ 63 := by
  unfold wrapInt
  omega

theorem costAreaLoop_eq (p : TreePlanter) (ch : List Bool)
    (hv : ∀ s ∈ p.sampleSet, s < p.cost.length ∧ s < p.area.length)
    (hlen : ch.length ≤ p.sampleSet.length) (k : Nat) (hk : k ≤ ch.length) :
    costAreaLoop p ch k = some
      (wrapInt ((trueSlots ch k).map (fun j => p.cost.getD (p.sampleSet.getD j 0) 0)).sum,
       wrapInt ((trueSlots ch k).map (fun j => p.area.getD (p.sampleSet.getD j 0) 0)).sum) := by
  induction k with
  | zero => simp [costAreaLoop, trueSlots, wrapInt]
  | succ k ih =>
    have hk1 : k < ch.length := hk
    have hk2 : k < p.sampleSet.length := by omega
    have hs := hv _ (List.getElem_mem hk2)
    rw [costAreaLoop, ih (by omega), trueSlots_succ]
    have e1 : ch[k]? = some ch[k] := List.getElem?_eq_getElem hk1
    have e2 : p.sampleSet[k]? = some p.sampleSet[k] := List.getElem?_eq_getElem hk2
    have e3 : p.cost[p.sampleSet[k]]? = some p.cost[p.sampleSet[k]] := List.getElem?_eq_getElem hs.1
    have e4 : p.area[p.sampleSet[k]]? = some p.area[p.sampleSet[k]] := List.getElem?_eq_getElem hs.2
    have d1 : ch.getD k false = ch[k] := by simp [List.getD, e1]
    have d2 : p.sampleSet.getD k 0 = p.sampleSet[k] := by simp [List.getD, e2]
    by_cases hb : ch[k] = true
    · simp [e1, e2, e3, e4, d1, d2, hb, List.getD, wrapInt_add]
    · simp [e1, d1, hb]


theorem scoreLoop_eq (p : TreePlanter) (ch : List Bool) (hv : SlotsValid p)
    (hlen : ch.length ≤ p.sampleSet.length) (k : Nat) (hk : k ≤ ch.length) :
    scoreLoop p ch k = some ((trueSlots ch k).foldl
      (fun acc j => F64.add acc (p.score.getD (p.sampleSet.getD j 0) (F64.fin 0)))
      (F64.fin 0)) := by
  induction k with
  | zero => simp [scoreLoop, trueSlots]
  | succ k ih =>
    have hk1 : k < ch.length := hk
    have hk2 : k < p.sampleSet.length := by omega
    have hs := hv _ (List.getElem_mem hk2)
    rw [scoreLoop, ih (by omega), trueSlots_succ]
    have e1 : ch[k]? = some ch[k] := List.getElem?_eq_getElem hk1
    have e2 : p.sampleSet[k]? = some p.sampleSet[k] := List.getElem?_eq_getElem hk2
    have e3 : p.score[p.sampleSet[k]]? = some p.score[p.sampleSet[k]] :=
      List.getElem?_eq_getElem hs.2.2
    have d1 : ch.getD k false = ch[k] := by simp [List.getD, e1]
    have d2 : p.sampleSet.getD k 0 = p.sampleSet[k] := by simp [List.getD, e2]
    by_cases hb : ch[k] = true
    · simp [e1, e2, e3, d1, d2, hb, List.getD, List.foldl_append]
    · simp [e1, d1, hb]

theorem SlotsValid.costArea {p : TreePlanter} (hv : SlotsValid p) :
    ∀ s ∈ p.sampleSet, s < p.cost.length ∧ s < p.area.length :=
  fun s hs => ⟨(hv s hs).1, (hv s hs).2.1⟩

/-- The value of `fitnessOf` on a chromosome no longer than the sampling set: the test
compares the wrapped totals, the score is summed, divided and scaled in `float64`. -/
theorem fitnessOf_eq (p : TreePlanter) (ch : List Bool) (hv : SlotsValid p)
    (hlen : ch.length ≤ p.sampleSet.length) :
    fitnessOf p ch =
      if wrapInt (decodedTotal p.cost p.sampleSet ch) > p.costLimit ∨
          wrapInt (decodedTotal p.area p.sampleSet ch) > p.areaLimit then some F64.ninf
      else some (F64.mul (F64.div (decodedScore p.score p.sampleSet ch)
        (F64.ofInt p.population)) (F64.fin 100)) := by
  simp only [fitnessOf, costAreaLoop_eq p ch hv.costArea hlen _ le_rfl,
    scoreLoop_eq p ch hv hlen _ le_rfl, decodedTotal, decodedScore, Option.bind_eq_bind,
    Option.some_bind, Option.pure_def]

/-- An infeasible chromosome gets `-Inf` before any score is read. -/
theorem fitnessOf_infeasible (p : TreePlanter) (ch : List Bool)
    (hv : ∀ s ∈ p.sampleSet, s < p.cost.length ∧ s < p.area.length)
    (hlen : ch.length ≤ p.sampleSet.length)
    (h : wrapInt (decodedTotal p.cost p.sampleSet ch) > p.costLimit ∨
      wrapInt (decodedTotal p.area p.sampleSet ch) > p.areaLimit) :
    fitnessOf p ch = some F64.ninf := by
  simp only [decodedTotal] at h
  simp only [fitnessOf, costAreaLoop_eq p ch hv hlen _ le_rfl, Option.bind_eq_bind,
    Option.some_bind, Option.pure_def, h, if_true]

theorem getFitness_eq (p : TreePlanter) (idx : Nat) :
    getFitness p idx = (chromosomeAt p idx).bind (fitnessOf p) := by
  unfold getFitness chromosomeAt
  cases p.chromosomes[idx]? with
  | none => rfl
  | some sl => cases h : deref p.heap sl <;> simp [h]


/-! ## Rounding in float64 -/

theorem pow2_eq_zpow (e : Int) : F64.pow2 e = (2 : ℚ) ^ e := by
  unfold F64.pow2
  split_ifs with h
  · obtain ⟨n, rfl⟩ := Int.eq_ofNat_of_zero_le h
    simp
  · push_neg at h
    obtain ⟨n, hn⟩ := Int.exists_eq_neg_ofNat h.le
    subst hn
    simp

theorem pow2_pos (e : Int) : 0 < F64.pow2 e := by
  rw [pow2_eq_zpow]; positivity

theorem pow2_add (a b : Int) : F64.pow2 (a + b) = F64.pow2 a * F64.pow2 b := by
  simp only [pow2_eq_zpow]
  exact zpow_add₀ (by norm_num) a b

theorem pow2_le_pow2 {a b : Int} (h : a ≤ b) : F64.pow2 a ≤ F64.pow2 b := by
  simp only [pow2_eq_zpow]
  exact zpow_le_zpow_right₀ (by norm_num) h

theorem pow2_lt_pow2_iff {a b : Int} : F64.pow2 a < F64.pow2 b ↔ a < b := by
  simp only [pow2_eq_zpow]
  exact zpow_lt_zpow_iff_right₀ (by norm_num)

theorem pow2_natCast (n : Nat) : F64.pow2 (n : Int) = ((2 ^ n : Nat) : ℚ) := by
  rw [pow2_eq_zpow]; simp

theorem log2Fuel_spec (fuel : Nat) : ∀ n, n ≤ fuel → 1 ≤ n →
    2 ^ F64.log2Fuel fuel n ≤ n ∧ n < 2 ^ (F64.log2Fuel fuel n + 1) := by
  induction fuel with
  | zero => intro n h1 h2; omega
  | succ fuel ih =>
    intro n h1 h2
    unfold F64.log2Fuel
    split_ifs with h
    · obtain ⟨i1, i2⟩ := ih (n / 2) (by omega) (by omega)
      constructor
      · rw [pow_succ]; omega
      · rw [pow_succ] at i2 ⊢; omega
    · have : n = 1 := by omega
      subst this
      simp

theorem natLog2_spec (n : Nat) (h : 1 ≤ n) :
    2 ^ F64.natLog2 n ≤ n ∧ n < 2 ^ (F64.natLog2 n + 1) :=
  log2Fuel_spec n n le_rfl h

theorem ilog2_spec (a : ℚ) (ha : 0 < a) :
    F64.pow2 (F64.ilog2 a) ≤ a ∧ a < F64.pow2 (F64.ilog2 a + 1) := by
  have hnum : 0 < a.num := Rat.num_pos.mpr ha
  have hn1 : 1 ≤ a.num.natAbs := by omega
  have hd1 : 1 ≤ a.den := a.den_pos
  obtain ⟨n1, n2⟩ := natLog2_spec _ hn1
  obtain ⟨d1, d2⟩ := natLog2_spec _ hd1
  have hq : a = (a.num.natAbs : ℚ) / (a.den : ℚ) := by
    have e : (a.num : ℚ) = (a.num.natAbs : ℚ) := by
      have h := Int.natAbs_of_nonneg hnum.le
      rw [← Int.cast_natCast, h]
    rw [← e]
    exact (Rat.num_div_den a).symm
  have hdq : (0 : ℚ) < (a.den : ℚ) := by exact_mod_cast hd1
  have n1q : ((2 : ℚ) ^ (F64.natLog2 a.num.natAbs : Int)) ≤ (a.num.natAbs : ℚ) := by
    rw [zpow_natCast]; exact_mod_cast n1
  have n2q : (a.num.natAbs : ℚ) < ((2 : ℚ) ^ ((F64.natLog2 a.num.natAbs : Int) + 1)) := by
    have : ((F64.natLog2 a.num.natAbs : Int) + 1) = ((F64.natLog2 a.num.natAbs + 1 : Nat) : Int) := by
      push_cast; ring
    rw [this, zpow_natCast]; exact_mod_cast n2
  have d1q : ((2 : ℚ) ^ (F64.natLog2 a.den : Int)) ≤ (a.den : ℚ) := by
    rw [zpow_natCast]; exact_mod_cast d1
  have d2q : (a.den : ℚ) < ((2 : ℚ) ^ ((F64.natLog2 a.den : Int) + 1)) := by
    have : ((F64.natLog2 a.den : Int) + 1) = ((F64.natLog2 a.den + 1 : Nat) : Int) := by
      push_cast; ring
    rw [this, zpow_natCast]; exact_mod_cast d2
  unfold F64.ilog2
  simp only [pow2_eq_zpow]
  generalize (F64.natLog2 a.num.natAbs : Int) = ln at *
  generalize (F64.natLog2 a.den : Int) = ld at *
  have hlow : (2 : ℚ) ^ (ln - ld - 1) < a := by
    have e : (2 : ℚ) ^ (ln - ld - 1) = (2 : ℚ) ^ ln / (2 : ℚ) ^ (ld + 1) := by
      rw [← zpow_sub₀ (by norm_num : (2 : ℚ) ≠ 0)]; congr 1; ring
    rw [e, hq, div_lt_div_iff₀ (by positivity) hdq]
    calc (2 : ℚ) ^ ln * (a.den : ℚ) < (2 : ℚ) ^ ln * (2 : ℚ) ^ (ld + 1) := by
          apply mul_lt_mul_of_pos_left d2q (by positivity)
      _ ≤ (a.num.natAbs : ℚ) * (2 : ℚ) ^ (ld + 1) := by
          apply mul_le_mul_of_nonneg_right n1q (by positivity)
  have hup : a < (2 : ℚ) ^ (ln - ld + 1) := by
    have e : (2 : ℚ) ^ (ln - ld + 1) = (2 : ℚ) ^ (ln + 1) / (2 : ℚ) ^ ld := by
      rw [← zpow_sub₀ (by norm_num : (2 : ℚ) ≠ 0)]; congr 1; ring
    rw [e, hq, div_lt_div_iff₀ hdq (by positivity)]
    calc (a.num.natAbs : ℚ) * (2 : ℚ) ^ ld < (2 : ℚ) ^ (ln + 1) * (2 : ℚ) ^ ld := by
          apply mul_lt_mul_of_pos_right n2q (by positivity)
      _ ≤ (2 : ℚ) ^ (ln + 1) * (a.den : ℚ) := by
          apply mul_le_mul_of_nonneg_left d1q (by positivity)
  split_ifs with h
  · exact ⟨h, hup⟩
  · push_neg at h
    refine ⟨hlow.le, ?_⟩
    have : ln - ld - 1 + 1 = ln - ld := by ring
    rw [this]; exact h

theorem ilog2_unique (a : ℚ) (ha : 0 < a) (k : Int) (h1 : F64.pow2 k ≤ a)
    (h2 : a < F64.pow2 (k + 1)) : F64.ilog2 a = k := by
  obtain ⟨s1, s2⟩ := ilog2_spec a ha
  have l1 : k < F64.ilog2 a + 1 := pow2_lt_pow2_iff.mp (lt_of_le_of_lt h1 s2)
  have l2 : F64.ilog2 a < k + 1 := pow2_lt_pow2_iff.mp (lt_of_le_of_lt s1 h2)
  omega

theorem ilog2_mono (a b : ℚ) (ha : 0 < a) (hab : a ≤ b) : F64.ilog2 a ≤ F64.ilog2 b := by
  obtain ⟨s1, _⟩ := ilog2_spec a ha
  obtain ⟨_, t2⟩ := ilog2_spec b (lt_of_lt_of_le ha hab)
  have : F64.ilog2 a < F64.ilog2 b + 1 :=
    pow2_lt_pow2_iff.mp (lt_of_le_of_lt (s1.trans hab) t2)
  omega

theorem expOf_mono (a b : ℚ) (ha : 0 < a) (hab : a ≤ b) : F64.expOf a ≤ F64.expOf b := by
  unfold F64.expOf
  have := ilog2_mono a b ha hab
  omega

theorem nearestEven_intCast (n : Int) : F64.nearestEven (n : ℚ) = n := by
  unfold F64.nearestEven
  simp

theorem floor_le_nearestEven (x : ℚ) : ⌊x⌋ ≤ F64.nearestEven x := by
  unfold F64.nearestEven
  split_ifs <;> omega

theorem nearestEven_le_floor_add_one (x : ℚ) : F64.nearestEven x ≤ ⌊x⌋ + 1 := by
  unfold F64.nearestEven
  split_ifs <;> omega

theorem nearestEven_mono {x y : ℚ} (h : x ≤ y) : F64.nearestEven x ≤ F64.nearestEven y := by
  have hf : ⌊x⌋ ≤ ⌊y⌋ := Int.floor_mono h
  rcases hf.lt_or_eq with hlt | heq
  · calc F64.nearestEven x ≤ ⌊x⌋ + 1 := nearestEven_le_floor_add_one x
      _ ≤ ⌊y⌋ := hlt
      _ ≤ F64.nearestEven y := floor_le_nearestEven y
  · unfold F64.nearestEven
    rw [← heq]
    have hxy : x - (⌊x⌋ : ℚ) ≤ y - (⌊x⌋ : ℚ) := by linarith
    split_ifs <;> first | omega | (exfalso; linarith)

theorem nearestEven_ge_of_le {x : ℚ} (n : Int) (h : (n : ℚ) ≤ x) : n ≤ F64.nearestEven x := by
  have := nearestEven_mono h
  rwa [nearestEven_intCast] at this

theorem nearestEven_le_of_le {x : ℚ} (n : Int) (h : x ≤ (n : ℚ)) : F64.nearestEven x ≤ n := by
  have := nearestEven_mono h
  rwa [nearestEven_intCast] at this

theorem roundAbs_nonneg (a : ℚ) (ha : 0 < a) : 0 ≤ F64.roundAbs a := by
  unfold F64.roundAbs
  have h0 : (0 : ℚ) ≤ a / F64.pow2 (F64.expOf a) := (div_pos ha (pow2_pos _)).le
  have : (0 : Int) ≤ F64.nearestEven (a / F64.pow2 (F64.expOf a)) :=
    nearestEven_ge_of_le 0 (by simpa using h0)
  have h1 : (0 : ℚ) ≤ (F64.nearestEven (a / F64.pow2 (F64.expOf a)) : ℚ) := by exact_mod_cast this
  exact mul_nonneg h1 (pow2_pos _).le

theorem roundAbs_ge_pow2 (b : ℚ) (hb : 0 < b) (h : -1074 < F64.expOf b) :
    F64.pow2 (F64.expOf b + 52) ≤ F64.roundAbs b := by
  have he : F64.expOf b = F64.ilog2 b - 52 := by
    unfold F64.expOf at h ⊢
    omega
  obtain ⟨s1, _⟩ := ilog2_spec b hb
  have hs : F64.pow2 (F64.expOf b + 52) ≤ b := by
    rw [he]; simpa using s1
  have hx : ((2 ^ 52 : Int) : ℚ) ≤ b / F64.pow2 (F64.expOf b) := by
    rw [le_div_iff₀ (pow2_pos _)]
    have : F64.pow2 (F64.expOf b + 52) = ((2 ^ 52 : Int) : ℚ) * F64.pow2 (F64.expOf b) := by
      rw [add_comm, pow2_add]
      congr 1
    rw [← this]; exact hs
  have hn := nearestEven_ge_of_le (2 ^ 52) hx
  unfold F64.roundAbs
  have hnq : ((2 ^ 52 : Int) : ℚ) ≤ (F64.nearestEven (b / F64.pow2 (F64.expOf b)) : ℚ) := by
    exact_mod_cast hn
  have : F64.pow2 (F64.expOf b + 52) = ((2 ^ 52 : Int) : ℚ) * F64.pow2 (F64.expOf b) := by
    rw [add_comm, pow2_add]
    congr 1
  rw [this]
  exact mul_le_mul_of_nonneg_right hnq (pow2_pos _).le

theorem roundAbs_le_pow2 (a : ℚ) (ha : 0 < a) :
    F64.roundAbs a ≤ F64.pow2 (F64.expOf a + 53) := by
  obtain ⟨_, s2⟩ := ilog2_spec a ha
  have he : F64.ilog2 a + 1 ≤ F64.expOf a + 53 := by
    unfold F64.expOf
    omega
  have hs : a ≤ F64.pow2 (F64.expOf a + 53) := s2.le.trans (pow2_le_pow2 he)
  have e53 : F64.pow2 (F64.expOf a + 53) = ((2 ^ 53 : Int) : ℚ) * F64.pow2 (F64.expOf a) := by
    rw [add_comm, pow2_add]
    congr 1
  have hx : a / F64.pow2 (F64.expOf a) ≤ ((2 ^ 53 : Int) : ℚ) := by
    rw [div_le_iff₀ (pow2_pos _), ← e53]; exact hs
  have hn := nearestEven_le_of_le (2 ^ 53) hx
  unfold F64.roundAbs
  have hnq : (F64.nearestEven (a / F64.pow2 (F64.expOf a)) : ℚ) ≤ ((2 ^ 53 : Int) : ℚ) := by
    exact_mod_cast hn
  rw [e53]
  exact mul_le_mul_of_nonneg_right hnq (pow2_pos _).le

theorem roundAbs_mono (a b : ℚ) (ha : 0 < a) (hab : a ≤ b) :
    F64.roundAbs a ≤ F64.roundAbs b := by
  have hb : 0 < b := lt_of_lt_of_le ha hab
  have he := expOf_mono a b ha hab
  rcases he.lt_or_eq with hlt | heq
  · have h1 : -1074 < F64.expOf b := by
      have : -1074 ≤ F64.expOf a := by unfold F64.expOf; omega
      omega
    calc F64.roundAbs a ≤ F64.pow2 (F64.expOf a + 53) := roundAbs_le_pow2 a ha
      _ ≤ F64.pow2 (F64.expOf b + 52) := pow2_le_pow2 (by omega)
      _ ≤ F64.roundAbs b := roundAbs_ge_pow2 b hb h1
  · unfold F64.roundAbs
    rw [← heq]
    have hx : a / F64.pow2 (F64.expOf a) ≤ b / F64.pow2 (F64.expOf a) :=
      div_le_div_of_nonneg_right hab (pow2_pos _).le
    have hn := nearestEven_mono hx
    have hnq : (F64.nearestEven (a / F64.pow2 (F64.expOf a)) : ℚ) ≤
        (F64.nearestEven (b / F64.pow2 (F64.expOf a)) : ℚ) := by exact_mod_cast hn
    exact mul_le_mul_of_nonneg_right hnq (pow2_pos _).le

theorem roundAbs_exact (a : ℚ) (m : Int) (h : a / F64.pow2 (F64.expOf a) = (m : ℚ)) :
    F64.roundAbs a = a := by
  unfold F64.roundAbs
  rw [h, nearestEven_intCast, ← h]
  exact div_mul_cancel₀ a (pow2_pos _).ne'

/-- A positive value `m * 2^e` with `m < 2^53` and `e >= -1074` is not changed by
rounding. -/
theorem roundAbs_representable (m : Nat) (e : Int) (hm0 : 0 < m) (hm : m < 2 ^ 53)
    (he : -1074 ≤ e) : F64.roundAbs ((m : ℚ) * F64.pow2 e) = (m : ℚ) * F64.pow2 e := by
  have hmq : (0 : ℚ) < (m : ℚ) := by exact_mod_cast hm0
  have ha : 0 < (m : ℚ) * F64.pow2 e := mul_pos hmq (pow2_pos e)
  obtain ⟨s1, _⟩ := ilog2_spec _ ha
  have hlt : (m : ℚ) * F64.pow2 e < F64.pow2 (e + 53) := by
    have : F64.pow2 (e + 53) = ((2 ^ 53 : Nat) : ℚ) * F64.pow2 e := by
      rw [add_comm, pow2_add]
      congr 1
    rw [this]
    apply mul_lt_mul_of_pos_right _ (pow2_pos e)
    exact_mod_cast hm
  have hil : F64.ilog2 ((m : ℚ) * F64.pow2 e) < e + 53 :=
    pow2_lt_pow2_iff.mp (lt_of_le_of_lt s1 hlt)
  have hexp : F64.expOf ((m : ℚ) * F64.pow2 e) ≤ e := by
    unfold F64.expOf
    omega
  obtain ⟨k, hk⟩ := Int.eq_ofNat_of_zero_le (sub_nonneg.mpr hexp)
  apply roundAbs_exact _ ((m : Int) * 2 ^ k)
  have hsplit : F64.pow2 e =
      F64.pow2 (k : Int) * F64.pow2 (F64.expOf ((m : ℚ) * F64.pow2 e)) := by
    rw [← pow2_add, ← hk]; congr 1; ring
  rw [mul_div_assoc]
  nth_rewrite 1 [hsplit]
  rw [mul_div_assoc, div_self (pow2_pos _).ne', mul_one, pow2_natCast]
  push_cast
  ring

theorem rnd_zero : F64.rnd 0 = F64.fin 0 := by
  simp [F64.rnd]

theorem rnd_of_pos (q : ℚ) (hq : 0 < q) :
    F64.rnd q = if F64.pow2 1024 ≤ F64.roundAbs q then F64.pinf
      else F64.fin (F64.roundAbs q) := by
  unfold F64.rnd
  rw [if_neg hq.ne', abs_of_pos hq]
  simp [hq]

theorem rnd_of_neg (q : ℚ) (hq : q < 0) :
    F64.rnd q = if F64.pow2 1024 ≤ F64.roundAbs (-q) then F64.ninf
      else F64.fin (-F64.roundAbs (-q)) := by
  unfold F64.rnd
  rw [if_neg hq.ne, abs_of_neg hq]
  simp [not_lt.mpr hq.le]

theorem rnd_neg (q : ℚ) : F64.rnd (-q) = F64.neg (F64.rnd q) := by
  rcases lt_trichotomy q 0 with h | h | h
  · rw [rnd_of_neg q h, rnd_of_pos (-q) (by linarith)]
    split_ifs <;> simp [F64.neg]
  · subst h; simp [rnd_zero, F64.neg]
  · rw [rnd_of_pos q h, rnd_of_neg (-q) (by linarith), neg_neg]
    split_ifs <;> simp [F64.neg]

theorem rnd_ne_nan (q : ℚ) : F64.rnd q ≠ F64.nan := by
  unfold F64.rnd
  split_ifs <;> simp

theorem rnd_ne_ninf_of_nonneg (q : ℚ) (hq : 0 ≤ q) : F64.rnd q ≠ F64.ninf := by
  rcases hq.lt_or_eq with h | h
  · rw [rnd_of_pos q h]; split_ifs <;> simp
  · rw [← h, rnd_zero]; simp

theorem f64_le_trans {a b c : F64} (h1 : F64.le a b = true) (h2 : F64.le b c = true) :
    F64.le a c = true := by
  cases a <;> cases b <;> cases c <;> simp_all [F64.le]
  exact h1.trans h2

theorem f64_le_neg {a b : F64} (h : F64.le a b = true) :
    F64.le (F64.neg b) (F64.neg a) = true := by
  cases a <;> cases b <;> simp_all [F64.le, F64.neg]

theorem rnd_nonneg (q : ℚ) (hq : 0 ≤ q) : F64.le (F64.fin 0) (F64.rnd q) = true := by
  rcases hq.lt_or_eq with h | h
  · rw [rnd_of_pos q h]
    split_ifs
    · rfl
    · simp [F64.le, roundAbs_nonneg q h]
  · rw [← h, rnd_zero]; simp [F64.le]

theorem rnd_nonpos (q : ℚ) (hq : q ≤ 0) : F64.le (F64.rnd q) (F64.fin 0) = true := by
  have h := f64_le_neg (rnd_nonneg (-q) (by linarith))
  rw [rnd_neg, ] at h
  have e : F64.neg (F64.neg (F64.rnd q)) = F64.rnd q := by
    cases F64.rnd q <;> simp [F64.neg]
  rw [e] at h
  simpa [F64.neg] using h

theorem rnd_mono_pos (a b : ℚ) (ha : 0 < a) (hab : a ≤ b) :
    F64.le (F64.rnd a) (F64.rnd b) = true := by
  have hb : 0 < b := lt_of_lt_of_le ha hab
  have hm := roundAbs_mono a b ha hab
  rw [rnd_of_pos a ha, rnd_of_pos b hb]
  split_ifs with h1 h2 h2
  · rfl
  · exact absurd (h1.trans hm) h2
  · rfl
  · simp [F64.le, hm]

/-- Rounding is monotone. -/
theorem rnd_mono (a b : ℚ) (hab : a ≤ b) : F64.le (F64.rnd a) (F64.rnd b) = true := by
  rcases lt_trichotomy a 0 with ha | ha | ha
  · rcases lt_or_le b 0 with hb | hb
    · have h := f64_le_neg (rnd_mono_pos (-b) (-a) (by linarith) (by linarith))
      rw [rnd_neg, rnd_neg] at h
      have e : ∀ x : F64, F64.neg (F64.neg x) = x := by
        intro x; cases x <;> simp [F64.neg]
      rwa [e, e] at h
    · exact f64_le_trans (rnd_nonpos a ha.le) (rnd_nonneg b hb)
  · subst ha
    rw [rnd_zero]; exact rnd_nonneg b hab
  · exact rnd_mono_pos a b ha hab

/-- Rounding leaves a binary64 value `m * 2^e` (`|m| < 2^53`, `-1074 <= e <= 971`)
unchanged. -/
theorem rnd_representable (m : Int) (e : Int) (hm : |m| < 2 ^ 53) (he : -1074 ≤ e)
    (he2 : e ≤ 971) : F64.rnd ((m : ℚ) * F64.pow2 e) = F64.fin ((m : ℚ) * F64.pow2 e) := by
  have key : ∀ k : Nat, 0 < k → k < 2 ^ 53 →
      F64.rnd ((k : ℚ) * F64.pow2 e) = F64.fin ((k : ℚ) * F64.pow2 e) := by
    intro k hk0 hk
    have hkq : (0 : ℚ) < (k : ℚ) := by exact_mod_cast hk0
    have hpos : 0 < (k : ℚ) * F64.pow2 e := mul_pos hkq (pow2_pos e)
    rw [rnd_of_pos _ hpos, roundAbs_representable k e hk0 hk he]
    have hlt : (k : ℚ) * F64.pow2 e < F64.pow2 1024 := by
      have e1 : F64.pow2 1024 = ((2 ^ 53 : Nat) : ℚ) * F64.pow2 971 := by
        rw [pow2_eq_zpow, pow2_eq_zpow]; norm_num
      rw [e1]
      have h1 : (k : ℚ) < ((2 ^ 53 : Nat) : ℚ) := by exact_mod_cast hk
      calc (k : ℚ) * F64.pow2 e ≤ (k : ℚ) * F64.pow2 971 :=
            mul_le_mul_of_nonneg_left (pow2_le_pow2 he2) hkq.le
        _ < ((2 ^ 53 : Nat) : ℚ) * F64.pow2 971 :=
            mul_lt_mul_of_pos_right h1 (pow2_pos _)
    rw [if_neg (not_le.mpr hlt)]
  rcases lt_trichotomy m 0 with h | h | h
  · obtain ⟨k, hk⟩ := Int.exists_eq_neg_ofNat h.le
    subst hk
    have hk0 : 0 < k := by omega
    have hk53 : k < 2 ^ 53 := by
      have : |(-(k : Int))| = (k : Int) := by rw [abs_neg]; exact abs_of_nonneg (by omega)
      rw [this] at hm
      exact_mod_cast hm
    have := key k hk0 hk53
    have e1 : (((-(k : Int)) : Int) : ℚ) * F64.pow2 e = -((k : ℚ) * F64.pow2 e) := by
      push_cast; ring
    rw [e1, rnd_neg, this]
    rfl
  · subst h; simp [rnd_zero]
  · obtain ⟨k, hk⟩ := Int.eq_ofNat_of_zero_le h.le
    subst hk
    have hk0 : 0 < k := by omega
    have hk53 : k < 2 ^ 53 := by
      have : |(k : Int)| = (k : Int) := abs_of_nonneg (by omega)
      rw [this] at hm
      exact_mod_cast hm
    simpa using key k hk0 hk53

/-- Every integer up to `2^53` in absolute value is a binary64 value. -/
theorem rnd_int (n : Int) (h : |n| ≤ 2 ^ 53) : F64.rnd (n : ℚ) = F64.fin (n : ℚ) := by
  rcases h.lt_or_eq with hlt | heq
  · have := rnd_representable n 0 hlt (by norm_num) (by norm_num)
    simpa [pow2_eq_zpow] using this
  · have h2 : n = 2 ^ 53 ∨ n = -2 ^ 53 := by
      rcases abs_cases n with ⟨h1, _⟩ | ⟨h1, _⟩ <;> [left; right] <;> omega
    have e : (n : ℚ) = ((n / 2 : Int) : ℚ) * F64.pow2 1 := by
      rcases h2 with h2 | h2 <;> subst h2 <;> rw [pow2_eq_zpow] <;> norm_num
    have hm : |n / 2| < 2 ^ 53 := by
      rcases h2 with h2 | h2 <;> subst h2 <;> norm_num
    rw [e]
    exact rnd_representable (n / 2) 1 hm (by norm_num) (by norm_num)

theorem f64_le_pinf (x : F64) (h : x ≠ F64.nan) : F64.le x F64.pinf = true := by
  cases x <;> simp_all [F64.le]

theorem f64_ninf_le (x : F64) (h : x ≠ F64.nan) : F64.le F64.ninf x = true := by
  cases x <;> simp_all [F64.le]

theorem f64_ne_nan_of_le {a b : F64} (h : F64.le a b = true) :
    a ≠ F64.nan ∧ b ≠ F64.nan := by
  cases a <;> cases b <;> simp_all [F64.le]

/-- Floating point addition of finite terms is monotone in both arguments. -/
theorem f64_add_mono {a b : F64} (v w : ℚ) (h : F64.le a b = true) (hvw : v ≤ w) :
    F64.le (F64.add a (F64.fin v)) (F64.add b (F64.fin w)) = true := by
  cases a <;> cases b <;> simp_all [F64.le, F64.add]
  · exact f64_ninf_le _ (rnd_ne_nan _)
  · exact rnd_mono _ _ (by linarith)
  · exact f64_le_pinf _ (rnd_ne_nan _)

theorem f64_div_ninf_pos (p : ℚ) (hp : 0 < p) : F64.div F64.ninf (F64.fin p) = F64.ninf := by
  simp [F64.div, not_lt.mpr hp.le]

theorem f64_div_pinf_pos (p : ℚ) (hp : 0 < p) : F64.div F64.pinf (F64.fin p) = F64.pinf := by
  simp [F64.div, not_lt.mpr hp.le]

theorem f64_div_fin_pos (a p : ℚ) (hp : 0 < p) :
    F64.div (F64.fin a) (F64.fin p) = F64.rnd (a / p) := by
  simp [F64.div, hp.ne']

/-- Floating point division by a positive finite value is monotone. -/
theorem f64_div_mono {a b : F64} (p : ℚ) (hp : 0 < p) (h : F64.le a b = true) :
    F64.le (F64.div a (F64.fin p)) (F64.div b (F64.fin p)) = true := by
  cases a <;> cases b <;>
    (try simp only [f64_div_ninf_pos p hp, f64_div_pinf_pos p hp, f64_div_fin_pos _ p hp]) <;>
    simp_all [F64.le]
  · exact f64_ninf_le _ (rnd_ne_nan _)
  · exact rnd_mono _ _ (div_le_div_of_nonneg_right h hp.le)
  · exact f64_le_pinf _ (rnd_ne_nan _)

/-- Floating point multiplication by a positive finite value is monotone. -/
theorem f64_mul_mono {a b : F64} (c : ℚ) (hc : 0 < c) (h : F64.le a b = true) :
    F64.le (F64.mul a (F64.fin c)) (F64.mul b (F64.fin c)) = true := by
  cases a <;> cases b <;> simp_all [F64.le, F64.mul, F64.infTimes, hc.ne']
  · exact f64_ninf_le _ (rnd_ne_nan _)
  · exact rnd_mono _ _ (mul_le_mul_of_nonneg_right h hc.le)
  · exact f64_le_pinf _ (rnd_ne_nan _)

theorem f64_add_zero_zero : F64.add (F64.fin 0) (F64.fin 0) = F64.fin 0 := by
  simp [F64.add, rnd_zero]

theorem f64_div_zero_pos (p : ℚ) (hp : 0 < p) : F64.div (F64.fin 0) (F64.fin p) = F64.fin 0 := by
  simp [F64.div, hp.ne', rnd_zero]

theorem f64_mul_zero_fin (c : ℚ) : F64.mul (F64.fin 0) (F64.fin c) = F64.fin 0 := by
  simp [F64.mul, rnd_zero]

theorem f64_ne_ninf_of_nonneg {x : F64} (h : F64.le (F64.fin 0) x = true) : x ≠ F64.ninf := by
  cases x <;> simp_all [F64.le]

/-! ## Sampling set -/

theorem f64_min_ofInt (a b : Int) :
    F64.min (F64.ofInt a) (F64.ofInt b) = F64.ofInt (min a b) := by
  by_cases h : a < b
  · have h' : ((a : ℚ) < (b : ℚ)) := by exact_mod_cast h
    simp [F64.min, F64.ofInt, F64.lt, h', min_eq_left h.le]
  · have h' : ¬ ((a : ℚ) < (b : ℚ)) := by exact_mod_cast h
    simp [F64.min, F64.ofInt, F64.lt, h', min_eq_right (not_lt.mp h)]

theorem F64.toInt_ofInt (a : Int) : F64.toInt (F64.ofInt a) = some a := by
  simp [F64.toInt, F64.ofInt, Int.tdiv_one]

theorem getSamplingSetBody_eq (q : TreePlanter) (i : Nat)
    (hc : ∀ c ∈ q.cost, 0 < c) (ha : ∀ a ∈ q.area, 0 < a)
    (hcl : 0 ≤ q.costLimit) (hal : 0 ≤ q.areaLimit)
    (hic : i < q.cost.length) (hia : i < q.area.length) :
    getSamplingSetBody q i = some { q with
      minc := F64.min (F64.ofInt (itemCount q i)) q.minc
      maxc := F64.max (F64.ofInt (itemCount q i)) q.maxc
      sampleSet := q.sampleSet ++ List.replicate (itemCount q i) i } := by
  have e1 : q.cost[i]? = some q.cost[i] := List.getElem?_eq_getElem hic
  have e2 : q.area[i]? = some q.area[i] := List.getElem?_eq_getElem hia
  have p1 : 0 < q.cost[i] := hc _ (List.getElem_mem hic)
  have p2 : 0 < q.area[i] := ha _ (List.getElem_mem hia)
  have q1 : 0 ≤ q.costLimit / q.cost[i] := Int.ediv_nonneg hcl p1.le
  have q2 : 0 ≤ q.areaLimit / q.area[i] := Int.ediv_nonneg hal p2.le
  have hm : 0 ≤ min (q.costLimit / q.cost[i]) (q.areaLimit / q.area[i]) := le_min q1 q2
  have hcount : ((itemCount q i : Nat) : Int) =
      min (q.costLimit / q.cost[i]) (q.areaLimit / q.area[i]) := by
    simp only [itemCount, List.getD_eq_getElem?_getD, e1, e2, Option.getD_some]
    exact Int.toNat_of_nonneg hm
  simp only [getSamplingSetBody, e1, e2, goDiv, p1.ne', p2.ne', if_false,
    Option.bind_eq_bind, Option.some_bind, Int.tdiv_eq_ediv hcl p1.le,
    Int.tdiv_eq_ediv hal p2.le, f64_min_ofInt, F64.toInt_ofInt, not_lt.mpr hm, hcount]
  simp only [itemCount, List.getD_eq_getElem?_getD, e1, e2, Option.getD_some]

theorem getSamplingSetLoop_eq (p : TreePlanter)
    (hc : ∀ c ∈ p.cost, 0 < c) (ha : ∀ a ∈ p.area, 0 < a)
    (hcl : 0 ≤ p.costLimit) (hal : 0 ≤ p.areaLimit) (k : Nat)
    (hkc : k ≤ p.cost.length) (hka : k ≤ p.area.length) :
    getSamplingSetLoop p k = some { p with
      minc := mincUpTo p k, maxc := maxcUpTo p k
      sampleSet := p.sampleSet ++ slotsUpTo p k } := by
  induction k with
  | zero => simp [getSamplingSetLoop, mincUpTo, maxcUpTo, slotsUpTo]
  | succ k ih =>
    rw [getSamplingSetLoop, ih (by omega) (by omega)]
    simp only [Option.bind_eq_bind, Option.some_bind]
    refine (getSamplingSetBody_eq _ k ?_ ?_ ?_ ?_ ?_ ?_).trans ?_
    · exact hc
    · exact ha
    · exact hcl
    · exact hal
    · exact hkc
    · exact hka
    simp only [mincUpTo, maxcUpTo, slotsUpTo, List.range_succ, List.foldl_append,
      List.foldl_cons, List.foldl_nil, List.flatMap_append, List.flatMap_singleton,
      List.append_assoc, itemCount]

theorem count_slotsUpTo (p : TreePlanter) (i k : Nat) :
    (slotsUpTo p k).count i = if i < k then itemCount p i else 0 := by
  induction k with
  | zero => simp [slotsUpTo]
  | succ k ih =>
    have hs : slotsUpTo p (k + 1) = slotsUpTo p k ++ List.replicate (itemCount p k) k := by
      simp [slotsUpTo, List.range_succ, List.flatMap_append]
    rw [hs, List.count_append, ih, List.count_replicate]
    by_cases h1 : i < k
    · have : ¬ k = i := by omega
      simp [h1, this, Nat.lt_succ_of_lt h1]
    · by_cases h2 : k = i
      · subst h2; simp
      · have : ¬ i < k + 1 := by omega
        simp [h1, h2, this]

theorem length_slotsUpTo (p : TreePlanter) (k : Nat) :
    (slotsUpTo p k).length = ((List.range k).map (itemCount p)).sum := by
  simp only [slotsUpTo, List.length_flatMap]
  congr 1
  apply List.map_congr_left
  intro i _
  simp

/-- C2: for a catalog with positive costs and areas and non-negative limits,
`getSamplingSet` on an empty sampling set returns the list made of
`min(costLimit / cost[i], areaLimit / area[i])` copies of `i` for `i = 0, 1, ...` in
this order; item `i` occurs exactly that many times and `M` is the sum of the counts. -/
theorem getSamplingSet_spec (p : TreePlanter) (n : Nat)
    (hn : p.cost.length = n) (hn' : p.area.length = n)
    (hc : ∀ c ∈ p.cost, 0 < c) (ha : ∀ a ∈ p.area, 0 < a)
    (hcl : 0 ≤ p.costLimit) (hal : 0 ≤ p.areaLimit) (hempty : p.sampleSet = []) :
    ∃ q, getSamplingSet n p = some q ∧
      q.sampleSet = (List.range n).flatMap (fun i =>
        List.replicate
          (min (p.costLimit / p.cost.getD i 1) (p.areaLimit / p.area.getD i 1)).toNat i) ∧
      (∀ i, i < n → q.sampleSet.count i =
        (min (p.costLimit / p.cost.getD i 1) (p.areaLimit / p.area.getD i 1)).toNat) ∧
      q.sampleSet.length = ((List.range n).map (fun i =>
        (min (p.costLimit / p.cost.getD i 1) (p.areaLimit / p.area.getD i 1)).toNat)).sum := by
  refine ⟨_, getSamplingSetLoop_eq p hc ha hcl hal n hn.ge hn'.ge, ?_, ?_, ?_⟩
  · simp [hempty, slotsUpTo, itemCount]
  · intro i hi
    have := count_slotsUpTo p i n
    simp only [hi, if_true, itemCount] at this
    simpa [hempty] using this
  · have := length_slotsUpTo p n
    simp only [hempty, List.nil_append]
    exact this

/-- C2 on the scenario: costs `[10, 5]`, areas `[5, 10]` and both limits `20` give the
sampling set `[0, 0, 1, 1]`. -/
theorem getSamplingSet_spec_witness :
    ∃ q, getSamplingSet 2 { scenarioPlanter [] with sampleSet := [] } = some q ∧
      q.sampleSet = [0, 0, 1, 1] ∧ q.sampleSet.length = 4 := by
  obtain ⟨q, h1, h2, _, h4⟩ :=
    getSamplingSet_spec { scenarioPlanter [] with sampleSet := [] } 2 rfl rfl
      (by decide) (by decide) (by decide) (by decide) rfl
  exact ⟨q, h1, h2.trans (by decide), h4.trans (by decide)⟩

/-! ## Crossover -/

/-- C4, evaluated: a population of four chromosomes over the sampling set
`[A, B, B, B]`, already in ascending fitness order `2000, 4000, 6000, 6000`, both pivots
`1`.  The claim gives rank 1 the child `[t, f, f, t]` and rank 3 the unmodified parent
`[f, f, f, t]`; `crossover` leaves `[t, f, f, f]` and `[f, f, f, f]` there, because the
first `append` of iteration 0 has already overwritten the tail of the parent at rank 0
when it is read again. -/
theorem crossover_reads_overwritten_parent :
    (evalPhase (smallPlanter [[false, false, false, true], [true, false, false, false],
        [true, true, false, false], [true, true, false, false]])).map
      (fun r => r.1.totalFit) =
      some [F64.fin 2000, F64.fin 4000, F64.fin 6000, F64.fin 6000] ∧
    IsSortOutcome [F64.fin 2000, F64.fin 4000, F64.fin 6000, F64.fin 6000] 4 [0, 1, 2, 3] ∧
    (generation 30 (smallPlanter [[false, false, false, true], [true, false, false, false],
        [true, true, false, false], [true, true, false, false]]) plainDraws).map
      (fun r => (populationContents r.1, r.2)) =
      some ([some [true, false, false, false], some [true, false, false, false],
        some [false, false, false, false], some [false, false, false, false]],
        Branch.crossover) ∧
    copyingCrossover [[false, false, false, true], [true, false, false, false],
        [true, true, false, false], [true, true, false, false]] 2 (fun _ => 1) =
      [[true, false, false, false], [true, false, false, true],
        [false, false, false, false], [false, false, false, true]] := by
  refine ⟨by decide!, ⟨by decide, by decide!⟩, by decide!, by decide⟩

/-- C5, evaluated: `init` on `smallCatalog` (limits 3, four chromosomes) can leave the
population `[A,-,-,B], [-,B,B,B], [A,-,-,B], [A,-,-,B]`, all of fitness `6000`.  In
the first generation `bestChromosome` becomes the slice of index 0 and `bestFit`
becomes `6000`; the sort moves nothing and iteration 0 of `crossover` writes the tail
of the chromosome at rank 1 through that same slice.  At the end of the generation the
contents of `bestChromosome` are `[t, t, t, t]`, of total cost `5 > 3`, and
`getFitness` on them is `-Inf`, not `bestFit`. -/
theorem bestChromosome_overwritten :
    init smallCatalog zeroPlanter 0 3 3 1 [4] (fun i => [1, 2, 1, 1].getD i 0)
        (fun i => [[0, 3, 1, 2], [1, 2, 3, 0], [0, 3, 1, 2], [0, 3, 1, 2]].getD i []) =
      some (smallPlanter [[true, false, false, true], [false, true, true, true],
        [true, false, false, true], [true, false, false, true]]) ∧
    IsSortOutcome [F64.fin 6000, F64.fin 6000, F64.fin 6000, F64.fin 6000] 4 [0, 1, 2, 3] ∧
    (generation 30 (smallPlanter [[true, false, false, true], [false, true, true, true],
        [true, false, false, true], [true, false, false, true]]) plainDraws).map
      (fun r => (r.1.totalFit, r.2)) =
      some ([F64.fin 6000, F64.fin 6000, F64.fin 6000, F64.fin 6000], Branch.crossover) ∧
    (generation 30 (smallPlanter [[true, false, false, true], [false, true, true, true],
        [true, false, false, true], [true, false, false, true]]) plainDraws).map
      (fun r => (r.1.bestFit, r.1.bestChromosome)) = some (F64.fin 6000, some 0) ∧
    (generation 30 (smallPlanter [[true, false, false, true], [false, true, true, true],
        [true, false, false, true], [true, false, false, true]]) plainDraws).bind
      (fun r => deref r.1.heap r.1.bestChromosome) = some [true, true, true, true] ∧
    (generation 30 (smallPlanter [[true, false, false, true], [false, true, true, true],
        [true, false, false, true], [true, false, false, true]]) plainDraws).bind
      (fun r => (deref r.1.heap r.1.bestChromosome).bind (fitnessOf r.1)) =
      some F64.ninf := by
  refine ⟨by decide!, ⟨by decide, by decide!⟩, by decide!, by decide!, by decide!, by decide!⟩

/-! ## Best selection -/

theorem f64_lt_trans {a b c : F64} (h1 : F64.lt a b = true) (h2 : F64.lt b c = true) :
    F64.lt a c = true := by
  cases a <;> cases b <;> cases c <;> simp_all [F64.lt]
  exact h1.trans h2

theorem f64_lt_irrefl (a : F64) : F64.lt a a = false := by
  cases a <;> simp [F64.lt]

theorem f64_le_of_not_lt {a b : F64} (ha : a ≠ F64.nan) (hb : b ≠ F64.nan)
    (h : F64.lt a b = false) : F64.le b a = true := by
  cases a <;> cases b <;> simp_all [F64.lt, F64.le]

theorem bestLoop_inv (fit : List F64) (chs : List Slice) (hlen : fit.length ≤ chs.length)
    (k : Nat) (hk : k ≤ fit.length) :
    ∃ v sl, bestLoop fit chs k = some (v, sl) ∧
      (∀ j, j < k → ∀ x, fit[j]? = some x → F64.lt v x = false) ∧
      ((v = F64.ninf ∧ sl = none) ∨
        ∃ i, i < k ∧ fit[i]? = some v ∧ chs[i]? = some sl ∧
          (∀ j, j < i → fit[j]? ≠ some v) ∧ F64.lt F64.ninf v = true) := by
  induction k with
  | zero => exact ⟨F64.ninf, none, rfl, by intro j hj; omega, Or.inl ⟨rfl, rfl⟩⟩
  | succ k ih =>
    obtain ⟨v, sl, hrun, hmax, hfirst⟩ := ih (by omega)
    have hk1 : k < fit.length := hk
    have hk2 : k < chs.length := by omega
    have e1 : fit[k]? = some fit[k] := List.getElem?_eq_getElem hk1
    have e2 : chs[k]? = some chs[k] := List.getElem?_eq_getElem hk2
    by_cases hgt : F64.lt v fit[k] = true
    · refine ⟨fit[k], chs[k], ?_, ?_, Or.inr ⟨k, by omega, e1, e2, ?_, ?_⟩⟩
      · simp [bestLoop, hrun, e1, e2, F64.gt, hgt]
      · intro j hj x hx
        rcases Nat.lt_succ_iff_lt_or_eq.mp hj with hj' | hj'
        · by_contra hc
          have hc' : F64.lt fit[k] x = true := by simpa using hc
          have := f64_lt_trans hgt hc'
          rw [hmax j hj' x hx] at this
          exact Bool.false_ne_true this
        · subst hj'
          rw [e1] at hx
          cases hx
          exact f64_lt_irrefl _
      · intro j hj hx
        have := hmax j hj _ hx
        rw [hgt] at this
        exact Bool.false_ne_true this.symm
      · rcases hfirst with ⟨hv, _⟩ | ⟨i, hi, hiv, _, _, hpos⟩
        · rw [← hv]; exact hgt
        · exact f64_lt_trans hpos hgt
    · have hgt' : F64.lt v fit[k] = false := by simpa using hgt
      refine ⟨v, sl, ?_, ?_, ?_⟩
      · simp [bestLoop, hrun, e1, F64.gt, hgt']
      · intro j hj x hx
        rcases Nat.lt_succ_iff_lt_or_eq.mp hj with hj' | hj'
        · exact hmax j hj' x hx
        · subst hj'
          rw [e1] at hx
          cases hx
          exact hgt'
      · rcases hfirst with h | ⟨i, hi, h⟩
        · exact Or.inl h
        · exact Or.inr ⟨i, by omega, h⟩

/-- C10: the generation-best selection returns a value `v` that no fitness of the
population exceeds (and that every fitness is `<=` when none is `NaN`); when some
fitness is above `-Inf`, `v` is attained in the vector and the chromosome returned is
the one at the smallest index attaining it; when every fitness is `-Inf` the result is
`-Inf` and the nil chromosome. -/
theorem selectBest_spec (fit : List F64) (chs : List Slice)
    (hlen : fit.length ≤ chs.length) :
    ∃ v sl, selectBest fit chs = some (v, sl) ∧
      (∀ x ∈ fit, F64.gt x v = false) ∧
      ((∀ x ∈ fit, x ≠ F64.nan) → ∀ x ∈ fit, F64.le x v = true) ∧
      ((∃ x ∈ fit, F64.gt x F64.ninf = true) →
        ∃ i, i < fit.length ∧ fit[i]? = some v ∧ chs[i]? = some sl ∧
          ∀ j, j < i → fit[j]? ≠ some v) ∧
      ((∀ x ∈ fit, x = F64.ninf) → v = F64.ninf ∧ sl = none) := by
  obtain ⟨v, sl, hrun, hmax, hfirst⟩ := bestLoop_inv fit chs hlen fit.length le_rfl
  have hmax' : ∀ x ∈ fit, F64.lt v x = false := by
    intro x hx
    obtain ⟨j, hj, rfl⟩ := List.getElem_of_mem hx
    exact hmax j hj _ (List.getElem?_eq_getElem hj)
  refine ⟨v, sl, hrun, hmax', ?_, ?_, ?_⟩
  · intro hnan x hx
    have hv : v ≠ F64.nan := by
      rcases hfirst with ⟨hv, _⟩ | ⟨i, _, hiv, _⟩
      · rw [hv]; simp
      · exact hnan v (List.getElem?_mem hiv)
    exact f64_le_of_not_lt hv (hnan x hx) (hmax' x hx)
  · rintro ⟨x, hx, hpos⟩
    rcases hfirst with ⟨hv, _⟩ | ⟨i, hi, hiv, hsl, hmin, _⟩
    · have := hmax' x hx
      rw [hv] at this
      rw [F64.gt, this] at hpos
      exact absurd hpos Bool.false_ne_true
    · exact ⟨i, hi, hiv, hsl, hmin⟩
  · intro hall
    rcases hfirst with h | ⟨i, _, hiv, _, _, hpos⟩
    · exact h
    · rw [hall v (List.getElem?_mem hiv)] at hpos
      simp [F64.lt] at hpos

/-- C10 on the fitness vector `[-Inf, 4000, 6000, 6000]`: the best is `6000` with the
chromosome of index 2. -/
theorem selectBest_spec_witness :
    selectBest [F64.ninf, F64.fin 4000, F64.fin 6000, F64.fin 6000]
      [some 0, some 1, some 2, some 3] = some (F64.fin 6000, some 2) ∧
    ∃ v sl, selectBest [F64.ninf, F64.fin 4000, F64.fin 6000, F64.fin 6000]
        [some 0, some 1, some 2, some 3] = some (v, sl) ∧
      ∀ x ∈ [F64.ninf, F64.fin 4000, F64.fin 6000, F64.fin 6000], F64.gt x v = false := by
  refine ⟨by decide!, ?_⟩
  obtain ⟨v, sl, h1, h2, _⟩ :=
    selectBest_spec [F64.ninf, F64.fin 4000, F64.fin 6000, F64.fin 6000]
      [some 0, some 1, some 2, some 3] (by decide)
  exact ⟨v, sl, h1, h2⟩

/-! ## Frame properties -/

theorem evalLoop_frame (p : TreePlanter) (k : Nat) (q : TreePlanter)
    (h : evalLoop p k = some q) : q = { p with totalFit := q.totalFit } := by
  induction k generalizing q with
  | zero =>
    simp only [evalLoop, Option.some.injEq] at h
    subst h; rfl
  | succ k ih =>
    simp only [evalLoop, Option.bind_eq_bind, Option.bind_eq_some] at h
    obtain ⟨q1, hq1, v, _, h⟩ := h
    have := ih q1 hq1
    split at h
    · simp only [Option.some.injEq] at h
      subst h
      rw [this]
    · exact absurd h (by simp)

theorem initChromosomesBody_frame (q : TreePlanter) (draw : Nat) (perm : List Nat) (i : Nat)
    (r : TreePlanter) (h : initChromosomesBody q draw perm i = some r) :
    r = { q with heap := r.heap } := by
  simp only [initChromosomesBody, Option.bind_eq_bind, Option.bind_eq_some] at h
  obtain ⟨lo, _, hi, _, ch, _, sl, _, c, _, h⟩ := h
  split at h
  · exact absurd h (by simp)
  · simp only [Option.bind_eq_some] at h
    obtain ⟨c1, _, h⟩ := h
    split at h <;>
      · simp only [Option.some.injEq] at h
        subst h; rfl

theorem initChromosomesLoop_frame (p : TreePlanter) (draw : Nat → Nat)
    (perm : Nat → List Nat) (k : Nat) (r : TreePlanter)
    (h : initChromosomesLoop p draw perm k = some r) :
    r = { allocChromosomes p with heap := r.heap } := by
  induction k generalizing r with
  | zero =>
    simp only [initChromosomesLoop, Option.some.injEq] at h
    subst h; rfl
  | succ k ih =>
    simp only [initChromosomesLoop, Option.bind_eq_bind, Option.bind_eq_some] at h
    obtain ⟨q, hq, h⟩ := h
    have h1 := ih q hq
    have h2 := initChromosomesBody_frame q _ _ _ r h
    rw [h2, h1]

theorem crossover_frame (p : TreePlanter) (σ : List Nat) (draw : Nat → Nat) (r : TreePlanter)
    (h : crossover p σ draw = some r) :
    r = { p with heap := r.heap, chromosomes := r.chromosomes, totalFit := r.totalFit } := by
  simp only [crossover, applySort, Option.bind_eq_bind, Option.bind_eq_some] at h
  obtain ⟨q, ⟨cs, _, fs, _, hq⟩, st, _, h⟩ := h
  simp only [Option.some.injEq] at hq h
  subst hq
  subst h
  rfl

/-! ## Stagnation -/

theorem evalPhase_counter (p p' : TreePlanter) (c : F64) (h : evalPhase p = some (p', c)) :
    p'.repCount = (if stagnant c p.lastFit = true then p.repCount + 1 else p.repCount) ∧
    p'.lastFit = c := by
  simp only [evalPhase, Option.bind_eq_bind, Option.bind_eq_some] at h
  obtain ⟨q, hq, best, _, h⟩ := h
  have hf := evalLoop_frame p _ q hq
  have h1 : q.lastFit = p.lastFit := by rw [hf]
  have h2 : q.repCount = p.repCount := by rw [hf]
  simp only [Option.some.injEq, Prod.mk.injEq] at h
  obtain ⟨hp, hc⟩ := h
  subst hc
  subst hp
  by_cases hb : F64.gt best.1 q.bestFit = true <;>
    by_cases hs : stagnant best.1 p.lastFit = true <;>
      simp [hb, hs, h1, h2]

theorem stagnant_fin_after_ninf (q : ℚ) (hq : 0 < q) :
    stagnant (F64.fin q) F64.ninf = false := by
  have h0 : ¬ q = 0 := hq.ne'
  have h1 : ¬ q < 0 := not_lt.mpr hq.le
  simp [stagnant, relErr, F64.sub, F64.neg, F64.add, F64.abs, F64.div, F64.le, F64.isNaN, h1]

theorem stagnant_ninf_ninf : stagnant F64.ninf F64.ninf = true := by
  simp [stagnant, relErr, F64.sub, F64.neg, F64.add, F64.abs, F64.div, F64.le, F64.isNaN]

theorem generation_counter (maxRep : Int) (p : TreePlanter) (d : Draws)
    (r : TreePlanter × Branch) (h : generation maxRep p d = some r) :
    ∃ pe c, evalPhase p = some (pe, c) ∧ r.1.lastFit = c ∧
      ((pe.repCount ≥ maxRep ∧ r.1.repCount = 0 ∧ r.2 = Branch.restart) ∨
        (pe.repCount < maxRep ∧ r.1.repCount = pe.repCount ∧ r.2 = Branch.crossover)) := by
  simp only [generation, Option.bind_eq_bind, Option.bind_eq_some] at h
  obtain ⟨⟨pe, c⟩, he, h⟩ := h
  have hl := (evalPhase_counter p pe c he).2
  refine ⟨pe, c, he, ?_⟩
  split at h
  · rename_i hge
    simp only [Option.bind_eq_some] at h
    obtain ⟨q, hq, h⟩ := h
    simp only [Option.some.injEq] at h
    subst h
    have hf := initChromosomesLoop_frame _ _ _ _ q hq
    refine ⟨?_, Or.inl ⟨hge, ?_, rfl⟩⟩
    · show q.lastFit = c
      rw [hf]; exact hl
    · show q.repCount = 0
      rw [hf]; rfl
  · rename_i hlt
    simp only [Option.bind_eq_some] at h
    obtain ⟨q, hq, h⟩ := h
    simp only [Option.some.injEq] at h
    subst h
    have hf := crossover_frame _ _ _ q hq
    refine ⟨?_, Or.inr ⟨not_le.mp hlt, ?_, rfl⟩⟩
    · show q.lastFit = c
      rw [hf]; exact hl
    · show q.repCount = pe.repCount
      rw [hf]

/-- C9: in one generation with best fitness `c` and previous best `l = lastFit`, the
stagnation check adds exactly 1 to `repCount` when `|c - l| / c <= 0.5` or that ratio is
`NaN`, and leaves it unchanged otherwise; `c = l = -Inf` counts as stagnant, a finite
`c > 0` after `l = -Inf` does not; and a non-stagnant generation (entered below
`maxRep`) ends with the counter it started with, through the crossover branch. -/
theorem stagnation_check (maxRep : Int) (p pe : TreePlanter) (c : F64)
    (h : evalPhase p = some (pe, c)) :
    (pe.repCount =
      if F64.le (F64.div (F64.abs (F64.sub c p.lastFit)) c) (F64.fin (1 / 2)) = true ∨
          F64.isNaN (F64.div (F64.abs (F64.sub c p.lastFit)) c) = true
      then p.repCount + 1 else p.repCount) ∧
    (c = F64.ninf → p.lastFit = F64.ninf → pe.repCount = p.repCount + 1) ∧
    (∀ q : ℚ, 0 < q → c = F64.fin q → p.lastFit = F64.ninf → pe.repCount = p.repCount) ∧
    (∀ d r, generation maxRep p d = some r → stagnant c p.lastFit = false →
      p.repCount < maxRep → r.1.repCount = p.repCount ∧ r.2 = Branch.crossover) := by
  have hc := (evalPhase_counter p pe c h).1
  refine ⟨?_, ?_, ?_, ?_⟩
  · rw [hc]
    simp only [stagnant, relErr, Bool.or_eq_true]
  · intro h1 h2
    rw [hc, h1, h2, stagnant_ninf_ninf]; rfl
  · intro q hq h1 h2
    rw [hc, h1, h2, stagnant_fin_after_ninf q hq]; rfl
  · intro d r hr hs hlt
    obtain ⟨pe', c', he', _, hbr⟩ := generation_counter maxRep p d r hr
    rw [h] at he'
    simp only [Option.some.injEq, Prod.mk.injEq] at he'
    obtain ⟨rfl, rfl⟩ := he'
    rw [hs] at hc
    simp only [Bool.false_eq_true, if_false] at hc
    rcases hbr with ⟨hge, _, _⟩ | ⟨_, h1, h2⟩
    · omega
    · exact ⟨h1.trans hc, h2⟩

/-- C9 on a first generation: previous best `-Inf`, best of the generation `6000`; the
counter stays at `0`. -/
theorem stagnation_check_witness :
    evalPhase (smallPlanter [[true, false, false, true], [false, true, true, true]]) =
      some ({ smallPlanter [[true, false, false, true], [false, true, true, true]] with
        totalFit := [F64.fin 6000, F64.fin 6000], bestFit := F64.fin 6000
        bestChromosome := some 0, lastFit := F64.fin 6000 }, F64.fin 6000) ∧
    ({ smallPlanter [[true, false, false, true], [false, true, true, true]] with
        totalFit := [F64.fin 6000, F64.fin 6000], bestFit := F64.fin 6000
        bestChromosome := some 0, lastFit := F64.fin 6000 } : TreePlanter).repCount =
      (smallPlanter [[true, false, false, true], [false, true, true, true]]).repCount :=
  ⟨by decide!,
   (stagnation_check 30 (smallPlanter [[true, false, false, true], [false, true, true, true]])
      _ (F64.fin 6000) (by decide!)).2.2.1 6000 (by norm_num) rfl rfl⟩

theorem run_all_infeasible (m : Nat) (hm : 1 ≤ m) (ds : List Draws) :
    ∀ (p : TreePlanter) (tr : List (TreePlanter × Branch)) (c0 : Nat),
      p.repCount = (c0 : Int) → c0 < m → p.lastFit = F64.ninf →
      runGenerations (m : Int) p ds = some tr →
      (∀ e ∈ tr, e.1.lastFit = F64.ninf) →
      ∀ n, n < tr.length →
        (tr[n]?).map Prod.snd =
          some (if m ∣ c0 + n + 1 then Branch.restart else Branch.crossover) := by
  induction ds with
  | nil =>
    intro p tr c0 _ _ _ hrun _ n hn
    simp only [runGenerations, Option.some.injEq] at hrun
    subst hrun
    simp at hn
  | cons d ds ih =>
    intro p tr c0 hc hlt hl hrun hinf n hn
    simp only [runGenerations, Option.bind_eq_bind, Option.bind_eq_some] at hrun
    obtain ⟨r, hr, rest, hrest, htr⟩ := hrun
    simp only [Option.some.injEq] at htr
    subst htr
    obtain ⟨pe, c, he, hrl, hbr⟩ := generation_counter (m : Int) p d r hr
    have hcn : c = F64.ninf := by
      rw [← hrl]; exact hinf r (List.mem_cons_self _ _)
    have hpe : pe.repCount = (c0 : Int) + 1 := by
      have := (evalPhase_counter p pe c he).1
      rw [hcn, hl, stagnant_ninf_ninf] at this
      simpa [hc] using this
    have hinf' : ∀ e ∈ rest, e.1.lastFit = F64.ninf :=
      fun e he => hinf e (List.mem_cons_of_mem _ he)
    have hrl' : r.1.lastFit = F64.ninf := hrl.trans hcn
    rcases hbr with ⟨hge, h0, hb⟩ | ⟨hlt', h1, hb⟩
    · have hcm : c0 + 1 = m := by omega
      cases n with
      | zero =>
        simp only [List.getElem?_cons_zero, Option.map_some', hb, Nat.add_zero]
        rw [if_pos (by rw [hcm])]
      | succ n =>
        have := ih r.1 rest 0 (by simpa using h0) (by omega) hrl' hrest hinf' n
          (by simpa using hn)
        simp only [List.getElem?_cons_succ]
        rw [this]
        have e : c0 + (n + 1) + 1 = (0 + n + 1) + m := by omega
        have hiff : m ∣ c0 + (n + 1) + 1 ↔ m ∣ 0 + n + 1 := by
          rw [e]; exact Nat.dvd_add_self_right
        simp only [hiff]
    · have hcm : c0 + 1 < m := by omega
      cases n with
      | zero =>
        simp only [List.getElem?_cons_zero, Option.map_some', hb, Nat.add_zero]
        rw [if_neg (Nat.not_dvd_of_pos_of_lt (by omega) hcm)]
      | succ n =>
        have := ih r.1 rest (c0 + 1) (by rw [h1, hpe]; push_cast; ring) hcm hrl' hrest
          hinf' n (by simpa using hn)
        simp only [List.getElem?_cons_succ]
        rw [this]
        have e : c0 + (n + 1) + 1 = c0 + 1 + n + 1 := by omega
        simp only [e]

/-- C8: from a state with stagnation counter `0` and `lastFit = -Inf`, with
`maxRep = 30`, in a run whose every generation has best fitness `-Inf`, generation `n`
(counted from 1) takes the restart branch exactly when `30 ∣ n` and the crossover branch
otherwise. -/
theorem restart_every_thirty (p : TreePlanter) (ds : List Draws)
    (tr : List (TreePlanter × Branch))
    (h0 : p.repCount = 0) (hl : p.lastFit = F64.ninf)
    (hrun : runGenerations 30 p ds = some tr)
    (hinf : ∀ e ∈ tr, e.1.lastFit = F64.ninf) :
    ∀ n, 1 ≤ n → n ≤ tr.length →
      ((tr[n - 1]?).map Prod.snd = some Branch.restart ↔ 30 ∣ n) ∧
      ((tr[n - 1]?).map Prod.snd = some Branch.crossover ↔ ¬ 30 ∣ n) := by
  intro n hn1 hn2
  have h := run_all_infeasible 30 (by norm_num) ds p tr 0 (by simpa using h0)
    (by norm_num) hl hrun hinf (n - 1) (by omega)
  have e : 0 + (n - 1) + 1 = n := by omega
  rw [e] at h
  rw [h]
  by_cases hd : 30 ∣ n <;> simp [hd]

set_option maxRecDepth 1000000 in
/-- C8 on a run of 60 generations of an all-infeasible population: generations 30 and 60
restart, generations 29 and 31 run crossover. -/
theorem restart_every_thirty_witness :
    ∃ tr, runGenerations 30 infeasibleStart (List.replicate 60 plainDraws) = some tr ∧
      tr.length = 60 ∧
      (tr[29]?).map Prod.snd = some Branch.restart ∧
      (tr[59]?).map Prod.snd = some Branch.restart ∧
      (tr[28]?).map Prod.snd = some Branch.crossover ∧
      (tr[30]?).map Prod.snd = some Branch.crossover := by
  have hall : (runGenerations 30 infeasibleStart (List.replicate 60 plainDraws)).map
      (fun tr => tr.map (fun e => e.1.lastFit)) = some (List.replicate 60 F64.ninf) := by
    decide!
  cases hrun : runGenerations 30 infeasibleStart (List.replicate 60 plainDraws) with
  | none => rw [hrun] at hall; exact absurd hall (by simp)
  | some tr =>
    rw [hrun] at hall
    simp only [Option.map_some', Option.some.injEq] at hall
    have hlen : tr.length = 60 := by
      have := congrArg List.length hall
      simpa using this
    have hinf : ∀ e ∈ tr, e.1.lastFit = F64.ninf := by
      intro e he
      have : e.1.lastFit ∈ tr.map (fun e => e.1.lastFit) := List.mem_map_of_mem _ he
      rw [hall] at this
      exact List.eq_of_mem_replicate this
    have key := restart_every_thirty infeasibleStart (List.replicate 60 plainDraws) tr
      rfl rfl hrun hinf
    refine ⟨tr, rfl, hlen, ?_, ?_, ?_, ?_⟩
    · exact (key 30 (by norm_num) (by omega)).1.mpr (by norm_num)
    · exact (key 60 (by norm_num) (by omega)).1.mpr (by norm_num)
    · exact (key 29 (by norm_num) (by omega)).2.mpr (by norm_num)
    · exact (key 31 (by norm_num) (by omega)).2.mpr (by norm_num)

/-! ## Shape of the population under crossover -/

theorem randInt_range (lo hi : Int) (draw : Nat) (h : lo ≤ hi) :
    ∃ v, randInt lo hi draw = some v ∧ lo ≤ v ∧ v ≤ hi := by
  have hn : 0 < hi - lo + 1 := by omega
  have h1 := Int.emod_nonneg (draw : Int) hn.ne'
  have h2 := Int.emod_lt_of_pos (draw : Int) hn
  refine ⟨(draw : Int) % (hi - lo + 1) + lo, ?_, by omega, by omega⟩
  simp [randInt, randIntn, not_le.mpr hn]

theorem mapM_getElem?_some {α : Type} (xs : List α) (σ : List Nat)
    (h : ∀ k ∈ σ, k < xs.length) :
    ∃ ys, σ.mapM (fun k => xs[k]?) = some ys ∧ ys.length = σ.length ∧ ∀ y ∈ ys, y ∈ xs := by
  induction σ with
  | nil => exact ⟨[], rfl, rfl, by simp⟩
  | cons k σ ih =>
    obtain ⟨ys, hys, hlen, hmem⟩ := ih (fun k hk => h k (List.mem_cons_of_mem _ hk))
    have hk : k < xs.length := h k (List.mem_cons_self _ _)
    refine ⟨xs[k] :: ys, ?_, by simp [hlen], ?_⟩
    · rw [List.mapM_cons, hys, List.getElem?_eq_getElem hk]
      rfl
    · intro y hy
      rcases List.mem_cons.mp hy with rfl | hy
      · exact List.getElem_mem hk
      · exact hmem y hy

theorem ValidSlice.set {heap : Heap} {M : Nat} {sl : Slice} (h : ValidSlice heap M sl)
    (a : Nat) (c : List Bool) (hc : c.length = M) : ValidSlice (heap.set a c) M sl := by
  obtain ⟨a', ch, rfl, hch, hlen⟩ := h
  by_cases e : a = a'
  · subst e
    have hlt : a < heap.length := by
      rcases List.getElem?_eq_some.mp hch with ⟨h, _⟩
      exact h
    exact ⟨a, c, rfl, by simp [List.getElem?_set, hlt], hc⟩
  · exact ⟨a', ch, rfl, by simp [List.getElem?_set, e, hch], hlen⟩

theorem appendSlices_valid (heap : Heap) (M : Nat) (s t : Slice) (piv : Nat)
    (hs : ValidSlice heap M s) (ht : ValidSlice heap M t) (hp : piv ≤ M) :
    ∃ heap1, appendSlices heap s t piv = some (heap1, s) ∧
      ∀ sl, ValidSlice heap M sl → ValidSlice heap1 M sl := by
  obtain ⟨a, la, rfl, hla, hlal⟩ := hs
  obtain ⟨b, lb, rfl, hlb, hlbl⟩ := ht
  refine ⟨heap.set a (la.take piv ++ lb.drop piv), ?_, ?_⟩
  · simp [appendSlices, hla, hlb, hlal, hlbl, hp]
  · intro sl hsl
    exact hsl.set a _ (by simp [hlal, hlbl]; omega)

theorem assignAt_some (nc : List Slice) (k : Nat) (v : Slice) (hk : k < nc.length) :
    assignAt nc k v = some (nc.set k v) := by
  simp [assignAt, hk]

theorem holds_after_set (chs : List Slice) (nc : List Slice) (k : Nat) (v : Slice)
    (hk : k < nc.length) (hv : v ∈ chs) (j : Nat)
    (h : j = k ∨ ∃ sl ∈ chs, nc[j]? = some sl) :
    ∃ sl ∈ chs, (nc.set k v)[j]? = some sl := by
  by_cases e : k = j
  · subst e
    exact ⟨v, hv, by simp [List.getElem?_set, hk]⟩
  · rcases h with h | h
    · exact absurd h.symm e
    · obtain ⟨sl, hsl, hj⟩ := h
      exact ⟨sl, hsl, by simp [List.getElem?_set, e, hj]⟩

theorem crossoverBody_inv (chs : List Slice) (M X : Nat) (draw : Nat) (hM : 3 ≤ M)
    (hlen : chs.length = X) (st : Heap × List Slice) (k : Nat) (hk : k < X / 2)
    (hinv : CrossInv chs M X k st) :
    ∃ st1, crossoverBody chs M X draw st k = some st1 ∧ CrossInv chs M X (k + 1) st1 := by
  obtain ⟨hval, hnc, hass⟩ := hinv
  obtain ⟨piv, hpiv, hp1, hp2⟩ := randInt_range 1 ((M : Int) - 2) draw (by omega)
  have hi : k < chs.length := by omega
  have hj : X / 2 - k - 1 < chs.length := by omega
  have hci := List.getElem_mem hi
  have hcj := List.getElem_mem hj
  have hpm : piv.toNat ≤ M := by omega
  obtain ⟨heap1, happ1, hkeep1⟩ :=
    appendSlices_valid st.1 M chs[k] chs[X / 2 - k - 1] piv.toNat (hval _ hci) (hval _ hcj) hpm
  obtain ⟨heap2, happ2, hkeep2⟩ :=
    appendSlices_valid heap1 M chs[X / 2 - k - 1] chs[k] piv.toNat
      (hkeep1 _ (hval _ hcj)) (hkeep1 _ (hval _ hci)) hpm
  have b1 : k < st.2.length := by omega
  have b2 : X - k - 1 < (st.2.set k chs[k]).length := by simp; omega
  have b3 : X / 2 - k - 1 <
      ((st.2.set k chs[k]).set (X - k - 1) chs[X / 2 - k - 1]).length := by simp; omega
  have b4 : X / 2 + k <
      (((st.2.set k chs[k]).set (X - k - 1) chs[X / 2 - k - 1]).set
        (X / 2 - k - 1) chs[k]).length := by simp; omega
  refine ⟨(heap2, (((st.2.set k chs[k]).set (X - k - 1) chs[X / 2 - k - 1]).set
      (X / 2 - k - 1) chs[k]).set (X / 2 + k) chs[X / 2 - k - 1]), ?_, ?_, ?_, ?_⟩
  · simp only [crossoverBody, hpiv, List.getElem?_eq_getElem hi, List.getElem?_eq_getElem hj,
      Option.bind_eq_bind, Option.some_bind, happ1, happ2, assignAt_some _ _ _ b1,
      assignAt_some _ _ _ b2, assignAt_some _ _ _ b3, assignAt_some _ _ _ b4]
  · intro sl hsl
    exact hkeep2 _ (hkeep1 _ (hval sl hsl))
  · simp [hnc]
  · intro j hjX hj'
    apply holds_after_set chs _ _ _ b4 hcj
    by_cases e4 : j = X / 2 + k
    · exact Or.inl e4
    right
    apply holds_after_set chs _ _ _ b3 hci
    by_cases e3 : j = X / 2 - k - 1
    · exact Or.inl e3
    right
    apply holds_after_set chs _ _ _ b2 hcj
    by_cases e2 : j = X - k - 1
    · exact Or.inl e2
    right
    apply holds_after_set chs _ _ _ b1 hci
    by_cases e1 : j = k
    · exact Or.inl e1
    right
    apply hass j hjX
    unfold Assigned at hj' ⊢
    omega

theorem crossoverLoop_inv (chs : List Slice) (M X : Nat) (draw : Nat → Nat) (heap : Heap)
    (hM : 3 ≤ M) (hlen : chs.length = X) (hval : ∀ sl ∈ chs, ValidSlice heap M sl)
    (k : Nat) (hk : k ≤ X / 2) :
    ∃ st, crossoverLoop chs M X draw heap k = some st ∧ CrossInv chs M X k st := by
  induction k with
  | zero =>
    refine ⟨_, rfl, hval, by simp, ?_⟩
    intro j hj h
    unfold Assigned at h
    omega
  | succ k ih =>
    obtain ⟨st, hst, hinv⟩ := ih (by omega)
    obtain ⟨st1, hst1, hinv1⟩ := crossoverBody_inv chs M X (draw k) hM hlen st k hk hinv
    exact ⟨st1, by simp [crossoverLoop, hst, hst1], hinv1⟩

/-- C7, as stated, fails for a population of one chromosome: the loop of `crossover` runs
`X / 2 = 0` times, and the only entry of `newChrom` stays the nil slice, of length `0`
instead of `M = 4`. -/
theorem crossover_single_chromosome_nil :
    (smallPlanter [[true, false, false, true]]).numOfChromosomes = 1 ∧
    (smallPlanter [[true, false, false, true]]).sampleSet.length = 4 ∧
    chromosomeAt (smallPlanter [[true, false, false, true]]) 0 =
      some [true, false, false, true] ∧
    (crossover (smallPlanter [[true, false, false, true]]) [0] (fun _ => 0)).map
      (fun r => r.chromosomes) = some [none] ∧
    (crossover (smallPlanter [[true, false, false, true]]) [0] (fun _ => 0)).bind
      (fun r => chromosomeAt r 0) = some [] := by
  refine ⟨by decide, by decide, by decide, by decide!, by decide!⟩

/-- C7, amended: for a population of `X >= 2` chromosomes of length `M >= 3`, every sort
outcome and every choice of pivots, `crossover` does not fail and leaves exactly `X`
chromosomes, each of length `M`. -/
theorem crossover_preserves_shape (p : TreePlanter) (σ : List Nat) (draw : Nat → Nat)
    (X M : Nat) (hX : p.numOfChromosomes = X) (h2 : 2 ≤ X)
    (hM : p.sampleSet.length = M) (h3 : 3 ≤ M)
    (hcl : p.chromosomes.length = X) (hfl : p.totalFit.length = X)
    (hval : ∀ sl ∈ p.chromosomes, ValidSlice p.heap M sl)
    (hσ : σ.Perm (List.range X)) :
    ∃ r, crossover p σ draw = some r ∧ r.chromosomes.length = X ∧
      ∀ i, i < X → ∃ ch, chromosomeAt r i = some ch ∧ ch.length = M := by
  have hσlen : σ.length = X := by simpa using hσ.length_eq
  have hσlt : ∀ k ∈ σ, k < X := fun k hk => List.mem_range.mp (hσ.mem_iff.mp hk)
  obtain ⟨cs, hcs, hcsl, hcsm⟩ := mapM_getElem?_some p.chromosomes σ (by rw [hcl]; exact hσlt)
  obtain ⟨fs, hfs, _, _⟩ := mapM_getElem?_some p.totalFit σ (by rw [hfl]; exact hσlt)
  obtain ⟨st, hst, hv, hl, hass⟩ := crossoverLoop_inv cs M X draw p.heap h3 (hcsl.trans hσlen)
    (fun sl hsl => hval sl (hcsm sl hsl)) (X / 2) le_rfl
  refine ⟨{ p with
      heap := st.1
      chromosomes := st.2
      totalFit := fs ++ p.totalFit.drop σ.length }, ?_, hl, ?_⟩
  · simp only [crossover, applySort, hcs, hfs, Option.bind_eq_bind, Option.some_bind, hM, hX, hst]
  · intro i hi
    obtain ⟨sl, hsl, hget⟩ := hass i hi (by unfold Assigned; omega)
    obtain ⟨a, ch, rfl, hch, hlen⟩ := hv sl hsl
    exact ⟨ch, by simp [chromosomeAt, hget, deref, hch], hlen⟩

/-- C7 (amended) on the four chromosomes of `infeasibleStart`. -/
theorem crossover_preserves_shape_witness :
    ∃ r, crossover infeasibleStart [0, 1, 2, 3] (fun _ => 0) = some r ∧
      r.chromosomes.length = 4 ∧
      ∀ i, i < 4 → ∃ ch, chromosomeAt r i = some ch ∧ ch.length = 4 :=
  crossover_preserves_shape infeasibleStart [0, 1, 2, 3] (fun _ => 0) 4 4 rfl (by decide) rfl
    (by decide) rfl rfl
    (by
      intro sl hsl
      have h : sl = some 0 ∨ sl = some 1 ∨ sl = some 2 ∨ sl = some 3 := by
        simpa [infeasibleStart, smallPlanter, List.range, List.range.loop] using hsl
      rcases h with h | h | h | h <;> subst h <;>
        exact ⟨_, [true, true, true, false], rfl, rfl, rfl⟩)
    (by decide)

/-! ## Random population -/

theorem f64_min_pinf (a : Int) : F64.min (F64.ofInt a) F64.pinf = F64.ofInt a := by
  simp [F64.min, F64.ofInt, F64.lt]

theorem f64_max_ofInt (a b : Int) :
    F64.max (F64.ofInt a) (F64.ofInt b) = F64.ofInt (max a b) := by
  by_cases h : b < a
  · have h' : ((b : ℚ) < (a : ℚ)) := by exact_mod_cast h
    simp [F64.max, F64.ofInt, F64.gt, F64.lt, h', max_eq_left h.le]
  · have h' : ¬ ((b : ℚ) < (a : ℚ)) := by exact_mod_cast h
    simp [F64.max, F64.ofInt, F64.gt, F64.lt, h', max_eq_right (not_lt.mp h)]

theorem f64_max_ninf (a : Int) : F64.max (F64.ofInt a) F64.ninf = F64.ofInt a := by
  simp [F64.max, F64.ofInt, F64.gt, F64.lt]

theorem mincUpTo_succ (p : TreePlanter) (k : Nat) :
    mincUpTo p (k + 1) = F64.min (F64.ofInt (itemCount p k)) (mincUpTo p k) := by
  simp [mincUpTo, List.range_succ, List.foldl_append]

theorem maxcUpTo_succ (p : TreePlanter) (k : Nat) :
    maxcUpTo p (k + 1) = F64.max (F64.ofInt (itemCount p k)) (maxcUpTo p k) := by
  simp [maxcUpTo, List.range_succ, List.foldl_append]

/-- After at least one item, `minc` is the least of the counts seen. -/
theorem mincUpTo_spec (p : TreePlanter) (k : Nat) :
    ∃ lo : Nat, mincUpTo p (k + 1) = F64.ofInt lo ∧
      (∃ i, i < k + 1 ∧ itemCount p i = lo) ∧ ∀ i, i < k + 1 → lo ≤ itemCount p i := by
  induction k with
  | zero =>
    refine ⟨itemCount p 0, ?_, ⟨0, by omega, rfl⟩, ?_⟩
    · rw [mincUpTo_succ]
      exact f64_min_pinf _
    · intro i hi
      have : i = 0 := by omega
      subst this; exact le_rfl
  | succ k ih =>
    obtain ⟨lo, hlo, ⟨i0, hi0, hi0e⟩, hall⟩ := ih
    refine ⟨min (itemCount p (k + 1)) lo, ?_, ?_, ?_⟩
    · rw [mincUpTo_succ, hlo, f64_min_ofInt]
      congr 1
      exact (Nat.cast_min _ _).symm
    · by_cases h : itemCount p (k + 1) ≤ lo
      · exact ⟨k + 1, by omega, by rw [min_eq_left h]⟩
      · exact ⟨i0, by omega, by rw [min_eq_right (not_le.mp h).le]; exact hi0e⟩
    · intro i hi
      rcases Nat.lt_succ_iff_lt_or_eq.mp hi with h | h
      · exact (min_le_right _ _).trans (hall i h)
      · subst h; exact min_le_left _ _

/-- After at least one item, `maxc` is the greatest of the counts seen. -/
theorem maxcUpTo_spec (p : TreePlanter) (k : Nat) :
    ∃ hi : Nat, maxcUpTo p (k + 1) = F64.ofInt hi ∧
      (∃ i, i < k + 1 ∧ itemCount p i = hi) ∧ ∀ i, i < k + 1 → itemCount p i ≤ hi := by
  induction k with
  | zero =>
    refine ⟨itemCount p 0, ?_, ⟨0, by omega, rfl⟩, ?_⟩
    · rw [maxcUpTo_succ]
      exact f64_max_ninf _
    · intro i hi
      have : i = 0 := by omega
      subst this; exact le_rfl
  | succ k ih =>
    obtain ⟨hi, hhi, ⟨i0, hi0, hi0e⟩, hall⟩ := ih
    refine ⟨max (itemCount p (k + 1)) hi, ?_, ?_, ?_⟩
    · rw [maxcUpTo_succ, hhi, f64_max_ofInt]
      congr 1
      exact (Nat.cast_max _ _).symm
    · by_cases h : hi ≤ itemCount p (k + 1)
      · exact ⟨k + 1, by omega, by rw [max_eq_left h]⟩
      · exact ⟨i0, by omega, by rw [max_eq_right (not_le.mp h).le]; exact hi0e⟩
    · intro i hi'
      rcases Nat.lt_succ_iff_lt_or_eq.mp hi' with h | h
      · exact (hall i h).trans (le_max_right _ _)
      · subst h; exact le_max_left _ _

theorem setBits_spec (idx : List Nat) :
    ∀ b : List Bool, idx.Nodup → (∀ j ∈ idx, j < b.length) →
      (∀ j ∈ idx, b[j]? = some false) →
      ∃ c1, setBits b idx = some c1 ∧ c1.length = b.length ∧
        c1.count true = b.count true + idx.length := by
  induction idx with
  | nil => intro b _ _ _; exact ⟨b, rfl, rfl, rfl⟩
  | cons j js ih =>
    intro b hnd hlt hf
    have hj : j < b.length := hlt j (List.mem_cons_self _ _)
    have hnd' := List.nodup_cons.mp hnd
    have hcj : b[j] = false := by
      have := hf j (List.mem_cons_self _ _)
      rw [List.getElem?_eq_getElem hj] at this
      exact Option.some.inj this
    obtain ⟨c1, hc1, hl1, hcount⟩ := ih (b.set j true) hnd'.2
      (fun j' hj' => by simpa using hlt j' (List.mem_cons_of_mem _ hj'))
      (fun j' hj' => by
        have hne : j ≠ j' := fun e => hnd'.1 (e ▸ hj')
        rw [List.getElem?_set_ne hne]
        exact hf j' (List.mem_cons_of_mem _ hj'))
    refine ⟨c1, by simp [setBits, hj, hc1], by simpa using hl1, ?_⟩
    rw [hcount, List.count_set _ _ _ _ hj, hcj]
    simp
    omega

theorem initChromosomesBody_spec (r : TreePlanter) (draw : Nat) (perm : List Nat)
    (k base M lo hi : Nat)
    (hmin : r.minc = F64.ofInt lo) (hmax : r.maxc = F64.ofInt hi)
    (hlh : lo ≤ hi) (hhM : hi ≤ M)
    (hch : r.chromosomes[k]? = some (some (base + k)))
    (hheap : r.heap[base + k]? = some (List.replicate M false))
    (hperm : perm.Perm (List.range M)) :
    ∃ c1, initChromosomesBody r draw perm k = some { r with heap := r.heap.set (base + k) c1 } ∧
      c1.length = M ∧ lo ≤ c1.count true ∧ c1.count true ≤ hi := by
  obtain ⟨choose, hchoose, hc1, hc2⟩ := randInt_range (lo : Int) (hi : Int) draw (by omega)
  have hnd : (perm.take choose.toNat).Nodup :=
    ((hperm.nodup_iff).mpr (List.nodup_range M)).sublist (List.take_sublist _ _)
  have hmem : ∀ j ∈ perm.take choose.toNat, j < (List.replicate M false).length := by
    intro j hj
    have := hperm.mem_iff.mp (List.mem_of_mem_take hj)
    simpa using this
  have hfalse : ∀ j ∈ perm.take choose.toNat, (List.replicate M false)[j]? = some false := by
    intro j hj
    have hlt := hmem j hj
    rw [List.getElem?_eq_getElem hlt]
    simp
  obtain ⟨c1, hset, hlen, hcount⟩ := setBits_spec _ _ hnd hmem hfalse
  have hplen : perm.length = M := by simpa using hperm.length_eq
  have htake : (perm.take choose.toNat).length = choose.toNat := by
    rw [List.length_take, hplen]; omega
  have hzero : (List.replicate M false).count true = 0 := by
    simp [List.count_replicate]
  refine ⟨c1, ?_, by simpa using hlen, by rw [hcount, hzero, htake]; omega,
    by rw [hcount, hzero, htake]; omega⟩
  have hbad : ¬ (choose < 0 ∨ choose > ((List.replicate M false).length : Int)) := by
    simp only [List.length_replicate]; omega
  simp only [initChromosomesBody, hmin, hmax, F64.toInt_ofInt, hchoose, hch, deref, hheap,
    Option.bind_eq_bind, Option.some_bind, hbad, if_false, hset]

theorem initChromosomesLoop_spec (q : TreePlanter) (draw : Nat → Nat) (perm : Nat → List Nat)
    (lo hi : Nat) (hmin : q.minc = F64.ofInt lo) (hmax : q.maxc = F64.ofInt hi)
    (hlh : lo ≤ hi) (hhM : hi ≤ q.sampleSet.length)
    (hperm : ∀ i, i < q.numOfChromosomes → (perm i).Perm (List.range q.sampleSet.length))
    (k : Nat) (hk : k ≤ q.numOfChromosomes) :
    ∃ r, initChromosomesLoop q draw perm k = some r ∧
      r.heap.length = q.heap.length + q.numOfChromosomes ∧
      (∀ i, k ≤ i → i < q.numOfChromosomes →
        r.heap[q.heap.length + i]? = some (List.replicate q.sampleSet.length false)) ∧
      (∀ i, i < k → ∃ ch, r.heap[q.heap.length + i]? = some ch ∧
        ch.length = q.sampleSet.length ∧ lo ≤ ch.count true ∧ ch.count true ≤ hi) := by
  induction k with
  | zero =>
    refine ⟨allocChromosomes q, rfl, by simp [allocChromosomes], ?_, by intro i hi; omega⟩
    intro i _ hi
    simp only [allocChromosomes]
    rw [List.getElem?_append_right (by omega)]
    simp [List.getElem?_replicate, hi]
  | succ k ih =>
    obtain ⟨r, hr, hlen, hrest, hdone⟩ := ih (by omega)
    have hf := initChromosomesLoop_frame q draw perm k r hr
    have hk' : k < q.numOfChromosomes := hk
    have e1 : r.minc = F64.ofInt lo := by rw [hf]; exact hmin
    have e2 : r.maxc = F64.ofInt hi := by rw [hf]; exact hmax
    have e3 : r.chromosomes[k]? = some (some (q.heap.length + k)) := by
      rw [hf]
      simp [allocChromosomes, List.getElem?_map, List.getElem?_range hk']
    obtain ⟨c1, hbody, hc1l, hc1lo, hc1hi⟩ :=
      initChromosomesBody_spec r (draw k) (perm k) k q.heap.length q.sampleSet.length lo hi
        e1 e2 hlh hhM e3 (hrest k le_rfl hk') (hperm k hk')
    refine ⟨{ r with heap := r.heap.set (q.heap.length + k) c1 }, ?_,
      by simpa using hlen, ?_, ?_⟩
    · simp only [initChromosomesLoop, hr, Option.bind_eq_bind, Option.some_bind, hbody]
    · intro i hki hi
      have hne : q.heap.length + k ≠ q.heap.length + i := by omega
      simp only [List.getElem?_set_ne hne]
      exact hrest i (by omega) hi
    · intro i hi
      rcases Nat.lt_succ_iff_lt_or_eq.mp hi with h | h
      · have hne : q.heap.length + k ≠ q.heap.length + i := by omega
        simp only [List.getElem?_set_ne hne]
        exact hdone i h
      · subst h
        refine ⟨c1, ?_, hc1l, hc1lo, hc1hi⟩
        simp [List.getElem?_set, hlen, hk']

/-- C6: for a non-empty catalog with positive costs and areas and non-negative limits,
every outcome of `rand.Intn` and every family of permutations returned by `rand.Perm`,
`initChromosomes` after `getSamplingSet` does not fail and yields `numOfChromosomes`
chromosomes of length `M`, each with a number of true bits between the least count `lo`
and the greatest count `hi` of slots per item (and `hi <= M`). -/
theorem initChromosomes_spec (p : TreePlanter) (n : Nat) (draw : Nat → Nat)
    (perm : Nat → List Nat) (hn : 0 < n)
    (hcn : p.cost.length = n) (han : p.area.length = n)
    (hc : ∀ c ∈ p.cost, 0 < c) (ha : ∀ a ∈ p.area, 0 < a)
    (hcl : 0 ≤ p.costLimit) (hal : 0 ≤ p.areaLimit) (hempty : p.sampleSet = [])
    (hperm : ∀ q, getSamplingSet n p = some q → ∀ i, i < p.numOfChromosomes →
      (perm i).Perm (List.range q.sampleSet.length)) :
    ∃ q r lo hi, getSamplingSet n p = some q ∧ initChromosomes q draw perm = some r ∧
      r.chromosomes.length = p.numOfChromosomes ∧
      (∃ i, i < n ∧ q.sampleSet.count i = lo) ∧ (∀ i, i < n → lo ≤ q.sampleSet.count i) ∧
      (∃ i, i < n ∧ q.sampleSet.count i = hi) ∧ (∀ i, i < n → q.sampleSet.count i ≤ hi) ∧
      hi ≤ q.sampleSet.length ∧
      ∀ i, i < p.numOfChromosomes → ∃ ch, chromosomeAt r i = some ch ∧
        ch.length = q.sampleSet.length ∧ lo ≤ ch.count true ∧ ch.count true ≤ hi := by
  have hq := getSamplingSetLoop_eq p hc ha hcl hal n hcn.ge han.ge
  obtain ⟨k, rfl⟩ : ∃ k, n = k + 1 := ⟨n - 1, by omega⟩
  obtain ⟨lo, hlo, ⟨ilo, hilo, hiloe⟩, hloall⟩ := mincUpTo_spec p k
  obtain ⟨hi, hhi, ⟨ihi, hihi, hihie⟩, hhiall⟩ := maxcUpTo_spec p k
  have hcount : ∀ i, i < k + 1 → (p.sampleSet ++ slotsUpTo p (k + 1)).count i = itemCount p i := by
    intro i hi'
    rw [hempty, List.nil_append, count_slotsUpTo, if_pos hi']
  have hhiM : hi ≤ (p.sampleSet ++ slotsUpTo p (k + 1)).length := by
    rw [← hihie, ← hcount ihi hihi]
    exact List.count_le_length _ _
  obtain ⟨r, hr, hlen, _, hdone⟩ := initChromosomesLoop_spec
    { p with minc := mincUpTo p (k + 1), maxc := maxcUpTo p (k + 1),
             sampleSet := p.sampleSet ++ slotsUpTo p (k + 1) }
    draw perm lo hi hlo hhi ((hloall ihi hihi).trans hihie.le) hhiM
    (hperm _ hq) p.numOfChromosomes le_rfl
  have hf := initChromosomesLoop_frame _ draw perm _ r hr
  refine ⟨_, r, lo, hi, hq, hr, ?_, ⟨ilo, hilo, ?_⟩, ?_, ⟨ihi, hihi, ?_⟩, ?_, hhiM, ?_⟩
  · rw [hf]; simp [allocChromosomes]
  · exact (hcount ilo hilo).trans hiloe
  · intro i hi'; rw [hcount i hi']; exact hloall i hi'
  · exact (hcount ihi hihi).trans hihie
  · intro i hi'; rw [hcount i hi']; exact hhiall i hi'
  · intro i hi'
    obtain ⟨ch, hch, hl, h1, h2⟩ := hdone i hi'
    refine ⟨ch, ?_, hl, h1, h2⟩
    have e : r.chromosomes[i]? = some (some (p.heap.length + i)) := by
      rw [hf]
      simp [allocChromosomes, List.getElem?_map, List.getElem?_range hi']
    simp only [chromosomeAt, e, Option.some_bind, deref]
    exact hch

/-- C6 on `smallCatalog` with limits 3 (counts 1 and 3, `M = 4`) and two chromosomes. -/
theorem initChromosomes_spec_witness :
    ∃ q r lo hi, getSamplingSet 2 smallBefore = some q ∧
      initChromosomes q (fun i => i) (fun _ => [0, 3, 1, 2]) = some r ∧
      r.chromosomes.length = smallBefore.numOfChromosomes ∧
      (∃ i, i < 2 ∧ q.sampleSet.count i = lo) ∧ (∀ i, i < 2 → lo ≤ q.sampleSet.count i) ∧
      (∃ i, i < 2 ∧ q.sampleSet.count i = hi) ∧ (∀ i, i < 2 → q.sampleSet.count i ≤ hi) ∧
      hi ≤ q.sampleSet.length ∧
      ∀ i, i < smallBefore.numOfChromosomes → ∃ ch, chromosomeAt r i = some ch ∧
        ch.length = q.sampleSet.length ∧ lo ≤ ch.count true ∧ ch.count true ≤ hi :=
  initChromosomes_spec smallBefore 2 (fun i => i) (fun _ => [0, 3, 1, 2]) (by decide) rfl rfl
    (by decide) (by decide) (by decide) (by decide) rfl
    (by
      have hq : (getSamplingSet 2 smallBefore).map (fun q => q.sampleSet.length) = some 4 := by
        decide!
      intro q h i _
      rw [h] at hq
      simp only [Option.map_some', Option.some.injEq] at hq
      rw [hq]
      show List.Perm [0, 3, 1, 2] (List.range 4)
      decide)

/-! ## Stagnation counter along a run -/

theorem generation_counter_step (maxRep : Int) (p : TreePlanter) (d : Draws)
    (r : TreePlanter × Branch) (h : generation maxRep p d = some r)
    (h0 : 0 ≤ p.repCount) (h1 : p.repCount < maxRep) :
    0 ≤ r.1.repCount ∧ r.1.repCount < maxRep ∧ r.1.repCount ≤ p.repCount + 1 ∧
      (r.2 = Branch.restart → r.1.repCount = 0) := by
  obtain ⟨pe, c, he, _, hbr⟩ := generation_counter maxRep p d r h
  have hc := (evalPhase_counter p pe c he).1
  have hpe : p.repCount ≤ pe.repCount ∧ pe.repCount ≤ p.repCount + 1 := by
    rw [hc]; split <;> constructor <;> omega
  rcases hbr with ⟨_, hz, _⟩ | ⟨hlt, he', hb⟩
  · exact ⟨by omega, by omega, by omega, fun _ => hz⟩
  · refine ⟨by omega, by omega, by omega, ?_⟩
    intro hr
    rw [hb] at hr
    exact absurd hr (by decide)

theorem run_counter_inv (maxRep : Int) (ds : List Draws) :
    ∀ (p : TreePlanter) (tr : List (TreePlanter × Branch)),
      0 ≤ p.repCount → p.repCount < maxRep → runGenerations maxRep p ds = some tr →
      ∀ n, n < tr.length → ∃ e, tr[n]? = some e ∧
        0 ≤ e.1.repCount ∧ e.1.repCount < maxRep ∧
        e.1.repCount ≤ (stateBefore p tr n).repCount + 1 ∧
        (e.2 = Branch.restart → e.1.repCount = 0) := by
  induction ds with
  | nil =>
    intro p tr _ _ hrun n hn
    simp only [runGenerations, Option.some.injEq] at hrun
    subst hrun
    simp at hn
  | cons d ds ih =>
    intro p tr h0 h1 hrun n hn
    simp only [runGenerations, Option.bind_eq_bind, Option.bind_eq_some] at hrun
    obtain ⟨r, hr, rest, hrest, htr⟩ := hrun
    simp only [Option.some.injEq] at htr
    subst htr
    have hstep := generation_counter_step maxRep p d r hr h0 h1
    cases n with
    | zero => exact ⟨r, by simp, hstep⟩
    | succ n =>
      obtain ⟨e, he, hb⟩ := ih r.1 rest hstep.1 hstep.2.1 hrest n (by simpa using hn)
      refine ⟨e, by simpa using he, hb.1, hb.2.1, ?_, hb.2.2.2⟩
      have hsb : stateBefore p (r :: rest) (n + 1) = stateBefore r.1 rest n := by
        cases n with
        | zero => simp [stateBefore]
        | succ m =>
          have hm : m < rest.length := by
            have : m + 1 + 1 < rest.length + 1 := by simpa using hn
            omega
          simp [stateBefore, List.getElem?_eq_getElem hm]
      rw [hsb]
      exact hb.2.2.1

/-- C20: for `maxRep >= 1`, in a run of `runSearch` started with `repCount = 0`, at the
end of every generation `0 <= repCount < maxRep`; the counter grows by at most 1 over a
generation and is `0` at the end of a generation that took the restart branch. -/
theorem repCount_bounds (maxRep : Int) (hm : 1 ≤ maxRep) (p : TreePlanter)
    (ds : List Draws) (tr : List (TreePlanter × Branch))
    (h0 : p.repCount = 0) (hrun : runGenerations maxRep p ds = some tr) :
    ∀ n, n < tr.length → ∃ e, tr[n]? = some e ∧
      0 ≤ e.1.repCount ∧ e.1.repCount < maxRep ∧
      e.1.repCount ≤ (stateBefore p tr n).repCount + 1 ∧
      (e.2 = Branch.restart → e.1.repCount = 0) :=
  run_counter_inv maxRep ds p tr (by omega) (by omega) hrun

/-- C20 on a run of two generations of `infeasibleStart` with `maxRep = 2`: the counter
is `1` after the first generation and `0`, by a restart, after the second. -/
theorem repCount_bounds_witness :
    (runGenerations 2 infeasibleStart [plainDraws, plainDraws]).map
      (fun tr => tr.map (fun e => (e.1.repCount, e.2))) =
      some [(1, Branch.crossover), (0, Branch.restart)] ∧
    ∀ tr, runGenerations 2 infeasibleStart [plainDraws, plainDraws] = some tr →
      ∀ n, n < tr.length → ∃ e, tr[n]? = some e ∧
        0 ≤ e.1.repCount ∧ e.1.repCount < 2 ∧
        e.1.repCount ≤ (stateBefore infeasibleStart tr n).repCount + 1 ∧
        (e.2 = Branch.restart → e.1.repCount = 0) :=
  ⟨by decide!, fun tr htr =>
    repCount_bounds 2 (by decide) infeasibleStart [plainDraws, plainDraws] tr rfl htr⟩

/-! ## Quality index -/

theorem getAqiRange_zone (a : Int) :
    ((getAqiRange a).2 = "Zone IV" ↔ a ≤ 100) ∧
    ((getAqiRange a).2 = "Zone III" ↔ 101 ≤ a ∧ a ≤ 200) ∧
    ((getAqiRange a).2 = "Zone II" ↔ 201 ≤ a ∧ a ≤ 300) ∧
    ((getAqiRange a).2 = "Zone I" ↔ 300 < a) := by
  unfold getAqiRange
  split_ifs <;> simp <;> omega

theorem getAqiRange_label (a : Int) :
    (getAqiRange a).1 =
      ["Good", "Moderate", "Unhealthy for sensitive groups", "Unhealthy", "Very Unhealthy",
        "Hazardous"].getD (aqiBand a) "" := by
  unfold getAqiRange aqiBand
  split_ifs <;> first | rfl | omega

theorem aqiBand_lt (a : Int) : aqiBand a < 6 := by
  unfold aqiBand
  split_ifs <;> omega

/-- C17: for every integer AQI, `getAqiRange` returns zone `Zone IV` for `AQI <= 100`,
`Zone III` for `101 .. 200`, `Zone II` for `201 .. 300` and `Zone I` above `300`, and two
indices get the same severity label exactly when they lie in the same of the six bands
`<= 50`, `51 .. 100`, `101 .. 150`, `151 .. 200`, `201 .. 300`, `> 300`. -/
theorem getAqiRange_spec (a b : Int) :
    ((getAqiRange a).2 = "Zone IV" ↔ a ≤ 100) ∧
    ((getAqiRange a).2 = "Zone III" ↔ 101 ≤ a ∧ a ≤ 200) ∧
    ((getAqiRange a).2 = "Zone II" ↔ 201 ≤ a ∧ a ≤ 300) ∧
    ((getAqiRange a).2 = "Zone I" ↔ 300 < a) ∧
    ((getAqiRange a).1 = (getAqiRange b).1 ↔ aqiBand a = aqiBand b) ∧
    (aqiBand a = 0 ↔ a ≤ 50) ∧ (aqiBand a = 1 ↔ 51 ≤ a ∧ a ≤ 100) ∧
    (aqiBand a = 2 ↔ 101 ≤ a ∧ a ≤ 150) ∧ (aqiBand a = 3 ↔ 151 ≤ a ∧ a ≤ 200) ∧
    (aqiBand a = 4 ↔ 201 ≤ a ∧ a ≤ 300) ∧ (aqiBand a = 5 ↔ 300 < a) := by
  obtain ⟨h1, h2, h3, h4⟩ := getAqiRange_zone a
  refine ⟨h1, h2, h3, h4, ?_, ?_, ?_, ?_, ?_, ?_, ?_⟩
  · rw [getAqiRange_label a, getAqiRange_label b]
    have ha := aqiBand_lt a
    have hb := aqiBand_lt b
    generalize aqiBand a = x at ha ⊢
    generalize aqiBand b = y at hb ⊢
    interval_cases x <;> interval_cases y <;> decide
  all_goals
    unfold aqiBand
    split_ifs <;> simp <;> omega

/-! ## Catalog, sampling bounds and scores -/

theorem getSamplingSetBody_some (q r : TreePlanter) (i : Nat)
    (h : getSamplingSetBody q i = some r) :
    (∃ c a, q.cost[i]? = some c ∧ c ≠ 0 ∧ q.area[i]? = some a ∧ a ≠ 0) ∧
    r = { q with minc := r.minc, maxc := r.maxc
                 sampleSet := q.sampleSet ++ List.replicate (rawCount q i) i } := by
  simp only [getSamplingSetBody, Option.bind_eq_bind, Option.bind_eq_some] at h
  obtain ⟨c, hc, qc, hqc, a, ha, qa, hqa, n, hn, h⟩ := h
  have hc0 : c ≠ 0 := by
    intro e; simp [goDiv, e] at hqc
  have ha0 : a ≠ 0 := by
    intro e; simp [goDiv, e] at hqa
  simp only [goDiv, hc0, ha0, if_false, Option.some.injEq] at hqc hqa
  rw [f64_min_ofInt, F64.toInt_ofInt, Option.some.injEq] at hn
  refine ⟨⟨c, a, hc, hc0, ha, ha0⟩, ?_⟩
  split at h
  · exact absurd h (by simp)
  · simp only [Option.some.injEq] at h
    subst h
    have : rawCount q i = n.toNat := by
      simp only [rawCount, List.getD_eq_getElem?_getD, hc, ha, Option.getD_some, hqc, hqa, hn]
    simp only [this]

theorem getSamplingSetLoop_some (p : TreePlanter) (k : Nat) (q : TreePlanter)
    (h : getSamplingSetLoop p k = some q) :
    (∀ j, j < k → ∃ c a, p.cost[j]? = some c ∧ c ≠ 0 ∧ p.area[j]? = some a ∧ a ≠ 0) ∧
    q = { p with minc := q.minc, maxc := q.maxc
                 sampleSet := p.sampleSet ++
                   (List.range k).flatMap (fun j => List.replicate (rawCount p j) j) } := by
  induction k generalizing q with
  | zero =>
    simp only [getSamplingSetLoop, Option.some.injEq] at h
    subst h
    exact ⟨by intro j hj; omega, by simp⟩
  | succ k ih =>
    simp only [getSamplingSetLoop, Option.bind_eq_bind, Option.bind_eq_some] at h
    obtain ⟨q1, hq1, h⟩ := h
    obtain ⟨hpre, hq1e⟩ := ih q1 hq1
    obtain ⟨hdiv, hqe⟩ := getSamplingSetBody_some q1 q k h
    have hcost : q1.cost = p.cost := by rw [hq1e]
    have harea : q1.area = p.area := by rw [hq1e]
    have hraw : rawCount q1 k = rawCount p k := by
      have h1 : q1.costLimit = p.costLimit := by rw [hq1e]
      have h2 : q1.areaLimit = p.areaLimit := by rw [hq1e]
      simp only [rawCount, hcost, harea, h1, h2]
    constructor
    · intro j hj
      rcases Nat.lt_succ_iff_lt_or_eq.mp hj with hj' | hj'
      · exact hpre j hj'
      · subst hj'
        rw [← hcost, ← harea]
        exact hdiv
    · rw [hqe, hraw]
      rw [hq1e]
      simp [List.range_succ, List.flatMap_append]

theorem getSamplingSetBody_succeeds (q : TreePlanter) (i : Nat) (c a : Int)
    (hc : q.cost[i]? = some c) (ha : q.area[i]? = some a) (hc0 : 0 < c) (ha0 : 0 < a)
    (hcl : 0 ≤ q.costLimit) (hal : 0 ≤ q.areaLimit) :
    ∃ r, getSamplingSetBody q i = some r := by
  have q1 : 0 ≤ q.costLimit / c := Int.ediv_nonneg hcl hc0.le
  have q2 : 0 ≤ q.areaLimit / a := Int.ediv_nonneg hal ha0.le
  have hm : 0 ≤ min (q.costLimit / c) (q.areaLimit / a) := le_min q1 q2
  simp only [getSamplingSetBody, hc, ha, goDiv, hc0.ne', ha0.ne', if_false,
    Option.bind_eq_bind, Option.some_bind, Int.tdiv_eq_ediv hcl hc0.le,
    Int.tdiv_eq_ediv hal ha0.le, f64_min_ofInt, F64.toInt_ofInt, not_lt.mpr hm]
  exact ⟨_, rfl⟩

theorem getSamplingSetLoop_succeeds (p : TreePlanter) (k : Nat)
    (hpos : ∀ j, j < k → ∃ c a, p.cost[j]? = some c ∧ 0 < c ∧ p.area[j]? = some a ∧ 0 < a)
    (hcl : 0 ≤ p.costLimit) (hal : 0 ≤ p.areaLimit) :
    ∃ q, getSamplingSetLoop p k = some q := by
  induction k with
  | zero => exact ⟨_, rfl⟩
  | succ k ih =>
    obtain ⟨q, hq⟩ := ih (fun j hj => hpos j (by omega))
    obtain ⟨_, hqe⟩ := getSamplingSetLoop_some p k q hq
    obtain ⟨c, a, hc, hc0, ha, ha0⟩ := hpos k (by omega)
    have e1 : q.cost = p.cost := by rw [hqe]
    have e2 : q.area = p.area := by rw [hqe]
    have e3 : q.costLimit = p.costLimit := by rw [hqe]
    have e4 : q.areaLimit = p.areaLimit := by rw [hqe]
    obtain ⟨r, hr⟩ := getSamplingSetBody_succeeds q k c a (by rw [e1]; exact hc)
      (by rw [e2]; exact ha) hc0 ha0 (by rw [e3]; exact hcl) (by rw [e4]; exact hal)
    exact ⟨r, by simp [getSamplingSetLoop, hq, hr]⟩

theorem getSamplingSetBody_zero (q : TreePlanter) (i : Nat)
    (h : q.cost[i]? = some 0 ∨ q.area[i]? = some 0) : getSamplingSetBody q i = none := by
  cases hr : getSamplingSetBody q i with
  | none => rfl
  | some r =>
    obtain ⟨⟨c, a, hc, hc0, ha, ha0⟩, _⟩ := getSamplingSetBody_some q r i hr
    rcases h with h | h
    · rw [hc] at h; exact absurd (Option.some.inj h) hc0
    · rw [ha] at h; exact absurd (Option.some.inj h) ha0

theorem getSamplingSetLoop_none_of_le (p : TreePlanter) (i k : Nat) (hik : i ≤ k)
    (h : getSamplingSetLoop p i = none) : getSamplingSetLoop p k = none := by
  induction k with
  | zero =>
    have : i = 0 := by omega
    subst this; exact h
  | succ k ih =>
    rcases Nat.lt_succ_iff_lt_or_eq.mp (Nat.lt_succ_of_le hik) with h1 | h1
    · simp [getSamplingSetLoop, ih (by omega)]
    · subst h1; exact h

theorem init_eq (TreeInfo : List info) (p : TreePlanter)
    (AQI areaLimit costLimit population : Int) (numOfChromosomes : List Nat)
    (draw : Nat → Nat) (perm : Nat → List Nat) :
    init TreeInfo p AQI areaLimit costLimit population numOfChromosomes draw perm =
      (getSamplingSet TreeInfo.length
        (beforeSampling TreeInfo p AQI areaLimit costLimit population numOfChromosomes)).bind
        (fun q => (initChromosomes q draw perm).map (fun r =>
          { r with
            bestFit := F64.ninf
            totalFit := List.replicate r.numOfChromosomes F64.ninf
            lastFit := F64.ninf })) := by
  have h : init TreeInfo p AQI areaLimit costLimit population numOfChromosomes draw perm =
      (getSamplingSet TreeInfo.length
        (beforeSampling TreeInfo p AQI areaLimit costLimit population numOfChromosomes)).bind
        (fun q => (initChromosomes q draw perm).bind (fun r => some
          { r with
            bestFit := F64.ninf
            totalFit := List.replicate r.numOfChromosomes F64.ninf
            lastFit := F64.ninf })) := rfl
  rw [h]
  cases getSamplingSet TreeInfo.length
      (beforeSampling TreeInfo p AQI areaLimit costLimit population numOfChromosomes) with
  | none => rfl
  | some q =>
    simp only [Option.some_bind]
    cases initChromosomes q draw perm <;> rfl

/-- C13: for non-negative limits and a catalog with non-negative costs and areas: if
some item has cost 0 or area 0, the iterations of `getSamplingSet` before the first such
item complete, the division of that item fails, and `getSamplingSet` and with it `init`
fail (no generation is run); if every item has cost `> 0` and area `> 0`,
`getSamplingSet` completes. -/
theorem getSamplingSet_zero_divisor (TreeInfo : List info) (p : TreePlanter)
    (AQI areaLimit costLimit population : Int) (numOfChromosomes : List Nat)
    (draw : Nat → Nat) (perm : Nat → List Nat)
    (hnn : ∀ t ∈ TreeInfo, 0 ≤ t.Cost ∧ 0 ≤ t.Area)
    (hcl : 0 ≤ costLimit) (hal : 0 ≤ areaLimit) :
    ((∃ t ∈ TreeInfo, t.Cost = 0 ∨ t.Area = 0) →
      (∃ i t q, TreeInfo[i]? = some t ∧ (t.Cost = 0 ∨ t.Area = 0) ∧
        getSamplingSetLoop
          (beforeSampling TreeInfo p AQI areaLimit costLimit population numOfChromosomes) i =
          some q ∧
        (goDiv q.costLimit t.Cost = none ∨ goDiv q.areaLimit t.Area = none) ∧
        getSamplingSetBody q i = none) ∧
      getSamplingSet TreeInfo.length
        (beforeSampling TreeInfo p AQI areaLimit costLimit population numOfChromosomes) =
        none ∧
      init TreeInfo p AQI areaLimit costLimit population numOfChromosomes draw perm = none) ∧
    ((∀ t ∈ TreeInfo, 0 < t.Cost ∧ 0 < t.Area) →
      ∃ q, getSamplingSet TreeInfo.length
        (beforeSampling TreeInfo p AQI areaLimit costLimit population numOfChromosomes) =
        some q) := by
  set P0 := beforeSampling TreeInfo p AQI areaLimit costLimit population numOfChromosomes
    with hP0
  have hcost : P0.cost = TreeInfo.map (fun t => t.Cost) := rfl
  have harea : P0.area = TreeInfo.map (fun t => t.Area) := rfl
  have hget : ∀ (j : Nat) (t : info), TreeInfo[j]? = some t →
      P0.cost[j]? = some t.Cost ∧ P0.area[j]? = some t.Area := by
    intro j t ht
    simp [hcost, harea, List.getElem?_map, ht]
  constructor
  · rintro ⟨t0, ht0, hz0⟩
    -- the first item with a zero cost or area
    have hex : ∃ i : Nat, ∃ t : info, TreeInfo[i]? = some t ∧ (t.Cost = 0 ∨ t.Area = 0) := by
      obtain ⟨i, hi, rfl⟩ := List.getElem_of_mem ht0
      exact ⟨i, _, List.getElem?_eq_getElem hi, hz0⟩
    classical
    let i := Nat.find hex
    obtain ⟨t, ht, hz⟩ := Nat.find_spec hex
    have hmin : ∀ j, j < i → ∀ tj, TreeInfo[j]? = some tj → 0 < tj.Cost ∧ 0 < tj.Area := by
      intro j hj tj htj
      have hnot := Nat.find_min hex hj
      have hn := hnn tj (List.getElem?_mem htj)
      have h1 : tj.Cost ≠ 0 := fun e => hnot ⟨tj, htj, Or.inl e⟩
      have h2 : tj.Area ≠ 0 := fun e => hnot ⟨tj, htj, Or.inr e⟩
      omega
    have hi : i < TreeInfo.length := (List.getElem?_eq_some.mp ht).1
    obtain ⟨q, hq⟩ := getSamplingSetLoop_succeeds P0 i
      (by
        intro j hj
        have hjl : j < TreeInfo.length := by omega
        have htj := List.getElem?_eq_getElem hjl
        obtain ⟨p1, p2⟩ := hmin j hj _ htj
        obtain ⟨g1, g2⟩ := hget j _ htj
        exact ⟨_, _, g1, p1, g2, p2⟩)
      hcl hal
    obtain ⟨_, hqe⟩ := getSamplingSetLoop_some P0 i q hq
    have e1 : q.cost = P0.cost := by rw [hqe]
    have e2 : q.area = P0.area := by rw [hqe]
    obtain ⟨g1, g2⟩ := hget i t ht
    have hbody : getSamplingSetBody q i = none := by
      apply getSamplingSetBody_zero
      rcases hz with hz | hz
      · left; rw [e1, g1, hz]
      · right; rw [e2, g2, hz]
    have hnone : getSamplingSet TreeInfo.length P0 = none := by
      apply getSamplingSetLoop_none_of_le P0 (i + 1) _ (by omega)
      simp [getSamplingSetLoop, hq, hbody]
    refine ⟨⟨i, t, q, ht, hz, hq, ?_, hbody⟩, hnone, ?_⟩
    · rcases hz with hz | hz
      · left; simp [goDiv, hz]
      · right; simp [goDiv, hz]
    · rw [init_eq, ← hP0, hnone]; rfl
  · intro hpos
    apply getSamplingSetLoop_succeeds P0 TreeInfo.length _ hcl hal
    intro j hj
    have htj := List.getElem?_eq_getElem hj
    obtain ⟨p1, p2⟩ := hpos _ (List.getElem_mem hj)
    obtain ⟨g1, g2⟩ := hget j _ htj
    exact ⟨_, _, g1, p1, g2, p2⟩

theorem count_flatMap_replicate (f : Nat → Nat) (i k : Nat) :
    ((List.range k).flatMap (fun j => List.replicate (f j) j)).count i =
      if i < k then f i else 0 := by
  induction k with
  | zero => simp
  | succ k ih =>
    rw [List.range_succ, List.flatMap_append, List.count_append, ih, List.flatMap_singleton,
      List.count_replicate]
    by_cases h1 : i < k
    · have : ¬ k = i := by omega
      simp [h1, this, Nat.lt_succ_of_lt h1]
    · by_cases h2 : k = i
      · subst h2; simp
      · have : ¬ i < k + 1 := by omega
        simp [h1, h2, this]

theorem trueSlots_itemChromosome_sum (vals : List Int) (ss : List Nat) (i k : Nat)
    (hk : k ≤ ss.length) :
    ((trueSlots (itemChromosome ss i) k).map (fun j => vals.getD (ss.getD j 0) 0)).sum =
      ((ss.take k).count i : Int) * vals.getD i 0 := by
  induction k with
  | zero => simp [trueSlots]
  | succ k ih =>
    have hk' : k < ss.length := hk
    have hget : (itemChromosome ss i).getD k false = decide (ss[k] = i) := by
      simp [itemChromosome, List.getD_eq_getElem?_getD, List.getElem?_map,
        List.getElem?_eq_getElem hk']
    have htake : ss.take (k + 1) = ss.take k ++ [ss[k]] := by
      rw [List.take_succ, List.getElem?_eq_getElem hk']; rfl
    rw [trueSlots_succ, hget, htake, List.count_append, List.map_append, List.sum_append,
      ih (by omega)]
    by_cases e : ss[k] = i
    · have hd : ss.getD k 0 = i := by
        simp [List.getD_eq_getElem?_getD, List.getElem?_eq_getElem hk', e]
      have hc : List.count i [i] = 1 := by simp
      simp only [e, decide_True, if_true, List.map_cons, List.map_nil, List.sum_cons,
        List.sum_nil, hd, hc]
      push_cast
      ring
    · have hc : List.count i [ss[k]] = 0 := by
        simp [List.count_cons, e]
      simp only [e, decide_False, Bool.false_eq_true, if_false, List.map_nil, List.sum_nil, hc]
      push_cast
      ring

theorem decodedTotal_itemChromosome (vals : List Int) (ss : List Nat) (i : Nat) :
    decodedTotal vals ss (itemChromosome ss i) = (ss.count i : Int) * vals.getD i 0 := by
  have h := trueSlots_itemChromosome_sum vals ss i ss.length le_rfl
  have hl : (itemChromosome ss i).length = ss.length := by simp [itemChromosome]
  rw [decodedTotal, hl, h, List.take_length]

/-- C13 on `zeroCostCatalog`: `getSamplingSet` and `init` fail. -/
theorem getSamplingSet_zero_divisor_witness :
    getSamplingSet zeroCostCatalog.length
      (beforeSampling zeroCostCatalog zeroPlanter 0 3 3 1 [4]) = none ∧
    init zeroCostCatalog zeroPlanter 0 3 3 1 [4] (fun _ => 0) (fun _ => [0, 1, 2, 3]) = none :=
  ((getSamplingSet_zero_divisor zeroCostCatalog zeroPlanter 0 3 3 1 [4] (fun _ => 0)
      (fun _ => [0, 1, 2, 3]) (by decide) (by decide) (by decide)).1
    ⟨mkInfo "Z" 1 0 0 1, by simp [zeroCostCatalog], Or.inl rfl⟩).2

theorem zoneScore_getAqiRange (AQI : Int) (t : info) :
    zoneScore (getAqiRange AQI).2 t = zoneField AQI t := by
  unfold getAqiRange zoneField
  split_ifs <;> first | rfl | omega

/-- C16: after `init` with quality index `AQI`, `area[i]` and `cost[i]` are the item's
`Area` and `Cost`, and `score[i] = (20 * z_i + 5 * Utility_i) * Area_i` with `z_i` the
zone score of the zone `getAqiRange(AQI)` returns. -/
theorem init_score_area_cost (TreeInfo : List info) (p : TreePlanter)
    (AQI areaLimit costLimit population : Int) (numOfChromosomes : List Nat)
    (draw : Nat → Nat) (perm : Nat → List Nat) (r : TreePlanter)
    (h : init TreeInfo p AQI areaLimit costLimit population numOfChromosomes draw perm =
      some r) :
    r.zone = (getAqiRange AQI).2 ∧
    r.area.length = TreeInfo.length ∧ r.cost.length = TreeInfo.length ∧
    r.score.length = TreeInfo.length ∧
    ∀ (i : Nat) (t : info), TreeInfo[i]? = some t →
      r.area[i]? = some t.Area ∧ r.cost[i]? = some t.Cost ∧
      r.score[i]? = some (F64.mul
        (F64.add (F64.mul (F64.fin 20) (zoneField AQI t)) (F64.mul (F64.fin 5) t.Utility))
        (F64.ofInt t.Area)) := by
  rw [init_eq] at h
  simp only [Option.bind_eq_some, Option.map_eq_some'] at h
  obtain ⟨q, hq, r0, hr0, hr⟩ := h
  obtain ⟨_, hqe⟩ := getSamplingSetLoop_some _ _ q hq
  have hf := initChromosomesLoop_frame q draw perm _ r0 hr0
  have harea : r.area = TreeInfo.map (fun t => t.Area) := by
    rw [← hr]; show r0.area = _; rw [hf]; show q.area = _; rw [hqe]; rfl
  have hcost : r.cost = TreeInfo.map (fun t => t.Cost) := by
    rw [← hr]; show r0.cost = _; rw [hf]; show q.cost = _; rw [hqe]; rfl
  have hzone : r.zone = (getAqiRange AQI).2 := by
    rw [← hr]; show r0.zone = _; rw [hf]; show q.zone = _; rw [hqe]; rfl
  have hscore : r.score = TreeInfo.map (fun t =>
      F64.mul (F64.add (F64.mul (F64.fin 20) (zoneScore (getAqiRange AQI).2 t))
        (F64.mul (F64.fin 5) t.Utility)) (F64.ofInt t.Area)) := by
    rw [← hr]; show r0.score = _; rw [hf]; show q.score = _; rw [hqe]; rfl
  refine ⟨hzone, by simp [harea], by simp [hcost], by simp [hscore], ?_⟩
  intro i t ht
  refine ⟨by simp [harea, List.getElem?_map, ht], by simp [hcost, List.getElem?_map, ht], ?_⟩
  simp [hscore, List.getElem?_map, ht, zoneScore_getAqiRange]

/-- C16 on the scenario: zone score 8, utility 2 and area 5 give the score 850. -/
theorem init_score_area_cost_witness :
    init scenarioCatalog zeroPlanter 0 20 20 1 [1] (fun _ => 0) (fun _ => [0, 1, 2, 3]) =
      some (scenarioPlanter [[true, true, false, false]]) ∧
    (scenarioPlanter [[true, true, false, false]]).score[0]? = some (F64.fin 850) := by
  have hinit : init scenarioCatalog zeroPlanter 0 20 20 1 [1] (fun _ => 0)
      (fun _ => [0, 1, 2, 3]) = some (scenarioPlanter [[true, true, false, false]]) := by
    decide!
  have h := (init_score_area_cost scenarioCatalog zeroPlanter 0 20 20 1 [1] (fun _ => 0)
    (fun _ => [0, 1, 2, 3]) _ hinit).2.2.2.2 0 (mkInfo "A" 8 2 10 5) rfl
  exact ⟨hinit, h.2.2.trans (by decide!)⟩

/-! ## Best fitness along a run -/

theorem f64_not_lt_trans {a b c : F64} (hb : b ≠ F64.nan) (h1 : F64.lt a b = false)
    (h2 : F64.lt b c = false) : F64.lt a c = false := by
  cases a <;> cases b <;> cases c <;> simp_all [F64.lt]
  exact h2.trans h1

theorem f64_le_of_lt {a b : F64} (h : F64.lt a b = true) : F64.le a b = true := by
  cases a <;> cases b <;> simp_all [F64.lt, F64.le]
  exact h.le

theorem f64_le_refl {a : F64} (h : a ≠ F64.nan) : F64.le a a = true := by
  cases a <;> simp_all [F64.le]

theorem f64_ne_nan_of_lt {a b : F64} (h : F64.lt a b = true) : b ≠ F64.nan := by
  cases a <;> cases b <;> simp_all [F64.lt]

theorem costAreaLoop_totalFit (p : TreePlanter) (tf : List F64) (ch : List Bool) (k : Nat) :
    costAreaLoop { p with totalFit := tf } ch k = costAreaLoop p ch k := by
  induction k with
  | zero => rfl
  | succ k ih => simp only [costAreaLoop, ih]

theorem scoreLoop_totalFit (p : TreePlanter) (tf : List F64) (ch : List Bool) (k : Nat) :
    scoreLoop { p with totalFit := tf } ch k = scoreLoop p ch k := by
  induction k with
  | zero => rfl
  | succ k ih => simp only [scoreLoop, ih]

theorem getFitness_totalFit (p : TreePlanter) (tf : List F64) (i : Nat) :
    getFitness { p with totalFit := tf } i = getFitness p i := by
  simp only [getFitness, fitnessOf, costAreaLoop_totalFit, scoreLoop_totalFit]

theorem evalLoop_totalFit (p : TreePlanter) (k : Nat) (q : TreePlanter)
    (h : evalLoop p k = some q) (hk : k ≤ p.totalFit.length) :
    q.totalFit = (List.range k).filterMap (fun i => getFitness p i) ++ p.totalFit.drop k ∧
    ((List.range k).filterMap (fun i => getFitness p i)).length = k := by
  induction k generalizing q with
  | zero =>
    simp only [evalLoop, Option.some.injEq] at h
    subst h; simp
  | succ k ih =>
    simp only [evalLoop, Option.bind_eq_bind, Option.bind_eq_some] at h
    obtain ⟨q1, hq1, v, hv, h⟩ := h
    obtain ⟨htf, hl⟩ := ih q1 hq1 (by omega)
    have hf := evalLoop_frame p k q1 hq1
    have hv' : getFitness p k = some v := by
      rw [hf, getFitness_totalFit] at hv; exact hv
    have hfm : (List.range (k + 1)).filterMap (fun i => getFitness p i) =
        (List.range k).filterMap (fun i => getFitness p i) ++ [v] := by
      rw [List.range_succ, List.filterMap_append]
      simp [List.filterMap_cons, hv']
    split at h
    · simp only [Option.some.injEq] at h
      subst h
      refine ⟨?_, by rw [hfm]; simp [hl]⟩
      show q1.totalFit.set k v = _
      rw [htf, hfm, List.set_append_right _ _ (by omega), hl, Nat.sub_self]
      have hd : List.drop k p.totalFit = p.totalFit[k] :: List.drop (k + 1) p.totalFit :=
        List.drop_eq_getElem_cons (by omega)
      rw [hd, List.set_cons_zero, List.append_assoc]
      rfl
    · exact absurd h (by simp)

theorem bestLoop_some (fit : List F64) (chs : List Slice) (k : Nat) (hk : k ≤ fit.length)
    (v : F64) (sl : Slice) (h : bestLoop fit chs k = some (v, sl)) :
    (∀ j, j < k → ∀ x, fit[j]? = some x → F64.lt v x = false) ∧
    (v = F64.ninf ∨ (v ∈ fit ∧ F64.lt F64.ninf v = true)) := by
  induction k generalizing v sl with
  | zero =>
    simp only [bestLoop, Option.some.injEq, Prod.mk.injEq] at h
    obtain ⟨rfl, _⟩ := h
    exact ⟨by intro j hj; omega, Or.inl rfl⟩
  | succ k ih =>
    simp only [bestLoop, Option.bind_eq_bind, Option.bind_eq_some] at h
    obtain ⟨⟨v0, sl0⟩, h0, x, hx, h⟩ := h
    obtain ⟨hmax, hatt⟩ := ih (by omega) v0 sl0 h0
    have hgtdef : F64.gt x v0 = F64.lt v0 x := rfl
    by_cases hgt : F64.lt v0 x = true
    · simp only [hgtdef, hgt, if_true, Option.bind_eq_some] at h
      obtain ⟨c0, _, h⟩ := h
      simp only [Option.some.injEq, Prod.mk.injEq] at h
      obtain ⟨rfl, _⟩ := h
      refine ⟨?_, Or.inr ⟨List.getElem?_mem hx, ?_⟩⟩
      · intro j hj y hy
        rcases Nat.lt_succ_iff_lt_or_eq.mp hj with hj' | hj'
        · by_contra hc
          have hc' : F64.lt x y = true := by simpa using hc
          have := f64_lt_trans hgt hc'
          rw [hmax j hj' y hy] at this
          exact Bool.false_ne_true this
        · subst hj'
          rw [hx] at hy
          cases hy
          exact f64_lt_irrefl _
      · rcases hatt with hv | ⟨_, hpos⟩
        · rw [← hv]; exact hgt
        · exact f64_lt_trans hpos hgt
    · have hgt' : F64.lt v0 x = false := by simpa using hgt
      simp only [hgtdef, hgt', Bool.false_eq_true, if_false, Option.some.injEq,
        Prod.mk.injEq] at h
      obtain ⟨rfl, _⟩ := h
      refine ⟨?_, hatt⟩
      intro j hj y hy
      rcases Nat.lt_succ_iff_lt_or_eq.mp hj with hj' | hj'
      · exact hmax j hj' y hy
      · subst hj'
        rw [hx] at hy
        cases hy
        exact hgt'

theorem mapM_length {α β : Type} (f : α → Option β) (l : List α) (ys : List β)
    (h : l.mapM f = some ys) : ys.length = l.length := by
  induction l generalizing ys with
  | nil =>
    simp only [List.mapM_nil, Option.pure_def, Option.some.injEq] at h
    subst h; rfl
  | cons a l ih =>
    rw [List.mapM_cons] at h
    simp only [Option.pure_def, Option.bind_eq_bind, Option.bind_eq_some] at h
    obtain ⟨b, _, bs, hbs, hy⟩ := h
    simp only [Option.some.injEq] at hy
    subst hy
    simp [ih bs hbs]

theorem evalPhase_fields (p pe : TreePlanter) (c : F64) (h : evalPhase p = some (pe, c)) :
    ∃ q sl, evalLoop p p.numOfChromosomes = some q ∧
      selectBest q.totalFit q.chromosomes = some (c, sl) ∧
      pe.totalFit = q.totalFit ∧ pe.numOfChromosomes = p.numOfChromosomes ∧
      pe.bestFit = (if F64.gt c p.bestFit = true then c else p.bestFit) ∧
      pe.bestChromosome = (if F64.gt c p.bestFit = true then sl else p.bestChromosome) := by
  simp only [evalPhase, Option.bind_eq_bind, Option.bind_eq_some] at h
  obtain ⟨q, hq, best, hbest, h⟩ := h
  have hf := evalLoop_frame p _ q hq
  have hqb : q.bestFit = p.bestFit := by rw [hf]
  have hqc : q.bestChromosome = p.bestChromosome := by rw [hf]
  have hqn : q.numOfChromosomes = p.numOfChromosomes := by rw [hf]
  simp only [Option.some.injEq, Prod.mk.injEq] at h
  obtain ⟨hp, hc⟩ := h
  subst hc
  refine ⟨q, best.2, hq, hbest, ?_, ?_, ?_, ?_⟩
  all_goals
    rw [← hp]
    simp only [← hqb, ← hqc, ← hqn]
    by_cases hb : F64.gt best.1 q.bestFit = true <;>
      by_cases hs : stagnant best.1 q.lastFit = true <;>
        simp [hb, hs]

theorem evalPhase_best (p pe : TreePlanter) (c : F64) (seen : List F64)
    (h : evalPhase p = some (pe, c)) (hinv : BestInv p seen) :
    BestInv pe (seen ++ fitsOf p) ∧ pe.numOfChromosomes = p.numOfChromosomes ∧
    F64.le p.bestFit pe.bestFit = true ∧
    (pe.bestChromosome ≠ p.bestChromosome →
      F64.gt c p.bestFit = true ∧ pe.bestFit = c) := by
  obtain ⟨hlen, hnan, hmax, hatt⟩ := hinv
  obtain ⟨q, sl, hq, hbest, e2, e3, e1, e4⟩ := evalPhase_fields p pe c h
  obtain ⟨htf, hfl⟩ := evalLoop_totalFit p _ q hq hlen.ge
  have hfits : q.totalFit = fitsOf p := by
    rw [htf, List.drop_of_length_le hlen.le, List.append_nil]; rfl
  obtain ⟨hsel, hsatt⟩ := bestLoop_some q.totalFit q.chromosomes _ le_rfl c sl hbest
  have hsel' : ∀ x ∈ fitsOf p, F64.lt c x = false := by
    intro x hx
    rw [← hfits] at hx
    obtain ⟨j, hj, rfl⟩ := List.getElem_of_mem hx
    exact hsel j hj _ (List.getElem?_eq_getElem hj)
  have hbn : c ≠ F64.nan := by
    rcases hsatt with hv | ⟨_, hpos⟩
    · rw [hv]; simp
    · exact f64_ne_nan_of_lt hpos
  have hql : pe.totalFit.length = pe.numOfChromosomes := by
    rw [e2, e3, hfits]; exact hfl
  have hgtdef : F64.gt c p.bestFit = F64.lt p.bestFit c := rfl
  by_cases hgt : F64.lt p.bestFit c = true
  · rw [hgtdef, if_pos hgt] at e1
    refine ⟨⟨hql, by rw [e1]; exact hbn, ?_, ?_⟩,
      e3, by rw [e1]; exact f64_le_of_lt hgt, fun _ => ⟨hgt, e1⟩⟩
    · intro x hx
      rw [e1]
      rcases List.mem_append.mp hx with hx | hx
      · by_contra hcon
        have hcon' : F64.lt c x = true := by simpa [F64.gt] using hcon
        have := f64_lt_trans hgt hcon'
        have h0 := hmax x hx
        rw [F64.gt, this] at h0
        exact Bool.false_ne_true h0.symm
      · exact hsel' x hx
    · rw [e1]
      rcases hsatt with hv | ⟨hmem, _⟩
      · exact Or.inl hv
      · right
        rw [hfits] at hmem
        exact List.mem_append_right _ hmem
  · have hgt' : F64.lt p.bestFit c = false := by simpa using hgt
    rw [hgtdef, if_neg hgt] at e1 e4
    refine ⟨⟨hql, by rw [e1]; exact hnan, ?_, ?_⟩,
      e3, by rw [e1]; exact f64_le_refl hnan, fun hne => absurd e4 hne⟩
    · intro x hx
      rw [e1]
      rcases List.mem_append.mp hx with hx | hx
      · exact hmax x hx
      · exact f64_not_lt_trans hbn hgt' (hsel' x hx)
    · rw [e1]
      rcases hatt with hv | hmem
      · exact Or.inl hv
      · exact Or.inr (List.mem_append_left _ hmem)

theorem generation_best (maxRep : Int) (p : TreePlanter) (d : Draws)
    (r : TreePlanter × Branch) (seen : List F64)
    (h : generation maxRep p d = some r) (hinv : BestInv p seen)
    (hσ : d.sortPerm.length = p.numOfChromosomes) :
    BestInv r.1 (seen ++ fitsOf p) ∧ r.1.numOfChromosomes = p.numOfChromosomes ∧
    F64.le p.bestFit r.1.bestFit = true ∧
    (r.1.bestChromosome ≠ p.bestChromosome →
      F64.gt r.1.lastFit p.bestFit = true ∧ r.1.bestFit = r.1.lastFit) := by
  have hgen := h
  simp only [generation, Option.bind_eq_bind, Option.bind_eq_some] at h
  obtain ⟨⟨pe, c⟩, he, h⟩ := h
  obtain ⟨⟨i1, i2, i3, i4⟩, hn, hle, hch⟩ := evalPhase_best p pe c seen he hinv
  have hl := (evalPhase_counter p pe c he).2
  split at h
  · simp only [Option.bind_eq_some] at h
    obtain ⟨q, hq, h⟩ := h
    simp only [Option.some.injEq] at h
    subst h
    have hf := initChromosomesLoop_frame _ _ _ _ q hq
    have e1 : q.bestFit = pe.bestFit := by rw [hf]; rfl
    have e2 : q.totalFit = pe.totalFit := by rw [hf]; rfl
    have e3 : q.numOfChromosomes = pe.numOfChromosomes := by rw [hf]; rfl
    have e4 : q.bestChromosome = pe.bestChromosome := by rw [hf]; rfl
    have e5 : q.lastFit = c := by rw [hf]; exact hl
    refine ⟨⟨?_, ?_, ?_, ?_⟩, ?_, ?_, ?_⟩
    · show q.totalFit.length = q.numOfChromosomes
      rw [e2, e3]; exact i1
    · show q.bestFit ≠ _
      rw [e1]; exact i2
    · show ∀ x ∈ _, F64.gt x q.bestFit = false
      rw [e1]; exact i3
    · show q.bestFit = _ ∨ q.bestFit ∈ _
      rw [e1]; exact i4
    · show q.numOfChromosomes = _
      rw [e3]; exact hn
    · show F64.le p.bestFit q.bestFit = true
      rw [e1]; exact hle
    · show q.bestChromosome ≠ _ → F64.gt q.lastFit p.bestFit = true ∧ q.bestFit = q.lastFit
      rw [e4, e5, e1]; exact hch
  · simp only [Option.bind_eq_some] at h
    obtain ⟨q, hq, h⟩ := h
    simp only [Option.some.injEq] at h
    subst h
    have hf := crossover_frame _ _ _ q hq
    have e1 : q.bestFit = pe.bestFit := by rw [hf]
    have e3 : q.numOfChromosomes = pe.numOfChromosomes := by rw [hf]
    have e4 : q.bestChromosome = pe.bestChromosome := by rw [hf]
    have e5 : q.lastFit = c := by rw [hf]; exact hl
    have e2 : q.totalFit.length = pe.totalFit.length := by
      simp only [crossover, applySort, Option.bind_eq_bind, Option.bind_eq_some] at hq
      obtain ⟨q0, ⟨cs, _, fs, hfs, hq0⟩, st, _, hq⟩ := hq
      simp only [Option.some.injEq] at hq0 hq
      subst hq0
      subst hq
      have := mapM_length _ _ _ hfs
      show (fs ++ pe.totalFit.drop d.sortPerm.length).length = _
      rw [List.length_append, this, List.length_drop]
      omega
    refine ⟨⟨?_, ?_, ?_, ?_⟩, ?_, ?_, ?_⟩
    · show q.totalFit.length = q.numOfChromosomes
      rw [e2, e3]; exact i1
    · show q.bestFit ≠ _
      rw [e1]; exact i2
    · show ∀ x ∈ _, F64.gt x q.bestFit = false
      rw [e1]; exact i3
    · show q.bestFit = _ ∨ q.bestFit ∈ _
      rw [e1]; exact i4
    · show q.numOfChromosomes = _
      rw [e3]; exact hn
    · show F64.le p.bestFit q.bestFit = true
      rw [e1]; exact hle
    · show q.bestChromosome ≠ _ → F64.gt q.lastFit p.bestFit = true ∧ q.bestFit = q.lastFit
      rw [e4, e5, e1]; exact hch

theorem runSearch_nil (maxRep : Int) (p : TreePlanter) : runSearch maxRep p [] = some p := rfl

theorem runSearch_cons (maxRep : Int) (p : TreePlanter) (d : Draws) (ds : List Draws) :
    runSearch maxRep p (d :: ds) =
      (generation maxRep p d).bind (fun r => runSearch maxRep r.1 ds) := by
  simp only [runSearch, runGenerations]
  cases generation maxRep p d with
  | none => rfl
  | some r =>
    simp only [Option.bind_eq_bind, Option.some_bind]
    cases runGenerations maxRep r.1 ds with
    | none => rfl
    | some rest =>
      cases rest with
      | nil => rfl
      | cons x xs =>
        simp only [Option.map_some', Option.some_bind, List.getLast?_cons_cons]
        rw [List.getLast?_eq_getLast (x :: xs) (List.cons_ne_nil _ _)]
        rfl

theorem allFits_snoc (maxRep : Int) (ds : List Draws) (d : Draws) :
    ∀ (p pf : TreePlanter), runSearch maxRep p ds = some pf →
      allFits maxRep p (ds ++ [d]) = allFits maxRep p ds ++ fitsOf pf := by
  induction ds with
  | nil =>
    intro p pf h
    rw [runSearch_nil, Option.some.injEq] at h
    subst h
    simp only [List.nil_append, allFits]
    cases generation maxRep p d <;> simp [allFits]
  | cons d0 ds ih =>
    intro p pf h
    rw [runSearch_cons] at h
    simp only [Option.bind_eq_some] at h
    obtain ⟨r, hr, hrest⟩ := h
    rw [List.cons_append]
    simp only [allFits, hr]
    rw [ih r.1 pf hrest, List.append_assoc]

theorem run_best_inv (maxRep : Int) (ds : List Draws) :
    ∀ (p pf : TreePlanter) (seen : List F64), BestInv p seen →
      (∀ d ∈ ds, d.sortPerm.length = p.numOfChromosomes) →
      runSearch maxRep p ds = some pf →
      BestInv pf (seen ++ allFits maxRep p ds) ∧ pf.numOfChromosomes = p.numOfChromosomes := by
  induction ds with
  | nil =>
    intro p pf seen hinv _ h
    rw [runSearch_nil, Option.some.injEq] at h
    subst h
    simpa [allFits] using hinv
  | cons d ds ih =>
    intro p pf seen hinv hσ h
    rw [runSearch_cons] at h
    simp only [Option.bind_eq_some] at h
    obtain ⟨r, hr, hrest⟩ := h
    obtain ⟨hinv1, hn, _, _⟩ := generation_best maxRep p d r seen hr hinv
      (hσ d (List.mem_cons_self _ _))
    obtain ⟨hinv2, hn2⟩ := ih r.1 pf (seen ++ fitsOf p) hinv1
      (fun d' hd' => by rw [hn]; exact hσ d' (List.mem_cons_of_mem _ hd')) hrest
    refine ⟨?_, hn2.trans hn⟩
    simpa [allFits, hr, List.append_assoc] using hinv2

/-- C18: in a run of `runSearch` started with `bestFit = -Inf` (as `init` leaves it), over
one generation `bestFit` does not decrease and `bestChromosome` is replaced only if the
generation's best fitness is strictly greater than the previous `bestFit` (which then
becomes that fitness); at the end of every generation no fitness value computed so far
exceeds `bestFit` (every one is `<=` it when none is `NaN`), and `bestFit` is `-Inf` or
one of those values. -/
theorem bestFit_running_max (maxRep : Int) (p0 pf : TreePlanter) (ds : List Draws)
    (d : Draws) (r : TreePlanter × Branch)
    (hb : p0.bestFit = F64.ninf) (hlen : p0.totalFit.length = p0.numOfChromosomes)
    (hσ : ∀ d1 ∈ ds ++ [d], d1.sortPerm.length = p0.numOfChromosomes)
    (hrun : runSearch maxRep p0 ds = some pf) (hgen : generation maxRep pf d = some r) :
    F64.le pf.bestFit r.1.bestFit = true ∧
    (r.1.bestChromosome ≠ pf.bestChromosome →
      F64.gt r.1.lastFit pf.bestFit = true ∧ r.1.bestFit = r.1.lastFit) ∧
    (∀ x ∈ allFits maxRep p0 (ds ++ [d]), F64.gt x r.1.bestFit = false) ∧
    ((∀ x ∈ allFits maxRep p0 (ds ++ [d]), x ≠ F64.nan) →
      ∀ x ∈ allFits maxRep p0 (ds ++ [d]), F64.le x r.1.bestFit = true) ∧
    (r.1.bestFit = F64.ninf ∨ r.1.bestFit ∈ allFits maxRep p0 (ds ++ [d])) := by
  have hinv0 : BestInv p0 [] := ⟨hlen, by rw [hb]; simp, by simp, Or.inl hb⟩
  obtain ⟨hinv1, hn⟩ := run_best_inv maxRep ds p0 pf [] hinv0
    (fun d1 hd1 => hσ d1 (List.mem_append_left _ hd1)) hrun
  obtain ⟨⟨_, hnan, hmax, hatt⟩, _, hle, hch⟩ := generation_best maxRep pf d r _ hgen hinv1
    (by rw [hn]; exact hσ d (List.mem_append_right _ (List.mem_singleton_self d)))
  rw [List.nil_append, ← allFits_snoc maxRep ds d p0 pf hrun] at hmax hatt
  refine ⟨hle, hch, hmax, ?_, hatt⟩
  intro hnn x hx
  exact f64_le_of_not_lt hnan (hnn x hx) (hmax x hx)

set_option maxRecDepth 100000 in
/-- C18 on two generations of `rankedStart`. -/
theorem bestFit_running_max_witness :
    ∃ pf r, runSearch 30 rankedStart [plainDraws] = some pf ∧
      generation 30 pf plainDraws = some r ∧
      F64.le pf.bestFit r.1.bestFit = true ∧
      ∀ x ∈ allFits 30 rankedStart ([plainDraws] ++ [plainDraws]),
        F64.gt x r.1.bestFit = false := by
  have h1 : (runSearch 30 rankedStart [plainDraws]).isSome = true := by decide!
  obtain ⟨pf, hpf⟩ := Option.isSome_iff_exists.mp h1
  have h2 : ((runSearch 30 rankedStart [plainDraws]).bind
      (fun pf => generation 30 pf plainDraws)).isSome = true := by decide!
  rw [hpf] at h2
  obtain ⟨r, hr⟩ := Option.isSome_iff_exists.mp h2
  have key := bestFit_running_max 30 rankedStart pf [plainDraws] plainDraws r rfl rfl
    (by decide) hpf hr
  exact ⟨pf, r, hpf, hr, key.1, key.2.2.1⟩

/-! ## Result extraction without a best chromosome -/

/-- C11, evaluated: `init` on `smallCatalog` (limits 3, four chromosomes) can leave four
copies of `[A, B, B, -]`, of total cost `4 > 3`.  Three generations later every fitness
the search has computed is `-Inf`, `bestFit` is `-Inf` and `bestChromosome` is still
the nil slice, while the sampling set has four slots.  `getResults` then fails: its
first loop reads `bestChromosome[0]`, an index out of range of a slice of length
`0`.  Only with an empty sampling set does it yield the empty map and three zeros. -/
theorem getResults_fails_without_best :
    init smallCatalog zeroPlanter 0 3 3 1 [4] (fun _ => 2) (fun _ => [0, 1, 2, 3]) =
      some infeasibleStart ∧
    (runGenerations 30 infeasibleStart (List.replicate 3 plainDraws)).map
      (fun tr => tr.map (fun r => r.1.totalFit)) =
      some (List.replicate 3 (List.replicate 4 F64.ninf)) ∧
    (runSearch 30 infeasibleStart (List.replicate 3 plainDraws)).map
      (fun r => (r.bestChromosome, r.bestFit, r.sampleSet)) =
      some (none, F64.ninf, [0, 1, 1, 1]) ∧
    (runSearch 30 infeasibleStart (List.replicate 3 plainDraws)).map
      (getResults smallCatalog smallIdx id) = some none ∧
    (runSearch 30 infeasibleStart (List.replicate 3 plainDraws)).map
      (fun r => getResults smallCatalog smallIdx id { r with sampleSet := [] }) =
      some (some ([], F64.fin 0, 0, 0)) := by
  refine ⟨by decide!, by decide!, by decide!, by decide!, by decide!⟩

/-! ## Crossover on shared backing arrays -/

/-- C19, evaluated: `sixStart` has six chromosomes in ascending order of fitness, each
in its own backing array.  One generation (pivots `2, 1, 1`) leaves slices of only
three backing arrays, every child stored at two ranks.  `sixCopied` holds the same
chromosomes rank by rank in six separate arrays, so both populations have the same
fitness vector and the same sort outcome, and the chromosomes at ranks `0, 1, 2` of the
sorted populations are `[t,t,f,t], [t,t,f,t], [f,f,t,f]` in both.  The next generation
(all pivots `1`) differs at ranks 1 and 4: `[t,f,t,f]` after the first population,
`[t,t,f,t]` after the copy, because ranks 0 and 1 of the first share one backing array
and iteration 0 of `crossover` writes into it before iteration 1 reads it. -/
theorem crossover_depends_on_sharing :
    (evalPhase sixStart).map (fun r => r.1.totalFit) =
      some [F64.ninf, F64.fin 2000, F64.fin 4000, F64.fin 6000, F64.fin 6000,
        F64.fin 6000] ∧
    IsSortOutcome [F64.ninf, F64.fin 2000, F64.fin 4000, F64.fin 6000, F64.fin 6000,
      F64.fin 6000] 6 [0, 1, 2, 3, 4, 5] ∧
    (generation 30 sixStart sixDraws).map (fun r => (r.1.chromosomes, r.2)) =
      some ([some 2, some 1, some 2, some 0, some 1, some 0], Branch.crossover) ∧
    (generation 30 sixStart sixDraws).map (fun r => populationContents r.1) =
      some (populationContents sixCopied) ∧
    (generation 30 sixStart sixDraws).bind
      (fun r => (evalPhase r.1).map (fun e => e.1.totalFit)) =
      some [F64.fin 4000, F64.fin 2000, F64.fin 4000, F64.ninf, F64.fin 2000, F64.ninf] ∧
    (evalPhase sixCopied).map (fun e => e.1.totalFit) =
      some [F64.fin 4000, F64.fin 2000, F64.fin 4000, F64.ninf, F64.fin 2000, F64.ninf] ∧
    IsSortOutcome [F64.fin 4000, F64.fin 2000, F64.fin 4000, F64.ninf, F64.fin 2000,
      F64.ninf] 6 [3, 5, 1, 4, 0, 2] ∧
    (generation 30 sixStart sixDraws).bind
      (fun r => (generation 30 r.1 rankedDraws).map
        (fun r2 => (populationContents r2.1, r2.2))) =
      some ([some [false, false, true, false], some [true, false, true, false],
        some [false, false, true, false], some [true, false, true, false],
        some [true, false, true, false], some [true, false, true, false]],
        Branch.crossover) ∧
    (generation 30 sixCopied rankedDraws).map
        (fun r2 => (populationContents r2.1, r2.2)) =
      some ([some [false, false, true, false], some [true, true, false, true],
        some [false, false, true, false], some [true, false, true, false],
        some [true, true, false, true], some [true, false, true, false]],
        Branch.crossover) := by
  refine ⟨by decide!, ⟨by decide, by decide!⟩, by decide!, by decide!, by decide!, by decide!,
    ⟨by decide, by decide!⟩, by decide!, by decide!⟩

/-! ## Infeasibility and the sign of the fitness -/

theorem foldl_add_nonneg (score : List F64) (sampleSet : List Nat) (js : List Nat)
    (hnn : ∀ j ∈ js, ∃ q : ℚ, 0 ≤ q ∧ score.getD (sampleSet.getD j 0) (F64.fin 0) = F64.fin q)
    (acc : F64) (hacc : F64.le (F64.fin 0) acc = true) :
    F64.le (F64.fin 0)
      (js.foldl (fun acc j => F64.add acc (score.getD (sampleSet.getD j 0) (F64.fin 0))) acc)
      = true := by
  induction js generalizing acc with
  | nil => exact hacc
  | cons j js ih =>
    obtain ⟨q, hq0, hq⟩ := hnn j (List.mem_cons_self _ _)
    rw [List.foldl_cons, hq]
    apply ih (fun k hk => hnn k (List.mem_cons_of_mem _ hk))
    have := f64_add_mono 0 q hacc hq0
    rwa [f64_add_zero_zero] at this

theorem getD_nonneg_of_all (score : List F64)
    (hnn : ∀ v ∈ score, ∃ q : ℚ, 0 ≤ q ∧ v = F64.fin q) (s : Nat) :
    ∃ q : ℚ, 0 ≤ q ∧ score.getD s (F64.fin 0) = F64.fin q := by
  rw [List.getD_eq_getElem?_getD]
  cases h : score[s]? with
  | none => exact ⟨0, le_rfl, rfl⟩
  | some v => exact hnn v (List.getElem?_mem h)

/-- The scaling of `getFitness` keeps a non-negative total non-negative (possibly
`+Inf`) when the target population is positive. -/
theorem scale_nonneg (total : F64) (pop : Int) (hpop : 0 < pop)
    (h : F64.le (F64.fin 0) total = true) :
    F64.le (F64.fin 0) (F64.mul (F64.div total (F64.ofInt pop)) (F64.fin 100)) = true := by
  have hp : (0 : ℚ) < (pop : ℚ) := by exact_mod_cast hpop
  have h1 := f64_div_mono (pop : ℚ) hp h
  rw [f64_div_zero_pos _ hp] at h1
  have h2 := f64_mul_mono 100 (by norm_num) h1
  rwa [f64_mul_zero_fin] at h2

/-- C1, amended: for a chromosome of length `M`, finite scores none of which is
negative, a positive target population and decoded totals of cost and area that are
values of a 64-bit `int`, `getFitness` returns (it does not fail), and it returns `-Inf`
exactly when the decoded total cost exceeds `costLimit` or the decoded total area
exceeds `areaLimit`; a chromosome of total cost `costLimit + 1` gets `-Inf` under every
score array. -/
theorem getFitness_ninf_iff (p : TreePlanter) (idx : Nat) (ch : List Bool)
    (hch : chromosomeAt p idx = some ch) (hlen : ch.length = p.sampleSet.length)
    (hv : SlotsValid p)
    (hcr : InInt64 (decodedTotal p.cost p.sampleSet ch))
    (har : InInt64 (decodedTotal p.area p.sampleSet ch))
    (hnn : ∀ v ∈ p.score, ∃ q : ℚ, 0 ≤ q ∧ v = F64.fin q)
    (hpop : 0 < p.population) :
    (∃ v, getFitness p idx = some v) ∧
    (getFitness p idx = some F64.ninf ↔
      (decodedTotal p.cost p.sampleSet ch > p.costLimit ∨
        decodedTotal p.area p.sampleSet ch > p.areaLimit)) ∧
    (decodedTotal p.cost p.sampleSet ch = p.costLimit + 1 →
      ∀ sc : List F64, getFitness { p with score := sc } idx = some F64.ninf) := by
  have hfit : getFitness p idx = fitnessOf p ch := by rw [getFitness_eq, hch]; rfl
  have heq := fitnessOf_eq p ch hv hlen.le
  rw [wrapInt_of_range _ hcr.1 hcr.2, wrapInt_of_range _ har.1 har.2] at heq
  have hsum : F64.le (F64.fin 0) (decodedScore p.score p.sampleSet ch) = true :=
    foldl_add_nonneg p.score p.sampleSet _
      (fun j _ => getD_nonneg_of_all p.score hnn _) _ (by simp [F64.le])
  have hscaled := scale_nonneg _ p.population hpop hsum
  refine ⟨?_, ?_, ?_⟩
  · rw [hfit, heq]; split <;> exact ⟨_, rfl⟩
  · rw [hfit, heq]
    constructor
    · intro h
      by_contra hn
      rw [if_neg hn, Option.some.injEq] at h
      exact f64_ne_ninf_of_nonneg hscaled h
    · intro h
      rw [if_pos h]
  · intro hc sc
    have : getFitness { p with score := sc } idx = fitnessOf { p with score := sc } ch := by
      rw [getFitness_eq]
      have : chromosomeAt { p with score := sc } idx = some ch := hch
      rw [this]; rfl
    rw [this]
    refine fitnessOf_infeasible _ ch hv.costArea hlen.le (Or.inl ?_)
    show wrapInt (decodedTotal p.cost p.sampleSet ch) > p.costLimit
    rw [wrapInt_of_range _ hcr.1 hcr.2]
    omega

/-- C1 (amended) at the state of `smallPlanter`: the chromosome `[A, B, B, -]` costs
`4`, one more than the limit `3`, and gets `-Inf`. -/
theorem getFitness_ninf_iff_witness :
    decodedTotal (smallPlanter [[true, true, true, false]]).cost
        (smallPlanter [[true, true, true, false]]).sampleSet [true, true, true, false] =
      (smallPlanter [[true, true, true, false]]).costLimit + 1 ∧
    getFitness (smallPlanter [[true, true, true, false]]) 0 = some F64.ninf :=
  ⟨by decide,
   (getFitness_ninf_iff (smallPlanter [[true, true, true, false]]) 0
      [true, true, true, false] (by decide) (by decide) (by unfold SlotsValid; decide)
      (by unfold InInt64; decide) (by unfold InInt64; decide)
      (by
        intro v hv
        have h : v = F64.fin 40 ∨ v = F64.fin 20 := by simpa [smallPlanter] using hv
        rcases h with h | h
        · exact ⟨40, by norm_num, h⟩
        · exact ⟨20, by norm_num, h⟩)
      (by decide)).2.1.2 (Or.inl (by decide))⟩

/-- C1, as stated, fails in both directions.  (a) `init` on `deepCatalog` gives item A
the finite score `-5 * 2^1021`; the chromosome `[A, -, -, -]` costs 2 and covers 1,
within the limits 3, and `getFitness` returns `-Inf`: the product by `100` overflows.
(b) `init` on `wideCatalog` with cost limit `2^63 - 1` can leave the chromosome
`[A, B, -, -]` of total cost `2^63`, above the limit; the `int` total wraps to `-2^63`
and `getFitness` returns the finite fitness `6000`. -/
theorem getFitness_ninf_overflow :
    init deepCatalog zeroPlanter 0 3 3 1 [1] (fun _ => 0) (fun _ => [0, 1, 2, 3]) =
      some (deepPlanter [[true, false, false, false]]) ∧
    F64.rnd (-(5 * 2 ^ 1021)) = F64.fin (-(5 * 2 ^ 1021)) ∧
    decodedTotal [2, 1] [0, 1, 1, 1] [true, false, false, false] = 2 ∧
    decodedTotal [1, 1] [0, 1, 1, 1] [true, false, false, false] = 1 ∧
    getFitness (deepPlanter [[true, false, false, false]]) 0 = some F64.ninf ∧
    init wideCatalog zeroPlanter 0 2 (2 ^ 63 - 1) 1 [1] (fun _ => 1)
        (fun _ => [0, 1, 2, 3]) = some (widePlanter [[true, true, false, false]]) ∧
    decodedTotal [2 ^ 62, 2 ^ 62, 1] [0, 1, 2, 2] [true, true, false, false] = 2 ^ 63 ∧
    (widePlanter [[true, true, false, false]]).costLimit = 2 ^ 63 - 1 ∧
    costAreaLoop (widePlanter [[true, true, false, false]]) [true, true, false, false] 4 =
      some (-2 ^ 63, 2) ∧
    getFitness (widePlanter [[true, true, false, false]]) 0 = some (F64.fin 6000) := by
  refine ⟨by decide!, by decide!, by decide, by decide, by decide!, by decide!, by decide,
    by decide, by decide!, by decide!⟩

/-! ## The fitness formula -/

theorem getD_intScores (n : List Int) (s : Nat) :
    (intScores n).getD s (F64.fin 0) = F64.fin ((n.getD s 0 : Int) : ℚ) := by
  unfold intScores
  rw [List.getD_eq_getElem?_getD, List.getD_eq_getElem?_getD, List.getElem?_map]
  cases n[s]? with
  | none => simp only [Option.map_none', Option.getD_none, Int.cast_zero]
  | some v => simp only [Option.map_some', Option.getD_some]

theorem abs_sum_map_le {ι : Type} (f : ι → Int) (js : List ι) :
    |(js.map f).sum| ≤ (js.map (fun j => |f j|)).sum := by
  induction js with
  | nil => simp
  | cons j js ih =>
    simp only [List.map_cons, List.sum_cons]
    exact (abs_add _ _).trans (by linarith)

/-- A floating point sum of whole numbers is exact as long as the absolute values
add up to at most `2^53`. -/
theorem foldl_add_int {ι : Type} (f : ι → Int) (g : ι → F64) (js : List ι)
    (hg : ∀ j ∈ js, g j = F64.fin ((f j : Int) : ℚ)) (a : Int)
    (h : |a| + (js.map (fun j => |f j|)).sum ≤ 2 ^ 53) :
    js.foldl (fun acc j => F64.add acc (g j)) (F64.fin (a : ℚ)) =
      F64.fin (((a + (js.map f).sum : Int)) : ℚ) := by
  induction js generalizing a with
  | nil => simp
  | cons j js ih =>
    simp only [List.map_cons, List.sum_cons] at h
    have hsum : 0 ≤ (js.map (fun j => |f j|)).sum :=
      List.sum_nonneg (by
        intro x hx
        obtain ⟨k, _, rfl⟩ := List.mem_map.mp hx
        exact abs_nonneg _)
    have hstep : F64.add (F64.fin (a : ℚ)) (g j) = F64.fin ((a + f j : Int) : ℚ) := by
      rw [hg j (List.mem_cons_self _ _)]
      show F64.rnd ((a : ℚ) + (f j : ℚ)) = _
      have e : (a : ℚ) + (f j : ℚ) = ((a + f j : Int) : ℚ) := by push_cast; ring
      rw [e]
      apply rnd_int
      have := abs_add a (f j)
      linarith
    rw [List.foldl_cons, hstep, ih (fun k hk => hg k (List.mem_cons_of_mem _ hk)) (a + f j) (by
      have := abs_add a (f j)
      linarith)]
    simp only [List.map_cons, List.sum_cons]
    congr 2
    ring

theorem map_range_getD {α β : Type} (l : List α) (d : α) (f : α → β) :
    (List.range l.length).map (fun j => f (l.getD j d)) = l.map f := by
  apply List.ext_getElem
  · simp
  · intro i h1 h2
    simp only [List.getElem_map, List.getElem_range, List.getD_eq_getElem?_getD]
    have : i < l.length := by simpa using h2
    simp [List.getElem?_eq_getElem this]

theorem trueSlots_abs_le (vals : List Int) (ss : List Nat) (ch : List Bool)
    (hlen : ch.length ≤ ss.length) :
    ((trueSlots ch ch.length).map (fun j => |vals.getD (ss.getD j 0) 0|)).sum ≤
      absTotal vals ss := by
  unfold absTotal
  rw [← map_range_getD ss 0 (fun s => |vals.getD s 0|)]
  apply List.Sublist.sum_le_sum
  · apply List.Sublist.map
    unfold trueSlots
    exact (List.filter_sublist _).trans
      (List.range_sublist.mpr hlen)
  · intro x hx
    obtain ⟨k, _, rfl⟩ := List.mem_map.mp hx
    exact abs_nonneg _

/-- With whole-number scores whose absolute values add up to at most `2^53` over the
sampling set, the score total of `getFitness` is the exact sum. -/
theorem decodedScore_intScores (n : List Int) (ss : List Nat) (ch : List Bool)
    (hlen : ch.length ≤ ss.length) (hb : absTotal n ss ≤ 2 ^ 53) :
    decodedScore (intScores n) ss ch = F64.fin ((decodedTotal n ss ch : Int) : ℚ) := by
  unfold decodedScore decodedTotal
  have h := foldl_add_int (fun j => n.getD (ss.getD j 0) 0)
    (fun j => (intScores n).getD (ss.getD j 0) (F64.fin 0)) (trueSlots ch ch.length)
    (fun j _ => getD_intScores n _) 0 (by
      have := trueSlots_abs_le n ss ch hlen
      simp only [abs_zero, zero_add]
      linarith)
  simpa using h

theorem decodedTotal_abs_le (n : List Int) (ss : List Nat) (ch : List Bool)
    (hlen : ch.length ≤ ss.length) : |decodedTotal n ss ch| ≤ absTotal n ss := by
  unfold decodedTotal
  exact (abs_sum_map_le _ _).trans (trueSlots_abs_le n ss ch hlen)

/-- The scaling of `getFitness` is exact on a whole-number total `S` that the target
population divides, when `100 * |S| <= 2^53`. -/
theorem scale_exact (S pop : Int) (hpop : 0 < pop) (hdvd : pop ∣ S)
    (hb : 100 * |S| ≤ 2 ^ 53) :
    F64.mul (F64.div (F64.fin (S : ℚ)) (F64.ofInt pop)) (F64.fin 100) =
      F64.fin (100 * (S : ℚ) / (pop : ℚ)) := by
  obtain ⟨k, rfl⟩ := hdvd
  have hp : (0 : ℚ) < (pop : ℚ) := by exact_mod_cast hpop
  have hk : |k| ≤ |pop * k| := by
    rw [abs_mul]
    have : 1 ≤ |pop| := by rw [abs_of_pos hpop]; omega
    exact le_mul_of_one_le_left (abs_nonneg k) this
  have e1 : ((pop * k : Int) : ℚ) / (pop : ℚ) = (k : ℚ) := by
    push_cast; field_simp
  have e2 : (k : ℚ) * 100 = ((k * 100 : Int) : ℚ) := by push_cast; ring
  have h100 : |k * 100| ≤ 2 ^ 53 := by
    rw [abs_mul]
    have : |(100 : Int)| = 100 := by norm_num
    rw [this]; linarith
  unfold F64.ofInt
  rw [f64_div_fin_pos _ _ hp, e1, rnd_int k (by linarith [abs_nonneg (pop * k)])]
  show F64.rnd ((k : ℚ) * 100) = _
  rw [e2, rnd_int _ h100]
  congr 1
  push_cast
  field_simp
  ring

/-- C3, amended: for a chromosome within both limits, with decoded totals that are
values of a 64-bit `int`, `getFitness` returns the `float64` value
`(sum / float64(targetPopulation)) * 100`, where `sum` adds `score[sampleSet[j]]` over
the true slots `j` in increasing order and every operation rounds.  This is the exact
quotient `100 * sum / targetPopulation` when the scores are whole numbers whose absolute
values, added over the sampling set and multiplied by 100, stay within `2^53` and the
positive target population divides the sum. -/
theorem getFitness_feasible (p : TreePlanter) (idx : Nat) (ch : List Bool)
    (hch : chromosomeAt p idx = some ch) (hlen : ch.length = p.sampleSet.length)
    (hv : SlotsValid p)
    (hcr : InInt64 (decodedTotal p.cost p.sampleSet ch))
    (har : InInt64 (decodedTotal p.area p.sampleSet ch))
    (hcost : decodedTotal p.cost p.sampleSet ch ≤ p.costLimit)
    (harea : decodedTotal p.area p.sampleSet ch ≤ p.areaLimit) :
    getFitness p idx = some (F64.mul
      (F64.div (decodedScore p.score p.sampleSet ch) (F64.ofInt p.population))
      (F64.fin 100)) ∧
    ∀ n : List Int, p.score = intScores n → 100 * absTotal n p.sampleSet ≤ 2 ^ 53 →
      0 < p.population → p.population ∣ decodedTotal n p.sampleSet ch →
      getFitness p idx =
        some (F64.fin (100 * (decodedTotal n p.sampleSet ch : ℚ) / (p.population : ℚ))) := by
  have hfit : getFitness p idx = some (F64.mul
      (F64.div (decodedScore p.score p.sampleSet ch) (F64.ofInt p.population))
      (F64.fin 100)) := by
    rw [getFitness_eq, hch]
    show fitnessOf p ch = _
    rw [fitnessOf_eq p ch hv hlen.le, wrapInt_of_range _ hcr.1 hcr.2,
      wrapInt_of_range _ har.1 har.2, if_neg (by omega)]
  refine ⟨hfit, ?_⟩
  intro n hn hb hpop hdvd
  have habs : 0 ≤ absTotal n p.sampleSet := by
    unfold absTotal
    exact List.sum_nonneg (by
      intro x hx
      obtain ⟨k, _, rfl⟩ := List.mem_map.mp hx
      exact abs_nonneg _)
  have hS := decodedTotal_abs_le n p.sampleSet ch hlen.le
  rw [hfit, hn, decodedScore_intScores n p.sampleSet ch hlen.le (by linarith),
    scale_exact _ _ hpop hdvd (by linarith)]

/-- C3 (amended) on the end-to-end scenario: `init` derives the scores `850` and `1050`
and the sampling set `[A, A, B, B]`; the chromosome `[true, true, false, false]` has
total cost `20`, total area `10` and fitness `100 * 1700 / 1 = 170000`. -/
theorem getFitness_feasible_witness :
    init scenarioCatalog zeroPlanter 0 20 20 1 [1] (fun _ => 0) (fun _ => [0, 1, 2, 3]) =
      some (scenarioPlanter [[true, true, false, false]]) ∧
    decodedTotal [10, 5] [0, 0, 1, 1] [true, true, false, false] = 20 ∧
    decodedTotal [5, 10] [0, 0, 1, 1] [true, true, false, false] = 10 ∧
    decodedTotal [850, 1050] [0, 0, 1, 1] [true, true, false, false] = 1700 ∧
    getFitness (scenarioPlanter [[true, true, false, false]]) 0 = some (F64.fin 170000) :=
  ⟨by decide!, by decide, by decide, by decide,
   ((getFitness_feasible (scenarioPlanter [[true, true, false, false]]) 0
      [true, true, false, false] (by decide) (by decide) (by unfold SlotsValid; decide)
      (by unfold InInt64; decide) (by unfold InInt64; decide)
      (by decide) (by decide)).2 [850, 1050] (by decide!) (by decide) (by decide)
      (by decide)).trans (by decide!)⟩

/-- C3, as stated, fails: `init` on `smallCatalog` with target population 3 can leave
the chromosome `[-, B, -, -]` of score 20, within the limits.  `getFitness` returns
`(20 / 3) * 100` rounded twice, the `float64` value `5864062014805334 * 2^-43`, which is
neither the exact quotient `100 * 20 / 3` nor the `float64` value nearest to it, nor the
`float64` value of `(100 * 20) / 3`; both of these are `5864062014805333 * 2^-43`. -/
theorem getFitness_feasible_rounds :
    init smallCatalog zeroPlanter 0 3 3 3 [1] (fun _ => 0) (fun _ => [1, 0, 2, 3]) =
      some (thirdsPlanter [[false, true, false, false]]) ∧
    decodedTotal [2, 1] [0, 1, 1, 1] [false, true, false, false] = 1 ∧
    decodedTotal [1, 1] [0, 1, 1, 1] [false, true, false, false] = 1 ∧
    decodedScore [F64.fin 40, F64.fin 20] [0, 1, 1, 1] [false, true, false, false] =
      F64.fin 20 ∧
    getFitness (thirdsPlanter [[false, true, false, false]]) 0 =
      some (F64.fin (5864062014805334 / 2 ^ 43)) ∧
    F64.fin (5864062014805334 / 2 ^ 43) ≠ F64.fin (100 * 20 / 3) ∧
    F64.rnd (100 * 20 / 3) = F64.fin (5864062014805333 / 2 ^ 43) ∧
    F64.div (F64.mul (F64.fin 100) (F64.fin 20)) (F64.ofInt 3) =
      F64.fin (5864062014805333 / 2 ^ 43) := by
  refine ⟨by decide!, by decide, by decide, by decide!, by decide!, by decide!, by decide!,
    by decide!⟩

/-! ## Slot counts and the chromosome of one item -/

theorem mem_trueSlots_itemChromosome (ss : List Nat) (i k j : Nat)
    (h : j ∈ trueSlots (itemChromosome ss i) k) : ss.getD j 0 = i := by
  unfold trueSlots at h
  have hb := (List.mem_filter.mp h).2
  simp only [itemChromosome, List.getD_eq_getElem?_getD, List.getElem?_map] at hb ⊢
  cases hs : ss[j]? with
  | none => simp [hs] at hb
  | some s => simpa [hs] using hb

/-- C14, as stated, fails.  (a) Target population 0 and a negative score: for one item
of cost 1, area 1 and score `-20` and both limits 3, `init` builds three slots; the
chromosome of all three has total cost 3 and total area 3, within the limits, and
`getFitness` returns `-60 / 0 * 100 = -Inf`.  (b) Target population 1 and a large
negative finite score: on `deepCatalog` item A has one slot and the score
`-5 * 2^1021`; the chromosome of that slot is within the limits and `getFitness`
returns `-Inf`, because the product by `100` overflows. -/
theorem feasible_item_chromosome_ninf :
    init negativeCatalog zeroPlanter 0 3 3 0 [1] (fun _ => 0) (fun _ => [0, 1, 2]) =
      some { zeroPlanter with
        numOfChromosomes := 1, areaLimit := 3, costLimit := 3, population := 0
        level := "Good", zone := "Zone IV"
        score := [F64.fin (-20)], area := [1], cost := [1], sampleSet := [0, 0, 0]
        bestFit := F64.ninf, lastFit := F64.ninf, totalFit := [F64.ninf]
        chromosomes := [some 0], minc := F64.fin 3, maxc := F64.fin 3
        heap := [[true, true, true]] } ∧
    itemChromosome [0, 0, 0] 0 = [true, true, true] ∧
    decodedTotal [1] [0, 0, 0] [true, true, true] = 3 ∧
    (init negativeCatalog zeroPlanter 0 3 3 0 [1] (fun _ => 0) (fun _ => [0, 1, 2])).bind
      (fun r => getFitness r 0) = some F64.ninf ∧
    getSamplingSet 2 { deepPlanter [] with sampleSet := [], numOfChromosomes := 1 } =
      some { deepPlanter [] with numOfChromosomes := 1 } ∧
    itemChromosome [0, 1, 1, 1] 0 = [true, false, false, false] ∧
    (deepPlanter []).score = [F64.fin (-(5 * 2 ^ 1021)), F64.fin 20] ∧
    (deepPlanter []).population = 1 ∧
    fitnessOf (deepPlanter []) (itemChromosome [0, 1, 1, 1] 0) = some F64.ninf := by
  refine ⟨by decide!, by decide, by decide, by decide!, by decide!, by decide, by decide!,
    by decide, by decide!⟩

/-- C14, amended: when `getSamplingSet` completes on an empty sampling set with
non-negative limits (values of a 64-bit `int`), the number of slots of an item `i` with
cost `> 0` and area `> 0` is at most `costLimit / cost[i]` and at most
`areaLimit / area[i]`, so that `count * cost[i] <= costLimit` and
`count * area[i] <= areaLimit`; the chromosome whose true bits are exactly the slots of
item `i` is within both limits, `getFitness` takes its score branch on it, and the
result is not `-Inf` (it is `>= 0`, possibly `+Inf`) when the score of item `i` is
finite and not negative and the target population is positive. -/
theorem item_count_bound (p q : TreePlanter) (n i : Nat) (ci ai : Int)
    (hq : getSamplingSet n p = some q) (hempty : p.sampleSet = []) (hi : i < n)
    (hci : p.cost[i]? = some ci) (hai : p.area[i]? = some ai)
    (hc0 : 0 < ci) (ha0 : 0 < ai) (hcl : 0 ≤ p.costLimit) (hal : 0 ≤ p.areaLimit)
    (hcl63 : p.costLimit < 2 ^ 63) (hal63 : p.areaLimit < 2 ^ 63)
    (hsc : n ≤ p.score.length) :
    (q.sampleSet.count i : Int) ≤ p.costLimit / ci ∧
    (q.sampleSet.count i : Int) ≤ p.areaLimit / ai ∧
    (q.sampleSet.count i : Int) * ci ≤ p.costLimit ∧
    (q.sampleSet.count i : Int) * ai ≤ p.areaLimit ∧
    decodedTotal q.cost q.sampleSet (itemChromosome q.sampleSet i) ≤ q.costLimit ∧
    decodedTotal q.area q.sampleSet (itemChromosome q.sampleSet i) ≤ q.areaLimit ∧
    fitnessOf q (itemChromosome q.sampleSet i) =
      some (F64.mul (F64.div (decodedScore q.score q.sampleSet (itemChromosome q.sampleSet i))
        (F64.ofInt q.population)) (F64.fin 100)) ∧
    (∀ s : ℚ, q.score[i]? = some (F64.fin s) → 0 ≤ s → 0 < q.population →
      ∃ f, fitnessOf q (itemChromosome q.sampleSet i) = some f ∧ f ≠ F64.ninf ∧
        F64.le (F64.fin 0) f = true) := by
  obtain ⟨hdiv, hqe⟩ := getSamplingSetLoop_some p n q hq
  have hss : q.sampleSet =
      (List.range n).flatMap (fun j => List.replicate (rawCount p j) j) := by
    rw [hqe]; simp [hempty]
  have e1 : q.cost = p.cost := by rw [hqe]
  have e2 : q.area = p.area := by rw [hqe]
  have e3 : q.costLimit = p.costLimit := by rw [hqe]
  have e4 : q.areaLimit = p.areaLimit := by rw [hqe]
  have e5 : q.score = p.score := by rw [hqe]
  have hcount : q.sampleSet.count i = rawCount p i := by
    rw [hss, count_flatMap_replicate, if_pos hi]
  have q1 : 0 ≤ p.costLimit / ci := Int.ediv_nonneg hcl hc0.le
  have q2 : 0 ≤ p.areaLimit / ai := Int.ediv_nonneg hal ha0.le
  have hraw : (rawCount p i : Int) = min (p.costLimit / ci) (p.areaLimit / ai) := by
    simp only [rawCount, List.getD_eq_getElem?_getD, hci, hai, Option.getD_some,
      Int.tdiv_eq_ediv hcl hc0.le, Int.tdiv_eq_ediv hal ha0.le]
    exact Int.toNat_of_nonneg (le_min q1 q2)
  have b1 : (q.sampleSet.count i : Int) ≤ p.costLimit / ci := by
    rw [hcount, hraw]; exact min_le_left _ _
  have b2 : (q.sampleSet.count i : Int) ≤ p.areaLimit / ai := by
    rw [hcount, hraw]; exact min_le_right _ _
  have b3 : (q.sampleSet.count i : Int) * ci ≤ p.costLimit :=
    (Int.mul_le_mul_of_nonneg_right b1 hc0.le).trans (Int.ediv_mul_le _ hc0.ne')
  have b4 : (q.sampleSet.count i : Int) * ai ≤ p.areaLimit :=
    (Int.mul_le_mul_of_nonneg_right b2 ha0.le).trans (Int.ediv_mul_le _ ha0.ne')
  have gci : q.cost.getD i 0 = ci := by
    rw [e1]; simp [List.getD_eq_getElem?_getD, hci]
  have gai : q.area.getD i 0 = ai := by
    rw [e2]; simp [List.getD_eq_getElem?_getD, hai]
  have d1 : decodedTotal q.cost q.sampleSet (itemChromosome q.sampleSet i) ≤ q.costLimit := by
    rw [decodedTotal_itemChromosome, gci, e3]; exact b3
  have d2 : decodedTotal q.area q.sampleSet (itemChromosome q.sampleSet i) ≤ q.areaLimit := by
    rw [decodedTotal_itemChromosome, gai, e4]; exact b4
  have hv : SlotsValid q := by
    intro s hs
    rw [hss] at hs
    obtain ⟨j, hj, hsj⟩ := List.mem_flatMap.mp hs
    have hsj' : s = j := (List.mem_replicate.mp hsj).2
    have hjn : j < n := List.mem_range.mp hj
    obtain ⟨c, a, hc, _, ha, _⟩ := hdiv j hjn
    have l1 : j < p.cost.length := (List.getElem?_eq_some.mp hc).1
    have l2 : j < p.area.length := (List.getElem?_eq_some.mp ha).1
    rw [e1, e2, e5, hsj']
    exact ⟨l1, l2, by omega⟩
  have hl : (itemChromosome q.sampleSet i).length ≤ q.sampleSet.length := by
    simp [itemChromosome]
  have n1 : 0 ≤ decodedTotal q.cost q.sampleSet (itemChromosome q.sampleSet i) := by
    rw [decodedTotal_itemChromosome, gci]
    exact mul_nonneg (by omega) hc0.le
  have n2 : 0 ≤ decodedTotal q.area q.sampleSet (itemChromosome q.sampleSet i) := by
    rw [decodedTotal_itemChromosome, gai]
    exact mul_nonneg (by omega) ha0.le
  have hfit : fitnessOf q (itemChromosome q.sampleSet i) =
      some (F64.mul (F64.div (decodedScore q.score q.sampleSet (itemChromosome q.sampleSet i))
        (F64.ofInt q.population)) (F64.fin 100)) := by
    rw [fitnessOf_eq q _ hv hl, wrapInt_of_range _ (by omega) (by omega),
      wrapInt_of_range _ (by omega) (by omega), if_neg (by omega)]
  refine ⟨b1, b2, b3, b4, d1, d2, hfit, ?_⟩
  intro s hs hs0 hpop
  have hsum : F64.le (F64.fin 0)
      (decodedScore q.score q.sampleSet (itemChromosome q.sampleSet i)) = true := by
    refine foldl_add_nonneg q.score q.sampleSet _ ?_ _ (by simp [F64.le])
    intro j hj
    rw [mem_trueSlots_itemChromosome _ _ _ _ hj, List.getD_eq_getElem?_getD, hs]
    exact ⟨s, hs0, rfl⟩
  have hscaled := scale_nonneg _ q.population hpop hsum
  exact ⟨_, hfit, f64_ne_ninf_of_nonneg hscaled, hscaled⟩

/-- C14 (amended) on `smallCatalog` with limits 3 and item A (cost 2, area 1, score
40): one slot, and the chromosome of that slot has a fitness `>= 0`, not `-Inf`. -/
theorem item_count_bound_witness :
    getSamplingSet 2 smallBefore = some smallSampled ∧
    (smallSampled.sampleSet.count 0 : Int) * 2 ≤ 3 ∧
    ∃ f, fitnessOf smallSampled (itemChromosome smallSampled.sampleSet 0) = some f ∧
      f ≠ F64.ninf ∧ F64.le (F64.fin 0) f = true := by
  have hq : getSamplingSet 2 smallBefore = some smallSampled := by decide!
  have h := item_count_bound smallBefore smallSampled 2 0 2 1 hq rfl (by decide) rfl rfl
    (by decide) (by decide) (by decide) (by decide) (by decide) (by decide) (by decide)
  exact ⟨hq, h.2.2.1, h.2.2.2.2.2.2.2 40 (by decide) (by norm_num) (by decide)⟩

/-! ## Monotonicity of the fitness -/

theorem getD_map_fin (sc : List ℚ) (s : Nat) :
    (sc.map F64.fin).getD s (F64.fin 0) = F64.fin (sc.getD s 0) := by
  simp only [List.getD_eq_getElem?_getD, List.getElem?_map]
  cases sc[s]? <;> rfl

theorem getD_set_score (sc : List ℚ) (t : Nat) (v : ℚ) (s : Nat) (ht : t < sc.length) :
    (sc.set t v).getD s 0 = if s = t then v else sc.getD s 0 := by
  simp only [List.getD_eq_getElem?_getD, List.getElem?_set, ht, if_true]
  by_cases e : t = s
  · subst e; simp
  · have e' : ¬ s = t := fun h => e h.symm
    simp [e, e']

theorem getD_set_int (n : List Int) (t : Nat) (m : Int) (s : Nat) (ht : t < n.length) :
    (n.set t m).getD s 0 = if s = t then m else n.getD s 0 := by
  simp only [List.getD_eq_getElem?_getD, List.getElem?_set, ht, if_true]
  by_cases e : t = s
  · subst e; simp
  · have e' : ¬ s = t := fun h => e h.symm
    simp [e, e']

/-- The floating point sum of finite terms is monotone in the terms and in the start
value. -/
theorem foldl_add_le (a b : Nat → ℚ) (js : List Nat) (hab : ∀ j ∈ js, a j ≤ b j)
    (x y : F64) (hxy : F64.le x y = true) :
    F64.le (js.foldl (fun acc j => F64.add acc (F64.fin (a j))) x)
      (js.foldl (fun acc j => F64.add acc (F64.fin (b j))) y) = true := by
  induction js generalizing x y with
  | nil => exact hxy
  | cons j js ih =>
    rw [List.foldl_cons, List.foldl_cons]
    exact ih (fun k hk => hab k (List.mem_cons_of_mem _ hk)) _ _
      (f64_add_mono _ _ hxy (hab j (List.mem_cons_self _ _)))

theorem decodedScore_map_fin (sc : List ℚ) (ss : List Nat) (ch : List Bool) :
    decodedScore (sc.map F64.fin) ss ch =
      (trueSlots ch ch.length).foldl
        (fun acc j => F64.add acc (F64.fin (sc.getD (ss.getD j 0) 0))) (F64.fin 0) := by
  unfold decodedScore
  congr 1
  funext acc j
  rw [getD_map_fin]

theorem decodedScore_mono (sc : List ℚ) (ss : List Nat) (ch : List Bool) (t : Nat) (v : ℚ)
    (ht : t < sc.length) (hv : sc.getD t 0 ≤ v) :
    F64.le (decodedScore (sc.map F64.fin) ss ch)
      (decodedScore ((sc.set t v).map F64.fin) ss ch) = true := by
  rw [decodedScore_map_fin, decodedScore_map_fin]
  apply foldl_add_le
  · intro j _
    rw [getD_set_score sc t v _ ht]
    split
    · rename_i e; rw [e]; exact hv
    · exact le_rfl
  · simp [F64.le]

theorem decodedTotal_set_lt (n : List Int) (ss : List Nat) (ch : List Bool) (t : Nat)
    (m : Int) (ht : t < n.length) (hm : n.getD t 0 < m)
    (hex : ∃ j, j < ch.length ∧ ch.getD j false = true ∧ ss.getD j 0 = t) :
    decodedTotal n ss ch < decodedTotal (n.set t m) ss ch := by
  have hle : ∀ j ∈ trueSlots ch ch.length,
      n.getD (ss.getD j 0) 0 ≤ (n.set t m).getD (ss.getD j 0) 0 := by
    intro j _
    rw [getD_set_int n t m _ ht]
    split
    · rename_i e; rw [e]; exact hm.le
    · exact le_rfl
  obtain ⟨j, hj, hb, hs⟩ := hex
  unfold decodedTotal
  apply List.sum_lt_sum _ _ hle
  refine ⟨j, ?_, ?_⟩
  · simp only [trueSlots, List.mem_filter, List.mem_range]
    exact ⟨hj, hb⟩
  · rw [getD_set_int n t m _ ht, if_pos hs, hs]
    exact hm

theorem intScores_eq_map (n : List Int) :
    intScores n = (n.map (fun (k : Int) => (k : ℚ))).map F64.fin := by
  unfold intScores
  rw [List.map_map]
  rfl

/-- C15, amended: two runs share the sampling set, costs, areas, limits and a target
population `> 0`; their finite score arrays agree except at item `t`, where the second
score `v` is strictly larger.  For every chromosome `getFitness` returns in both runs
and the second value is `>=` the first.  For a feasible chromosome with a true slot of
item `t` the second value is strictly greater when no rounding intervenes: the scores of
both runs are whole numbers whose absolute values, added over the sampling set and
multiplied by 100, stay within `2^53`, and the target population divides both score
totals.  When all scores are non-negative a feasible chromosome has a fitness `>= 0`
(possibly `+Inf`). -/
theorem getFitness_monotone (p : TreePlanter) (sc : List ℚ) (t : Nat) (v : ℚ) (idx : Nat)
    (ch : List Bool) (hs : p.score = sc.map F64.fin) (ht : t < sc.length)
    (hv : sc.getD t 0 < v) (hch : chromosomeAt p idx = some ch)
    (hlen : ch.length = p.sampleSet.length) (hvalid : SlotsValid p)
    (hpop : 0 < p.population) :
    ∃ f1 f2, getFitness p idx = some f1 ∧
      getFitness { p with score := (sc.set t v).map F64.fin } idx = some f2 ∧
      F64.le f1 f2 = true ∧
      (InInt64 (decodedTotal p.cost p.sampleSet ch) →
        InInt64 (decodedTotal p.area p.sampleSet ch) →
        decodedTotal p.cost p.sampleSet ch ≤ p.costLimit →
        decodedTotal p.area p.sampleSet ch ≤ p.areaLimit →
        (∃ j, j < ch.length ∧ ch.getD j false = true ∧ p.sampleSet.getD j 0 = t) →
        ∀ (n : List Int) (m : Int), sc = n.map (fun (k : Int) => (k : ℚ)) → v = (m : ℚ) →
          100 * absTotal n p.sampleSet ≤ 2 ^ 53 →
          100 * absTotal (n.set t m) p.sampleSet ≤ 2 ^ 53 →
          p.population ∣ decodedTotal n p.sampleSet ch →
          p.population ∣ decodedTotal (n.set t m) p.sampleSet ch →
          F64.lt f1 f2 = true) ∧
      (InInt64 (decodedTotal p.cost p.sampleSet ch) →
        InInt64 (decodedTotal p.area p.sampleSet ch) →
        decodedTotal p.cost p.sampleSet ch ≤ p.costLimit →
        decodedTotal p.area p.sampleSet ch ≤ p.areaLimit →
        (∀ x ∈ sc, 0 ≤ x) → F64.le (F64.fin 0) f1 = true) := by
  have hvalid2 : SlotsValid { p with score := (sc.set t v).map F64.fin } := by
    intro s hs'
    obtain ⟨h1, h2, h3⟩ := hvalid s hs'
    refine ⟨h1, h2, ?_⟩
    rw [hs] at h3
    simpa using h3
  have hfit1 : getFitness p idx = fitnessOf p ch := by rw [getFitness_eq, hch]; rfl
  have hfit2 : getFitness { p with score := (sc.set t v).map F64.fin } idx =
      fitnessOf { p with score := (sc.set t v).map F64.fin } ch := by
    rw [getFitness_eq]
    have : chromosomeAt { p with score := (sc.set t v).map F64.fin } idx = some ch := hch
    rw [this]; rfl
  have e1 := fitnessOf_eq p ch hvalid hlen.le
  have e2 := fitnessOf_eq { p with score := (sc.set t v).map F64.fin } ch hvalid2 hlen.le
  have hpq : (0 : ℚ) < (p.population : ℚ) := by exact_mod_cast hpop
  by_cases hfeas : wrapInt (decodedTotal p.cost p.sampleSet ch) > p.costLimit ∨
      wrapInt (decodedTotal p.area p.sampleSet ch) > p.areaLimit
  · rw [if_pos hfeas] at e1
    rw [if_pos hfeas] at e2
    refine ⟨F64.ninf, F64.ninf, hfit1.trans e1, hfit2.trans e2, rfl, ?_, ?_⟩
    · intro hc ha h1 h2
      rw [wrapInt_of_range _ hc.1 hc.2, wrapInt_of_range _ ha.1 ha.2] at hfeas
      omega
    · intro hc ha h1 h2
      rw [wrapInt_of_range _ hc.1 hc.2, wrapInt_of_range _ ha.1 ha.2] at hfeas
      omega
  · rw [if_neg hfeas] at e1
    rw [if_neg hfeas] at e2
    refine ⟨_, _, hfit1.trans e1, hfit2.trans e2, ?_, ?_, ?_⟩
    · show F64.le
        (F64.mul (F64.div (decodedScore p.score p.sampleSet ch) (F64.ofInt p.population))
          (F64.fin 100))
        (F64.mul (F64.div (decodedScore ((sc.set t v).map F64.fin) p.sampleSet ch)
          (F64.ofInt p.population)) (F64.fin 100)) = true
      rw [hs]
      exact f64_mul_mono 100 (by norm_num)
        (f64_div_mono _ hpq (decodedScore_mono sc p.sampleSet ch t v ht hv.le))
    · intro _ _ _ _ hex n m hn hm hb1 hb2 hd1 hd2
      have hnl : t < n.length := by rw [hn] at ht; simpa using ht
      have hnt : n.getD t 0 < m := by
        have : sc.getD t 0 = ((n.getD t 0 : Int) : ℚ) := by
          rw [hn]
          simp only [List.getD_eq_getElem?_getD, List.getElem?_map]
          cases n[t]? <;> simp
        rw [this, hm] at hv
        exact_mod_cast hv
      have hlt := decodedTotal_set_lt n p.sampleSet ch t m hnl hnt hex
      have hs1 : p.score = intScores n := by rw [hs, hn, intScores_eq_map]
      have hs2 : (sc.set t v).map F64.fin = intScores (n.set t m) := by
        rw [intScores_eq_map, hn, hm]
        simp only [List.map_set]
      have ha1 : 0 ≤ absTotal n p.sampleSet := by
        unfold absTotal
        exact List.sum_nonneg (by
          intro x hx
          obtain ⟨k, _, rfl⟩ := List.mem_map.mp hx
          exact abs_nonneg _)
      have ha2 : 0 ≤ absTotal (n.set t m) p.sampleSet := by
        unfold absTotal
        exact List.sum_nonneg (by
          intro x hx
          obtain ⟨k, _, rfl⟩ := List.mem_map.mp hx
          exact abs_nonneg _)
      have hS1 := decodedTotal_abs_le n p.sampleSet ch hlen.le
      have hS2 := decodedTotal_abs_le (n.set t m) p.sampleSet ch hlen.le
      show F64.lt
        (F64.mul (F64.div (decodedScore p.score p.sampleSet ch) (F64.ofInt p.population))
          (F64.fin 100))
        (F64.mul (F64.div (decodedScore ((sc.set t v).map F64.fin) p.sampleSet ch)
          (F64.ofInt p.population)) (F64.fin 100)) = true
      rw [hs1, hs2, decodedScore_intScores n p.sampleSet ch hlen.le (by linarith),
        decodedScore_intScores (n.set t m) p.sampleSet ch hlen.le (by linarith),
        scale_exact _ _ hpop hd1 (by linarith), scale_exact _ _ hpop hd2 (by linarith)]
      simp only [F64.lt, decide_eq_true_eq]
      have hq : ((decodedTotal n p.sampleSet ch : Int) : ℚ) <
          ((decodedTotal (n.set t m) p.sampleSet ch : Int) : ℚ) := by exact_mod_cast hlt
      apply div_lt_div_of_pos_right _ hpq
      linarith
    · intro _ _ _ _ hnn
      have hsum : F64.le (F64.fin 0) (decodedScore p.score p.sampleSet ch) = true := by
        refine foldl_add_nonneg p.score p.sampleSet _ ?_ _ (by simp [F64.le])
        intro j _
        rw [hs, getD_map_fin]
        refine ⟨_, ?_, rfl⟩
        rw [List.getD_eq_getElem?_getD]
        cases hg : sc[p.sampleSet.getD j 0]? with
        | none => exact le_rfl
        | some y => exact hnn y (List.getElem?_mem hg)
      exact scale_nonneg _ p.population hpop hsum

/-- C15 (amended) on `smallPlanter`: raising the score of item A from 40 to 50 raises the
fitness of the feasible chromosome `[A, -, -, -]` from 4000 to 5000. -/
theorem getFitness_monotone_witness :
    ∃ f1 f2, getFitness (smallPlanter [[true, false, false, false]]) 0 = some f1 ∧
      getFitness { smallPlanter [[true, false, false, false]] with
        score := ([40, 20].set 0 50).map F64.fin } 0 = some f2 ∧
      F64.le f1 f2 = true ∧ F64.lt f1 f2 = true ∧ F64.le (F64.fin 0) f1 = true := by
  obtain ⟨f1, f2, h1, h2, h3, h4, h5⟩ :=
    getFitness_monotone (smallPlanter [[true, false, false, false]]) [40, 20] 0 50 0
      [true, false, false, false] rfl (by decide) (by norm_num [List.getD]) (by decide)
      (by decide) (by unfold SlotsValid; decide) (by decide)
  refine ⟨f1, f2, h1, h2, h3, ?_, ?_⟩
  · exact h4 (by unfold InInt64; decide) (by unfold InInt64; decide) (by decide) (by decide)
      ⟨0, by decide, by decide, by decide⟩ [40, 20] 50 (by norm_num) (by norm_num)
      (by decide) (by decide) (by decide) (by decide)
  · refine h5 (by unfold InInt64; decide) (by unfold InInt64; decide) (by decide)
      (by decide) ?_
    intro x hx
    have : x = 40 ∨ x = 20 := by simpa using hx
    rcases this with h | h <;> rw [h] <;> norm_num

/-- C15, as stated, fails on `smallPlanter`.  (a) Raising the score of item B from `20`
to the next `float64` value `20 + 2^-48` leaves the fitness of the feasible chromosome
`[A, B, -, -]` at `6000`: the sum `60 + 2^-48` lies half way between two `float64`
values and rounds to `60`.  (b) With the non-negative finite scores `2^1020` and `20`
the feasible chromosome `[A, -, -, -]` has fitness `+Inf`, which is not finite. -/
theorem getFitness_monotone_rounds :
    F64.rnd (20 + 1 / 2 ^ 48) = F64.fin (20 + 1 / 2 ^ 48) ∧
    decodedTotal [2, 1] [0, 1, 1, 1] [true, true, false, false] = 3 ∧
    decodedTotal [1, 1] [0, 1, 1, 1] [true, true, false, false] = 2 ∧
    getFitness (smallPlanter [[true, true, false, false]]) 0 = some (F64.fin 6000) ∧
    getFitness { smallPlanter [[true, true, false, false]] with
      score := ([40, 20].set 1 (20 + 1 / 2 ^ 48)).map F64.fin } 0 = some (F64.fin 6000) ∧
    F64.lt (F64.fin 6000) (F64.fin 6000) = false ∧
    F64.rnd (2 ^ 1020) = F64.fin (2 ^ 1020) ∧
    getFitness { smallPlanter [[true, false, false, false]] with
      score := [F64.fin (2 ^ 1020), F64.fin 20] } 0 = some F64.pinf := by
  refine ⟨by decide!, by decide, by decide, by decide!, by decide!, by decide!, by decide!,
    by decide!⟩

/-! ## Result extraction -/

theorem countOf_incr (m : CountMap) (k k1 : String) :
    countOf (incr m k) k1 = countOf m k1 + (if k = k1 then 1 else 0) := by
  induction m with
  | nil => simp [incr, countOf]
  | cons e m ih =>
    obtain ⟨k0, v⟩ := e
    by_cases h0 : k0 = k
    · subst h0
      by_cases h1 : k0 = k1
      · simp [incr, countOf, h1]
      · simp [incr, countOf, h1]
    · by_cases h1 : k0 = k1
      · subst h1
        have : ¬ k = k0 := fun e => h0 e.symm
        simp [incr, countOf, h0, this]
      · simp [incr, countOf, h0, h1, ih]

theorem countOf_foldl_incr (names : List String) (m : CountMap) (k1 : String) :
    countOf (names.foldl incr m) k1 = countOf m k1 + (names.count k1 : Int) := by
  induction names generalizing m with
  | nil => simp
  | cons k names ih =>
    rw [List.foldl_cons, ih, countOf_incr, List.count_cons]
    by_cases h : k = k1
    · simp [h]; ring
    · simp [h]

theorem incr_pos (m : CountMap) (k : String) (h : ∀ e ∈ m, 1 ≤ e.2) :
    ∀ e ∈ incr m k, 1 ≤ e.2 := by
  induction m with
  | nil =>
    intro e he
    simp only [incr, List.mem_singleton] at he
    subst he; exact le_rfl
  | cons e0 m ih =>
    obtain ⟨k0, v⟩ := e0
    have hv : 1 ≤ v := h (k0, v) (List.mem_cons_self _ _)
    have hm : ∀ e ∈ m, 1 ≤ e.2 := fun e he => h e (List.mem_cons_of_mem _ he)
    intro e he
    by_cases h0 : k0 = k
    · simp only [incr, h0, if_true, List.mem_cons] at he
      rcases he with rfl | he
      · show 1 ≤ v + 1
        omega
      · exact hm e he
    · simp only [incr, h0, if_false, List.mem_cons] at he
      rcases he with rfl | he
      · exact hv
      · exact ih hm e he

theorem incr_keys (m : CountMap) (k : String) (P : String → Prop) (hk : P k)
    (h : ∀ e ∈ m, P e.1) : ∀ e ∈ incr m k, P e.1 := by
  induction m with
  | nil =>
    intro e he
    simp only [incr, List.mem_singleton] at he
    subst he; exact hk
  | cons e0 m ih =>
    obtain ⟨k0, v⟩ := e0
    have h0' : P k0 := h (k0, v) (List.mem_cons_self _ _)
    have hm : ∀ e ∈ m, P e.1 := fun e he => h e (List.mem_cons_of_mem _ he)
    intro e he
    by_cases h0 : k0 = k
    · simp only [incr, h0, if_true, List.mem_cons] at he
      rcases he with rfl | he
      · exact hk
      · exact hm e he
    · simp only [incr, h0, if_false, List.mem_cons] at he
      rcases he with rfl | he
      · exact h0'
      · exact ih hm e he

theorem sumInt_incr (g : String → Int) (m : CountMap) (k : String) :
    ((incr m k).map (fun e => g e.1 * e.2)).sum = (m.map (fun e => g e.1 * e.2)).sum + g k := by
  induction m with
  | nil => simp [incr]
  | cons e0 m ih =>
    obtain ⟨k0, v⟩ := e0
    by_cases h0 : k0 = k
    · subst h0
      simp only [incr, if_true, List.map_cons, List.sum_cons]
      ring
    · simp only [incr, h0, if_false, List.map_cons, List.sum_cons, ih]
      ring

theorem tally_sums (gi : String → Int) (names : List String)
    (m : CountMap) (h : ∀ e ∈ m, 1 ≤ e.2) :
    (((names.foldl incr m).map (fun e => gi e.1 * e.2)).sum =
      (m.map (fun e => gi e.1 * e.2)).sum + (names.map gi).sum) ∧
    (∀ e ∈ names.foldl incr m, 1 ≤ e.2) := by
  induction names generalizing m with
  | nil => exact ⟨by simp, h⟩
  | cons k names ih =>
    obtain ⟨h1, h3⟩ := ih (incr m k) (incr_pos m k h)
    refine ⟨?_, h3⟩
    rw [List.foldl_cons, h1, sumInt_incr, List.map_cons, List.sum_cons]; ring

theorem foldl_incr_keys (names : List String) (m : CountMap) (P : String → Prop)
    (hn : ∀ k ∈ names, P k) (h : ∀ e ∈ m, P e.1) : ∀ e ∈ names.foldl incr m, P e.1 := by
  induction names generalizing m with
  | nil => exact h
  | cons k names ih =>
    rw [List.foldl_cons]
    exact ih (incr m k) (fun k1 hk1 => hn k1 (List.mem_cons_of_mem _ hk1))
      (incr_keys m k P (hn k (List.mem_cons_self _ _)) h)

theorem decodeLoop_eq (TreeInfo : List info) (p : TreePlanter) (best : List Bool)
    (hss : ∀ s ∈ p.sampleSet, s < TreeInfo.length) (k : Nat)
    (hk : k ≤ best.length) (hk2 : k ≤ p.sampleSet.length) :
    decodeLoop TreeInfo p best k =
      some (tally ((trueSlots best k).map (fun j => nameOf TreeInfo (p.sampleSet.getD j 0)))) := by
  induction k with
  | zero => simp [decodeLoop, trueSlots, tally]
  | succ k ih =>
    have hk1 : k < best.length := hk
    have hk3 : k < p.sampleSet.length := hk2
    have hs : p.sampleSet[k] < TreeInfo.length := hss _ (List.getElem_mem hk3)
    have e1 : best[k]? = some best[k] := List.getElem?_eq_getElem hk1
    have e2 : p.sampleSet[k]? = some p.sampleSet[k] := List.getElem?_eq_getElem hk3
    have e3 : TreeInfo[p.sampleSet[k]]? = some TreeInfo[p.sampleSet[k]] :=
      List.getElem?_eq_getElem hs
    have d1 : best.getD k false = best[k] := by simp [List.getD, e1]
    have d2 : p.sampleSet.getD k 0 = p.sampleSet[k] := by simp [List.getD, e2]
    rw [decodeLoop, ih (by omega) (by omega), trueSlots_succ, d1]
    by_cases hb : best[k] = true
    · simp [e1, e2, e3, hb, tally, List.foldl_append, nameOf, d2]
    · simp [e1, e2, hb]

theorem wrapInt_add_both (a b : Int) : wrapInt (wrapInt a + wrapInt b) = wrapInt (a + b) := by
  unfold wrapInt
  omega

/-- The totals of `getResults` after `k` entries: the score is added entry by entry in
`float64`, the area and the cost are the exact sums wrapped to 64 bits. -/
theorem totalsLoop_eq (TreeIdx : List (String × Nat)) (p : TreePlanter) (visit : CountMap)
    (hvalid : ∀ e ∈ visit, lookupIdx TreeIdx e.1 < p.score.length ∧
      lookupIdx TreeIdx e.1 < p.area.length ∧ lookupIdx TreeIdx e.1 < p.cost.length)
    (k : Nat) (hk : k ≤ visit.length) :
    totalsLoop TreeIdx p visit k = some
      ((visit.take k).foldl (fun acc e =>
          F64.add acc (F64.mul (p.score.getD (lookupIdx TreeIdx e.1) (F64.fin 0))
            (F64.ofInt e.2))) (F64.fin 0),
       wrapInt ((visit.take k).map (fun e => p.area.getD (lookupIdx TreeIdx e.1) 0 * e.2)).sum,
       wrapInt ((visit.take k).map (fun e => p.cost.getD (lookupIdx TreeIdx e.1) 0 * e.2)).sum) := by
  induction k with
  | zero => simp [totalsLoop, wrapInt]
  | succ k ih =>
    have hk1 : k < visit.length := hk
    obtain ⟨v1, v2, v3⟩ := hvalid _ (List.getElem_mem hk1)
    have e0 : visit[k]? = some visit[k] := List.getElem?_eq_getElem hk1
    have e1 := List.getElem?_eq_getElem v1
    have e2 := List.getElem?_eq_getElem v2
    have e3 := List.getElem?_eq_getElem v3
    have htake : visit.take (k + 1) = visit.take k ++ [visit[k]] := by
      rw [List.take_succ, e0]; rfl
    rw [totalsLoop, ih (by omega), htake]
    simp only [e0, e1, e2, e3, Option.bind_eq_bind, Option.some_bind, List.map_append,
      List.sum_append, List.map_cons, List.map_nil, List.sum_cons, List.sum_nil,
      List.getD_eq_getElem?_getD, Option.getD_some, add_zero, List.foldl_append,
      List.foldl_cons, List.foldl_nil, wrapInt_add_both]

theorem count_map_of_inj_on {α β : Type} [DecidableEq α] [DecidableEq β] (f : α → β)
    (l : List α) (s : α) (h : ∀ x ∈ l, f x = f s → x = s) :
    (l.map f).count (f s) = l.count s := by
  induction l with
  | nil => rfl
  | cons a l ih =>
    have ha := h a (List.mem_cons_self _ _)
    have hl : ∀ x ∈ l, f x = f s → x = s := fun x hx => h x (List.mem_cons_of_mem _ hx)
    rw [List.map_cons, List.count_cons, List.count_cons, ih hl]
    by_cases e : a = s
    · simp [e]
    · have : ¬ f a = f s := fun e1 => e (ha e1)
      simp [e, this]

theorem mem_trueSlots_lt (ch : List Bool) (k j : Nat) (h : j ∈ trueSlots ch k) : j < k := by
  unfold trueSlots at h
  exact List.mem_range.mp (List.mem_filter.mp h).1

theorem nameOf_eq (TreeInfo : List info) (s : Nat) (h : s < TreeInfo.length) :
    TreeInfo[s]? = some TreeInfo[s] ∧ nameOf TreeInfo s = TreeInfo[s].CommonName := by
  have e := List.getElem?_eq_getElem h
  exact ⟨e, by simp [nameOf, e]⟩

/-- C12, amended: when the name index maps each item's display name back to the item's
index, `getResults` succeeds on a best chromosome of the length of the sampling set,
whatever the order `order` of the map iteration.  The count it reports for item `s` is
the number of true slots `j` with `sampleSet[j] = s`.  Its cost and area are the totals
of the first loop of `getFitness` on the same chromosome (the exact sums, wrapped to 64
bits).  Its score is the `float64` sum, over the map entries in iteration order, of
`score[item] * float64(count)`, divided by `float64(targetPopulation)`.  When the scores
are whole numbers whose absolute values add up to at most `2^53` over the sampling set,
no operation rounds: the score total is the total of the second loop of `getFitness`,
the score is that total divided by the target population, and for a chromosome within
both limits the fitness is the score multiplied by `100`. -/
theorem getResults_matches_fitness (TreeInfo : List info) (TreeIdx : List (String × Nat))
    (order : CountMap → CountMap) (p : TreePlanter) (best : List Bool)
    (hbest : deref p.heap p.bestChromosome = some best)
    (hlen : best.length = p.sampleSet.length)
    (hss : ∀ s ∈ p.sampleSet, s < TreeInfo.length)
    (hv : SlotsValid p)
    (hidx : ∀ (s : Nat) (t : info), TreeInfo[s]? = some t →
      lookupIdx TreeIdx t.CommonName = s)
    (horder : ∀ m, (order m).Perm m) :
    ∃ r : CountMap × F64 × Int × Int,
      getResults TreeInfo TreeIdx order p = some r ∧
      (∀ s, s < TreeInfo.length →
        countOf r.1 (nameOf TreeInfo s) =
          (((trueSlots best best.length).map (fun j => p.sampleSet.getD j 0)).count s : Int)) ∧
      r.2.2.1 = wrapInt (decodedTotal p.area p.sampleSet best) ∧
      r.2.2.2 = wrapInt (decodedTotal p.cost p.sampleSet best) ∧
      costAreaLoop p best best.length = some (r.2.2.2, r.2.2.1) ∧
      r.2.1 = F64.div
        ((order r.1).foldl (fun acc e =>
          F64.add acc (F64.mul (p.score.getD (lookupIdx TreeIdx e.1) (F64.fin 0))
            (F64.ofInt e.2))) (F64.fin 0))
        (F64.ofInt p.population) ∧
      (∀ n : List Int, p.score = intScores n → absTotal n p.sampleSet ≤ 2 ^ 53 →
        scoreLoop p best best.length =
          some (F64.fin ((decodedTotal n p.sampleSet best : Int) : ℚ)) ∧
        r.2.1 = F64.div (F64.fin ((decodedTotal n p.sampleSet best : Int) : ℚ))
          (F64.ofInt p.population) ∧
        (InInt64 (decodedTotal p.cost p.sampleSet best) →
          InInt64 (decodedTotal p.area p.sampleSet best) →
          decodedTotal p.cost p.sampleSet best ≤ p.costLimit →
          decodedTotal p.area p.sampleSet best ≤ p.areaLimit →
          fitnessOf p best = some (F64.mul r.2.1 (F64.fin 100)))) := by
  have hname : ∀ s, s < TreeInfo.length → lookupIdx TreeIdx (nameOf TreeInfo s) = s := by
    intro s hs
    obtain ⟨e1, e2⟩ := nameOf_eq TreeInfo s hs
    rw [e2]; exact hidx s _ e1
  have hslot : ∀ j ∈ trueSlots best best.length, p.sampleSet.getD j 0 ∈ p.sampleSet := by
    intro j hj
    have hj1 : j < p.sampleSet.length := hlen ▸ mem_trueSlots_lt best _ j hj
    have e := List.getElem?_eq_getElem hj1
    have : p.sampleSet.getD j 0 = p.sampleSet[j] := by simp [List.getD, e]
    rw [this]; exact List.getElem_mem hj1
  have hslotidx : ∀ j ∈ trueSlots best best.length,
      lookupIdx TreeIdx (nameOf TreeInfo (p.sampleSet.getD j 0)) = p.sampleSet.getD j 0 :=
    fun j hj => hname _ (hss _ (hslot j hj))
  have hdec := decodeLoop_eq TreeInfo p best hss p.sampleSet.length hlen.ge le_rfl
  rw [← hlen] at hdec
  generalize hnames : (trueSlots best best.length).map
      (fun j => nameOf TreeInfo (p.sampleSet.getD j 0)) = names at hdec
  have hkeys : ∀ e ∈ tally names, ∃ s ∈ p.sampleSet, e.1 = nameOf TreeInfo s := by
    refine foldl_incr_keys _ [] (fun k => ∃ s ∈ p.sampleSet, k = nameOf TreeInfo s) ?_ ?_
    · intro k hk
      rw [← hnames] at hk
      obtain ⟨j, hj, rfl⟩ := List.mem_map.mp hk
      exact ⟨_, hslot j hj, rfl⟩
    · intro e he; cases he
  have hperm := horder (tally names)
  have hvalid : ∀ e ∈ order (tally names),
      lookupIdx TreeIdx e.1 < p.score.length ∧
      lookupIdx TreeIdx e.1 < p.area.length ∧ lookupIdx TreeIdx e.1 < p.cost.length := by
    intro e he
    obtain ⟨s, hs, hes⟩ := hkeys e (hperm.subset he)
    rw [hes, hname s (hss s hs)]
    exact ⟨(hv s hs).2.2, (hv s hs).2.1, (hv s hs).1⟩
  have htot := totalsLoop_eq TreeIdx p _ hvalid _ le_rfl
  rw [List.take_length] at htot
  have hsumInt : ∀ g : Nat → Int,
      ((order (tally names)).map (fun e => g (lookupIdx TreeIdx e.1) * e.2)).sum =
        ((trueSlots best best.length).map (fun j => g (p.sampleSet.getD j 0))).sum := by
    intro g
    rw [(hperm.map _).sum_eq]
    have h := (tally_sums (fun k => g (lookupIdx TreeIdx k)) names [] (fun e he => by cases he)).1
    unfold tally
    rw [h, ← hnames, List.map_map]
    simp only [List.map_nil, List.sum_nil, zero_add]
    congr 1
    apply List.map_congr_left
    intro j hj
    simp only [Function.comp, hslotidx j hj]
  have hpos : ∀ e ∈ order (tally names), 1 ≤ e.2 := fun e he =>
    (tally_sums (fun _ => 0) names [] (fun e he => by cases he)).2 e (hperm.subset he)
  have hA := hsumInt (fun s => p.area.getD s 0)
  have hC := hsumInt (fun s => p.cost.getD s 0)
  rw [hA, hC] at htot
  have hres : getResults TreeInfo TreeIdx order p = some
      (tally names,
       F64.div ((order (tally names)).foldl (fun acc e =>
          F64.add acc (F64.mul (p.score.getD (lookupIdx TreeIdx e.1) (F64.fin 0))
            (F64.ofInt e.2))) (F64.fin 0)) (F64.ofInt p.population),
       wrapInt (decodedTotal p.area p.sampleSet best),
       wrapInt (decodedTotal p.cost p.sampleSet best)) := by
    simp only [getResults, hbest, ← hlen, hdec, htot, Option.bind_eq_bind, Option.some_bind,
      decodedTotal]
  refine ⟨_, hres, ?_, rfl, rfl, ?_, rfl, ?_⟩
  · intro s hs
    show countOf (tally _) _ = _
    unfold tally
    rw [countOf_foldl_incr]
    simp only [countOf, zero_add, Nat.cast_inj]
    have hcomp : names =
        ((trueSlots best best.length).map (fun j => p.sampleSet.getD j 0)).map
          (nameOf TreeInfo) := by
      rw [← hnames, List.map_map]; rfl
    rw [hcomp]
    apply count_map_of_inj_on
    intro x hx hxs
    obtain ⟨j, hj, rfl⟩ := List.mem_map.mp hx
    rw [← hname _ (hss _ (hslot j hj)), hxs, hname s hs]
  · exact costAreaLoop_eq p best hv.costArea hlen.le _ le_rfl
  · intro n hn hb
    have hsl : scoreLoop p best best.length =
        some (F64.fin ((decodedTotal n p.sampleSet best : Int) : ℚ)) := by
      have h := scoreLoop_eq p best hv hlen.le _ le_rfl
      have h2 := decodedScore_intScores n p.sampleSet best hlen.le hb
      unfold decodedScore at h2
      rw [h, hn, h2]
    have hbound := hsumInt (fun s => |n.getD s 0|)
    have htrue := trueSlots_abs_le n p.sampleSet best hlen.le
    have hfold : (order (tally names)).foldl (fun acc e =>
          F64.add acc (F64.mul (p.score.getD (lookupIdx TreeIdx e.1) (F64.fin 0))
            (F64.ofInt e.2))) (F64.fin 0) =
        F64.fin ((decodedTotal n p.sampleSet best : Int) : ℚ) := by
      have habs : ∀ e ∈ order (tally names),
          |n.getD (lookupIdx TreeIdx e.1) 0 * e.2| = |n.getD (lookupIdx TreeIdx e.1) 0| * e.2 := by
        intro e he
        have h0 : (0 : Int) ≤ e.2 := by have := hpos e he; omega
        rw [abs_mul, abs_of_nonneg h0]
      have hmapabs : (order (tally names)).map
          (fun e => |n.getD (lookupIdx TreeIdx e.1) 0 * e.2|) =
          (order (tally names)).map (fun e => |n.getD (lookupIdx TreeIdx e.1) 0| * e.2) :=
        List.map_congr_left habs
      have hle : ∀ e ∈ order (tally names),
          |n.getD (lookupIdx TreeIdx e.1) 0 * e.2| ≤ 2 ^ 53 := by
        intro e he
        have h1 : |n.getD (lookupIdx TreeIdx e.1) 0 * e.2| ≤
            ((order (tally names)).map
              (fun e => |n.getD (lookupIdx TreeIdx e.1) 0 * e.2|)).sum :=
          List.single_le_sum (by
            intro x hx
            obtain ⟨k, _, rfl⟩ := List.mem_map.mp hx
            exact abs_nonneg _) _ (List.mem_map_of_mem _ he)
        rw [hmapabs, hbound] at h1
        linarith
      have h := foldl_add_int (fun e : String × Int => n.getD (lookupIdx TreeIdx e.1) 0 * e.2)
        (fun e => F64.mul (p.score.getD (lookupIdx TreeIdx e.1) (F64.fin 0)) (F64.ofInt e.2))
        (order (tally names))
        (by
          intro e he
          beta_reduce
          rw [hn, getD_intScores]
          show F64.rnd (((n.getD (lookupIdx TreeIdx e.1) 0 : Int) : ℚ) * ((e.2 : Int) : ℚ)) = _
          have e1 : ((n.getD (lookupIdx TreeIdx e.1) 0 : Int) : ℚ) * ((e.2 : Int) : ℚ) =
              ((n.getD (lookupIdx TreeIdx e.1) 0 * e.2 : Int) : ℚ) := by push_cast; ring
          rw [e1]
          exact rnd_int _ (hle e he))
        0 (by
          rw [hmapabs, hbound]
          simp only [abs_zero, zero_add]
          linarith)
      have hs := hsumInt (fun s => n.getD s 0)
      simp only [Int.cast_zero, zero_add] at h
      rw [h, hs]
      rfl
    refine ⟨hsl, ?_, ?_⟩
    · show F64.div _ _ = _
      rw [hfold]
    · intro hcr har hc ha
      show fitnessOf p best = some (F64.mul (F64.div _ _) (F64.fin 100))
      rw [hfold, fitnessOf_eq p best hv hlen.le, wrapInt_of_range _ hcr.1 hcr.2,
        wrapInt_of_range _ har.1 har.2, if_neg (by omega), hn,
        decodedScore_intScores n p.sampleSet best hlen.le hb]

/-- C12 (amended) on `smallCatalog` with the best chromosome `[A, -, B, -]` and the map
visited in reverse order: `getResults` reports one A and one B, area `2`, cost `3` and
score `60`, and the fitness is `60 * 100 = 6000`. -/
theorem getResults_matches_fitness_witness :
    ∃ r : CountMap × F64 × Int × Int,
      getResults smallCatalog smallIdx List.reverse smallBest = some r ∧
      countOf r.1 "A" = 1 ∧ countOf r.1 "B" = 1 ∧
      r.2.2.1 = 2 ∧ r.2.2.2 = 3 ∧ r.2.1 = F64.fin 60 ∧
      fitnessOf smallBest [true, false, true, false] = some (F64.fin 6000) := by
  obtain ⟨r, h1, hcount, ha, hc, _, _, hex⟩ :=
    getResults_matches_fitness smallCatalog smallIdx List.reverse smallBest
      [true, false, true, false] (by decide) (by decide) (by decide)
      (by unfold SlotsValid; decide)
      (by
        intro s t h
        rcases s with _ | _ | s
        · simp [smallCatalog] at h; subst h; decide
        · simp [smallCatalog] at h; subst h; decide
        · simp [smallCatalog] at h)
      (fun m => List.reverse_perm m)
  obtain ⟨_, hs, hf⟩ := hex [40, 20] (by decide!) (by decide)
  have hs60 : r.2.1 = F64.fin 60 := hs.trans (by decide!)
  have hfit := hf (by unfold InInt64; decide) (by unfold InInt64; decide) (by decide)
    (by decide)
  rw [hs60] at hfit
  exact ⟨r, h1, (hcount 0 (by decide)).trans (by decide),
    (hcount 1 (by decide)).trans (by decide), ha.trans (by decide), hc.trans (by decide),
    hs60, hfit.trans (by decide!)⟩

/-- C12, as stated, fails: `init` on `centCatalog` with limits 6 builds six slots of item
A, whose score is the `float64` value of `0.2`, and one chromosome of all six; the first
generation records it with best fitness `120`.  `getFitness` adds the score six times,
which gives `5404319552844595 * 2^-52`; `getResults` multiplies it by `6`, which gives
the next `float64` value `5404319552844596 * 2^-52`.  The score of `getResults` is
neither the total of `getFitness` nor the best fitness divided by `100`. -/
theorem getResults_score_rounds :
    F64.rnd (1 / 100) = F64.fin (5764607523034235 / 2 ^ 59) ∧
    (init centCatalog zeroPlanter 0 6 6 1 [1] (fun _ => 0)
        (fun _ => [0, 1, 2, 3, 4, 5])).map
      (fun r => (r.sampleSet, r.heap, r.score)) =
      some ([0, 0, 0, 0, 0, 0], [[true, true, true, true, true, true]],
        [F64.fin (3602879701896397 / 2 ^ 54)]) ∧
    ((init centCatalog zeroPlanter 0 6 6 1 [1] (fun _ => 0)
        (fun _ => [0, 1, 2, 3, 4, 5])).bind evalPhase).map
      (fun e => (e.1.bestFit, e.1.bestChromosome)) = some (F64.fin 120, some 0) ∧
    ((init centCatalog zeroPlanter 0 6 6 1 [1] (fun _ => 0)
        (fun _ => [0, 1, 2, 3, 4, 5])).bind evalPhase).bind
      (fun e => scoreLoop e.1 [true, true, true, true, true, true] 6) =
      some (F64.fin (5404319552844595 / 2 ^ 52)) ∧
    ((init centCatalog zeroPlanter 0 6 6 1 [1] (fun _ => 0)
        (fun _ => [0, 1, 2, 3, 4, 5])).bind evalPhase).bind
      (fun e => getResults centCatalog [("A", 0)] id e.1) =
      some ([("A", 6)], F64.fin (5404319552844596 / 2 ^ 52), 6, 6) ∧
    F64.div (F64.fin 120) (F64.fin 100) = F64.fin (5404319552844595 / 2 ^ 52) := by
  refine ⟨by decide!, by decide!, by decide!, by decide!, by decide!, by decide!⟩

end SmartAfforestation
